import Mathlib

/-!
# playlist-download: a verification development

A shallow embedding of the pure and control-flow parts of the Go program
(`src/yt/yt.go`, `src/utils/utils.go`, `src/downloader/downloader.go`,
`src/parser/parser.go`, `src/tags/tags.go`) together with theorems about them.

Conventions of the embedding:

* Go `int` is a 64-bit two's-complement integer; it is represented by `Int` and
  every arithmetic result that can leave the range is passed through `wrapInt64`.
* Go `error` values are represented by their message (`String`) or by a
  structure of their parts, `nil` by `none`.
* Go strings are represented by `String` / `List Char`; every byte the embedded
  code inspects is an ASCII byte, which in UTF-8 occurs only as a character of
  its own.
* Calls that leave the program (the YouTube API, the download and tagging
  pipeline run for a track) and `url.Parse` of the Go standard library are
  parameters of the embedded functions.  The standard library functions
  `strings.Trim`, `strings.Split`, `strings.Index`, `regexp.ReplaceAllString` and
  `time.Parse` are embedded for the arguments the program calls them with.
* The goroutines of the worker pool are embedded as a transition system.
-/

namespace PlaylistDownload

/-- Two's-complement wrap-around of a Go `int` (64 bits). -/
def wrapInt64 (x : Int) : Int := (x + 2 ^ 63) % 2 ^ 64 - 2 ^ 63

/-! ## `src/yt/yt.go` -/

namespace youtube

/-- The Go struct `SearchResult`. -/
structure SearchResult where
  Title : String
  Uploader : String
  URL : String
  Duration : String
  ID : String
  Live : Bool
  Source : String
  ExtraInfo : List String

/-- The package variable `durationMatchThreshold`. -/
def durationMatchThreshold : Int := 5

/-- The `for _, result := range results` loop of `FindClosestMatchingVideo`:
`some id` when the loop body executes `return result.ID, nil`, `none` when the
loop runs to its end.  `durationsMap` is the Go map, a missing key reading as 0. -/
def matchLoop (durationsMap : String → Int) (durationSeconds : Int) :
    List SearchResult → Option String
  | [] => none
  | result :: rest =>
    let dur := durationsMap result.ID
    if dur > 0 then
      let allowedStart := wrapInt64 (durationSeconds - durationMatchThreshold)
      let allowedEnd := wrapInt64 (durationSeconds + durationMatchThreshold)
      if dur ≥ allowedStart ∧ dur ≤ allowedEnd then
        some result.ID
      else matchLoop durationsMap durationSeconds rest
    else matchLoop durationsMap durationSeconds rest

/-- The function `FindClosestMatchingVideo`.  Its two collaborators
`searchYouTubeAPI` and `fetchDurationsForVideos` perform network calls and are
parameters; each returns either an error message or its value. -/
def FindClosestMatchingVideo
    (searchYouTubeAPI : String → Int → Except String (List SearchResult))
    (fetchDurationsForVideos : List SearchResult → Except String (String → Int))
    (searchQuery : String) (durationSeconds : Int) : Except String String :=
  match searchYouTubeAPI searchQuery 10 with
  | .error err => .error err
  | .ok results =>
    match results with
    | [] => .error ("no songs found for " ++ searchQuery)
    | first :: _ =>
      match fetchDurationsForVideos results with
      | .ok durationsMap =>
        match matchLoop durationsMap durationSeconds results with
        | some id => .ok id
        | none => .ok first.ID
      | .error _ => .ok first.ID

/-- A candidate carrying only an id, as `searchYouTubeAPI` would build it. -/
def candidate (id : String) : SearchResult :=
  { Title := "", Uploader := "", URL := "https://youtube.com/watch?v=" ++ id,
    Duration := "", ID := id, Live := false, Source := "youtube", ExtraInfo := [] }

/-- A Go map given by its entries; a missing key reads as 0. -/
def mapOf (entries : List (String × Int)) : String → Int :=
  fun k => (entries.lookup k).getD 0

end youtube

/-! ## `src/utils/utils.go` -/

namespace utils

/-- The error built by
`fmt.Errorf("all retries failed after %d attempts. Last error: %w", maxRetries, err)`:
the attempt count printed by `%d` and the error wrapped by `%w` (`none` when the
wrapped `err` is still `nil`). -/
structure RetryError (ε : Type) where
  attempts : Int
  lastErr : Option ε
deriving DecidableEq, Repr

/-- What a call of `Retry` leaves behind: the returned error (`none` for `nil`),
the state of the world the operation acts on, and two counters kept for the
statements below, the number of invocations of `f` and of `time.Sleep`. -/
structure RetryRun (σ ε : Type) where
  result : Option (RetryError ε)
  world : σ
  calls : Nat
  sleeps : Nat
deriving DecidableEq, Repr

/-- The `for i := 0; i < maxRetries; i++` loop of `Retry` with `remaining`
iterations left.  The operation `f` is a Go closure: it reads and updates the
state `σ` and returns an error or `nil`.  `err` is the local variable `err`. -/
def retryLoop {σ ε : Type} (maxRetries : Int) (f : σ → Option ε × σ) :
    (remaining : Nat) → (err : Option ε) → (world : σ) → (calls sleeps : Nat) →
      RetryRun σ ε
  | 0, err, world, calls, sleeps =>
    { result := some { attempts := maxRetries, lastErr := err },
      world := world, calls := calls, sleeps := sleeps }
  | remaining + 1, _, world, calls, sleeps =>
    match f world with
    | (none, world') =>
      { result := none, world := world', calls := calls + 1, sleeps := sleeps }
    | (some e, world') =>
      retryLoop maxRetries f remaining (some e) world' (calls + 1) (sleeps + 1)

/-- The function `Retry` (the delay only parameterises `time.Sleep` and is not
represented).  The loop runs `maxRetries` times, or not at all when
`maxRetries ≤ 0`. -/
def Retry {σ ε : Type} (maxRetries : Int) (f : σ → Option ε × σ) (world : σ) :
    RetryRun σ ε :=
  retryLoop maxRetries f maxRetries.toNat none world 0 0

/-- The state of the world after `j` invocations of `f`, whatever they returned. -/
def worldAfter {σ ε : Type} (f : σ → Option ε × σ) (world : σ) : Nat → σ
  | 0 => world
  | j + 1 => (f (worldAfter f world j)).2

/-- What the invocation number `j + 1` of `f` returns (attempts counted from 1). -/
def attemptResult {σ ε : Type} (f : σ → Option ε × σ) (world : σ) (j : Nat) : Option ε :=
  (f (worldAfter f world j)).1

/-- The characters of the bracket expression of `invalidCharsRegex`,
`[\\/:*?"<>|]`. -/
def invalidChars : List Char := ['\\', '/', ':', '*', '?', '"', '<', '>', '|']

/-- The method `ReplaceAllString` for a regular expression that is one bracket
expression: every match is one character of the class, and each is replaced by
`repl` (which contains no `$`). -/
def replaceAllClass (cls : List Char) (repl : List Char) : List Char → List Char
  | [] => []
  | c :: cs => if c ∈ cls then repl ++ replaceAllClass cls repl cs
               else c :: replaceAllClass cls repl cs

/-- The function `RemoveIllegalPathChars`. -/
def RemoveIllegalPathChars (name : String) : String :=
  String.mk (replaceAllClass invalidChars "_".data name.data)

end utils

/-! ## `src/downloader/downloader.go` -/

namespace downloader

/-- The function `sanitizeFileName`. -/
def sanitizeFileName (name : String) : String :=
  let name := utils.RemoveIllegalPathChars name
  name

/-- The body of the result loop of `DownloadTrackList`:
`if err != nil { finalErr = err }`. -/
def collectStep {ε : Type} (finalErr : Option ε) (err : Option ε) : Option ε :=
  match err with
  | some e => some e
  | none => finalErr

/-- Step 4 of `DownloadTrackList`: `finalErr` starts as `nil`, the loop body is
run once for each value received from `results`, in the order of arrival, and
`finalErr` is returned. -/
def collectResults {ε : Type} (arrivals : List (Option ε)) : Option ε :=
  arrivals.foldl collectStep none

/-! ### The worker pool of `DownloadTrackList`

`DownloadTrackList` and the goroutines it starts are embedded as a transition
system.  A state holds the position of the main goroutine, the position of every
worker goroutine, and the contents of the two channels; a step is one action of
one goroutine, and a goroutine whose next action is a blocked channel operation
has no step.  Any goroutine that has a step may take it, so that the runs of the
system are all interleavings the Go scheduler can produce.

Both channels are created with capacity `len(tracks)`: a send is possible while
the buffer holds fewer values than that.  (For an empty track list the capacity
is 0; no send is then ever attempted.) -/

/-- Where a worker goroutine stands in `workerFunc`. -/
inductive WorkerPC (Track ε : Type) where
  /-- At `for track := range jobs`: waiting for a job or for the channel to be
  closed and drained. -/
  | ranging
  /-- Holding a received `track`, about to call `processSingleTrack`. -/
  | processing (track : Track)
  /-- At `results <- err`. -/
  | sending (err : Option ε)
  /-- The `range` loop has ended and `workerFunc` has returned. -/
  | exited
deriving DecidableEq, Repr

/-- Where the main goroutine stands in `DownloadTrackList`. -/
inductive MainPC (Track ε : Type) where
  /-- In the loop of step 2, `w` workers started so far. -/
  | startWorkers (w : Nat)
  /-- In the loop of step 3 with `rest` still to be sent; with nothing left, at
  `close(jobs)`. -/
  | sendJobs (rest : List Track)
  /-- In the loop of step 4 with loop counter `i` and local variable `finalErr`. -/
  | collect (i : Nat) (finalErr : Option ε)
  /-- After `return finalErr`. -/
  | returned (finalErr : Option ε)
deriving DecidableEq, Repr

/-- A state of the worker pool.  The fields `ran` and `received` are logs kept
for the statements about the pool: every call of `processSingleTrack` with the
error it returned, and every value the main goroutine received from `results`,
both in the order in which they happened. -/
structure PoolState (Track ε : Type) where
  main : MainPC Track ε
  workers : List (WorkerPC Track ε)
  jobs : List Track
  jobsClosed : Bool
  results : List (Option ε)
  ran : List (Track × Option ε)
  received : List (Option ε)
deriving DecidableEq, Repr

/-- The goroutines of the pool: the caller of `DownloadTrackList` and the
workers, numbered in the order in which they are started. -/
inductive Actor where
  | main
  | worker (j : Nat)
deriving DecidableEq, Repr

/-- The state in which `DownloadTrackList` is entered (after the two `make`). -/
def initialPool {Track ε : Type} : PoolState Track ε :=
  { main := .startWorkers 0, workers := [], jobs := [], jobsClosed := false,
    results := [], ran := [], received := [] }

/-- One action of the main goroutine in `DownloadTrackList`: start a worker or
leave the loop of step 2; send a track on `jobs` or close it; receive a value
from `results` and update `finalErr`, or return.  `none`: blocked, or returned. -/
def DownloadTrackList.step {Track ε : Type} (tracks : List Track) (workerCount : Int)
    (s : PoolState Track ε) : Option (PoolState Track ε) :=
  match s.main with
  | .startWorkers w =>
    if (w : Int) < workerCount then
      some { s with main := .startWorkers (w + 1), workers := s.workers ++ [.ranging] }
    else some { s with main := .sendJobs tracks }
  | .sendJobs (track :: rest) =>
    if s.jobs.length < tracks.length then
      some { s with main := .sendJobs rest, jobs := s.jobs ++ [track] }
    else none
  | .sendJobs [] => some { s with main := .collect 0 none, jobsClosed := true }
  | .collect i finalErr =>
    if i < tracks.length then
      match s.results with
      | [] => none
      | err :: more =>
        some { s with main := .collect (i + 1) (collectStep finalErr err), results := more,
                      received := s.received ++ [err] }
    else some { s with main := .returned finalErr }
  | .returned _ => none

/-- One action of worker `j` in `workerFunc`: receive a track from `jobs`, or
leave the loop when `jobs` is closed and empty; call `processSingleTrack`; send
the error on `results`.  `processSingleTrack` reaches out to the network: its
result is given by `process`, from the number of calls made before and the track.
`none`: no such worker, blocked, or exited. -/
def workerFunc.step {Track ε : Type} (tracks : List Track) (process : Nat → Track → Option ε)
    (j : Nat) (s : PoolState Track ε) : Option (PoolState Track ε) :=
  match s.workers[j]? with
  | none => none
  | some .ranging =>
    match s.jobs with
    | track :: more =>
      some { s with workers := s.workers.set j (.processing track), jobs := more }
    | [] =>
      if s.jobsClosed then some { s with workers := s.workers.set j .exited } else none
  | some (.processing track) =>
    some { s with workers := s.workers.set j (.sending (process s.ran.length track)),
                  ran := s.ran ++ [(track, process s.ran.length track)] }
  | some (.sending err) =>
    if s.results.length < tracks.length then
      some { s with workers := s.workers.set j .ranging, results := s.results ++ [err] }
    else none
  | some .exited => none

/-- One step of the pool, taken by the goroutine `a`. -/
def poolStep {Track ε : Type} (tracks : List Track) (workerCount : Int)
    (process : Nat → Track → Option ε) (s : PoolState Track ε) :
    Actor → Option (PoolState Track ε)
  | .main => DownloadTrackList.step tracks workerCount s
  | .worker j => workerFunc.step tracks process j s

/-- The state reached from `s` when the goroutines act in the order `schedule`;
`none` when a goroutine is scheduled that has no step. -/
def runSchedule {Track ε : Type} (tracks : List Track) (workerCount : Int)
    (process : Nat → Track → Option ε) :
    (schedule : List Actor) → PoolState Track ε → Option (PoolState Track ε)
  | [], s => some s
  | a :: rest, s =>
    match poolStep tracks workerCount process s a with
    | none => none
    | some s' => runSchedule tracks workerCount process rest s'

/-- A run of `DownloadTrackList` under a schedule, from its entry. -/
def DownloadTrackList {Track ε : Type} (tracks : List Track) (workerCount : Int)
    (process : Nat → Track → Option ε) (schedule : List Actor) : Option (PoolState Track ε) :=
  runSchedule tracks workerCount process schedule initialPool

/-! Bookkeeping over pool states, used to state the invariant of the pool and
the bound on the length of its runs. -/

/-- The tracks the main goroutine has still to send on `jobs`. -/
def unsentTracks {Track ε : Type} (tracks : List Track) : MainPC Track ε → List Track
  | .startWorkers _ => tracks
  | .sendJobs rest => rest
  | .collect _ _ => []
  | .returned _ => []

/-- The tracks workers have received and not yet processed. -/
def heldTracks {Track ε : Type} : List (WorkerPC Track ε) → List Track
  | [] => []
  | .processing track :: ws => track :: heldTracks ws
  | .ranging :: ws => heldTracks ws
  | .sending _ :: ws => heldTracks ws
  | .exited :: ws => heldTracks ws

/-- The results workers have computed and not yet sent. -/
def heldResults {Track ε : Type} : List (WorkerPC Track ε) → List (Option ε)
  | [] => []
  | .sending err :: ws => err :: heldResults ws
  | .ranging :: ws => heldResults ws
  | .processing _ :: ws => heldResults ws
  | .exited :: ws => heldResults ws

/-- The number of workers that have not exited. -/
def liveWorkers {Track ε : Type} : List (WorkerPC Track ε) → Nat
  | [] => 0
  | .exited :: ws => liveWorkers ws
  | .ranging :: ws => liveWorkers ws + 1
  | .processing _ :: ws => liveWorkers ws + 1
  | .sending _ :: ws => liveWorkers ws + 1

/-- What holds of the rest of the state at each position of the main goroutine. -/
def mainInv {Track ε : Type} (tracks : List Track) (workerCount : Int)
    (s : PoolState Track ε) : MainPC Track ε → Prop
  | .startWorkers w =>
    s.workers.length = w ∧ (w = 0 ∨ (w : Int) ≤ workerCount) ∧ s.jobsClosed = false ∧
      s.received = []
  | .sendJobs _ =>
    s.workers.length = workerCount.toNat ∧ s.jobsClosed = false ∧ s.received = []
  | .collect i finalErr =>
    s.workers.length = workerCount.toNat ∧ s.jobsClosed = true ∧ s.received.length = i ∧
      finalErr = collectResults s.received ∧ i ≤ tracks.length
  | .returned finalErr =>
    s.workers.length = workerCount.toNat ∧ s.jobsClosed = true ∧
      s.received.length = tracks.length ∧ finalErr = collectResults s.received

/-- The invariant of the pool: every track is in exactly one place (not yet
sent, in `jobs`, held by a worker, or processed), so is every result (held by a
worker, in `results`, or received), and no worker exits before `jobs` is closed
and empty. -/
structure PoolInv {Track ε : Type} (tracks : List Track) (workerCount : Int)
    (s : PoolState Track ε) : Prop where
  tracksAcct :
    (unsentTracks tracks s.main ++ s.jobs ++ heldTracks s.workers ++ s.ran.map Prod.fst).Perm
      tracks
  resultsAcct :
    (heldResults s.workers ++ s.results ++ s.received).Perm (s.ran.map Prod.snd)
  mainOk : mainInv tracks workerCount s s.main
  exitedOk : WorkerPC.exited ∈ s.workers → s.jobs = [] ∧ s.jobsClosed = true

/-- The number of steps the main goroutine has before it, plus one step for
every worker still to be started (its exit). -/
def mainFuel {Track ε : Type} (tracks : List Track) (workerCount : Int) : MainPC Track ε → Nat
  | .startWorkers w => 2 * (workerCount.toNat - w) + 1 + (tracks.length + 1) + (tracks.length + 1)
  | .sendJobs rest => rest.length + 1 + (tracks.length + 1)
  | .collect i _ => (tracks.length - i) + 1
  | .returned _ => 0

/-- A bound on the number of steps the pool can still take. -/
def poolMeasure {Track ε : Type} (tracks : List Track) (workerCount : Int)
    (s : PoolState Track ε) : Nat :=
  mainFuel tracks workerCount s.main + 3 * (unsentTracks tracks s.main).length
    + 3 * s.jobs.length + 2 * (heldTracks s.workers).length + (heldResults s.workers).length
    + liveWorkers s.workers

end downloader

/-! ## Go standard library: package `strings`, for a one-character argument -/

namespace strings

/-- The function `strings.Trim(s, cutset)` for a cutset of one character: the
leading and the trailing occurrences of `cut` are removed. -/
def Trim (s : List Char) (cut : Char) : List Char :=
  ((s.dropWhile (fun c => c == cut)).reverse.dropWhile (fun c => c == cut)).reverse

/-- The function `strings.Split(s, sep)` for a separator of one character: the
pieces between the separators, `[""]` for the empty string. -/
def Split (s : List Char) (sep : Char) : List (List Char) :=
  match s with
  | [] => [[]]
  | c :: cs =>
    if c = sep then [] :: Split cs sep
    else
      match Split cs sep with
      | [] => [[c]]
      | piece :: pieces => (c :: piece) :: pieces

/-- The function `strings.Index(s, substr)` for a substring of one character:
the position of its first occurrence, `-1` when there is none. -/
def Index (s : List Char) (c : Char) : Int :=
  match s with
  | [] => -1
  | x :: xs =>
    if x = c then 0
    else if Index xs c = -1 then -1 else Index xs c + 1

end strings

/-! ## `src/parser/parser.go` -/

namespace parser

/-- The Go type `SpotifyURLType` with its four constants. -/
inductive SpotifyURLType where
  | UnknownURL
  | TrackURL
  | AlbumURL
  | PlaylistURL
deriving DecidableEq, Repr

/-- The fields of Go's `url.URL` that a parsed reference carries. -/
structure URL where
  Scheme : String
  Host : String
  Path : String
  RawQuery : String
  Fragment : String
deriving DecidableEq, Repr

/-- The segments `ParseSpotifyURL` sees in a path:
`strings.Split(strings.Trim(path, "/"), "/")`. -/
def pathSegments (path : String) : List (List Char) :=
  strings.Split (strings.Trim path.data '/') '/'

open SpotifyURLType in
/-- The function `ParseSpotifyURL`; `urlParse` stands for `url.Parse` of the Go
standard library.  The three components are the three results of the Go
function, the last being the error (`none` for `nil`). -/
def ParseSpotifyURL (urlParse : String → Except String URL) (spotifyURL : String) :
    SpotifyURLType × String × Option String :=
  match urlParse spotifyURL with
  | .error _ => (UnknownURL, "", some ("invalid URL: " ++ spotifyURL))
  | .ok parsed =>
    if parsed.Host = "" then (UnknownURL, "", some ("invalid URL: " ++ spotifyURL))
    else
      let splitPath := pathSegments parsed.Path
      if splitPath.length < 2 then (UnknownURL, "", some "URL path is too short")
      else
        let resourceType := splitPath.getD 0 []
        let spotifyID := splitPath.getD 1 []
        let idx := strings.Index spotifyID '?'
        let spotifyID := if idx ≠ -1 then spotifyID.take idx.toNat else spotifyID
        if resourceType = "track".data then (TrackURL, String.mk spotifyID, none)
        else if resourceType = "album".data then (AlbumURL, String.mk spotifyID, none)
        else if resourceType = "playlist".data then (PlaylistURL, String.mk spotifyID, none)
        else (UnknownURL, "",
          some ("unsupported Spotify resource type: " ++ String.mk resourceType))

/-- The values `url.Parse` returns on the references used as examples in this
development (scheme, host, path, raw query, fragment); any other string is
answered with a parse error. -/
def urlParseSample (rawURL : String) : Except String URL :=
  if rawURL = "https://x/playlist/ABC123?si=zzz" then
    .ok { Scheme := "https", Host := "x", Path := "/playlist/ABC123", RawQuery := "si=zzz",
          Fragment := "" }
  else if rawURL = "https://x/foo" then
    .ok { Scheme := "https", Host := "x", Path := "/foo", RawQuery := "", Fragment := "" }
  else if rawURL = "https://x/foo/bar" then
    .ok { Scheme := "https", Host := "x", Path := "/foo/bar", RawQuery := "", Fragment := "" }
  else .error "parse error"

end parser

/-! ## Go standard library: `time.Parse` for the layout `"2006-01-02"` -/

namespace time

/-- The helper `isDigit(s, i)` of `time/format.go`. -/
def isDigit (s : List Char) (i : Nat) : Bool :=
  match s.get? i with
  | none => false
  | some c => decide ('0' ≤ c ∧ c ≤ '9')

/-- The value of a digit character, `c - '0'`. -/
def digitVal (c : Char) : Int := (c.toNat : Int) - 48

/-- The helper `atoi`, on the at most four characters `time.Parse` hands it for
a year (so that `leadingInt` cannot overflow): an optional sign, then digits,
and nothing left over. -/
def atoi (s : List Char) : Option Int :=
  let neg := decide (s.head? = some '-')
  let s := if s.head? = some '-' ∨ s.head? = some '+' then s.drop 1 else s
  let digits := s.takeWhile (fun c => decide ('0' ≤ c ∧ c ≤ '9'))
  let rem := s.dropWhile (fun c => decide ('0' ≤ c ∧ c ≤ '9'))
  let x := digits.foldl (fun acc c => acc * 10 + digitVal c) 0
  if rem.length > 0 then none
  else if neg then some (-x) else some x

/-- The helper `getnum(s, fixed)`: a number of one or two digits, of exactly two
when `fixed`, and the rest of the input. -/
def getnum (s : List Char) (fixed : Bool) : Option (Int × List Char) :=
  if !isDigit s 0 then none
  else if !isDigit s 1 then
    if fixed then none
    else some (digitVal (s.getD 0 '0'), s.drop 1)
  else some (digitVal (s.getD 0 '0') * 10 + digitVal (s.getD 1 '0'), s.drop 2)

/-- The helper `skip(value, prefix)` for a prefix without spaces: `value` must
start with `prefix`, which is removed. -/
def skip (value : List Char) (pre : List Char) : Option (List Char) :=
  match pre with
  | [] => some value
  | p :: ps =>
    match value with
    | [] => none
    | v :: vs => if v ≠ p then none else skip vs ps

/-- The function `isLeap`. -/
def isLeap (year : Int) : Bool :=
  year % 4 == 0 && (year % 100 != 0 || year % 400 == 0)

/-- The table `daysBefore`: the number of days of a non-leap year before the end
of month `m`. -/
def daysBefore : List Int := [0, 31, 59, 90, 120, 151, 181, 212, 243, 273, 304, 334, 365]

/-- The function `daysIn(m, year)`. -/
def daysIn (m : Int) (year : Int) : Int :=
  if m = 2 ∧ isLeap year then 29
  else daysBefore.getD m.toNat 0 - daysBefore.getD (m.toNat - 1) 0

/-- The calendar date of a parsed `time.Time`. -/
structure Date where
  year : Int
  month : Int
  day : Int
deriving DecidableEq, Repr

/-- The function `time.Parse(layout, value)` for the layout `"2006-01-02"`,
following `parse` in `time/format.go` chunk by chunk: a year of four digits
(`stdLongYear`), the prefix `-` and a month of two digits (`stdZeroMonth`,
range 1 to 12), the prefix `-` and a day of two digits (`stdZeroDay`), no text
left over, and the day within the month.  `none` stands for a parse error. -/
def parseDate (value : List Char) : Option Date :=
  if value.length < 4 || !isDigit value 0 then none
  else
    match atoi (value.take 4) with
    | none => none
    | some year =>
      match skip (value.drop 4) ['-'] with
      | none => none
      | some value =>
        match getnum value true with
        | none => none
        | some (month, value) =>
          if month ≤ 0 ∨ 12 < month then none
          else
            match skip value ['-'] with
            | none => none
            | some value =>
              match getnum value true with
              | none => none
              | some (day, value) =>
                if value.length ≠ 0 then none
                else if day < 1 ∨ day > daysIn month year then none
                else some { year := year, month := month, day := day }

end time

/-! ## `src/tags/tags.go` -/

namespace tags

/-- The function `extractYear`.  `len(dateStr)` is the length in bytes;
`t.Year()` of a successfully parsed date is the year that was parsed. -/
def extractYear (dateStr : String) : Int :=
  let dateStr := if dateStr.utf8ByteSize = 4 then dateStr ++ "-01-01" else dateStr
  match time.parseDate dateStr.data with
  | none => 0
  | some t => t.year

end tags

/-! ## Go standard library: package `regexp`, for the expressions of the program

The regular expressions of `CleanTitleForSearch` are sequences of items, each a
character class (a literal character is the class of that character), possibly
with one of the operators `?`, `*`, `+`, or the assertion `\b`.  Matching
follows the leftmost-first rule of package `regexp`: the match found is the one
a backtracking search finds first, the operators being greedy. -/

namespace regexp

/-- One item of a regular expression. -/
inductive Item where
  /-- A character class `x`: one character of the class. -/
  | one (cls : Char → Bool)
  /-- The item `x?`: one character of the class if possible, else nothing. -/
  | opt (cls : Char → Bool)
  /-- The item `x*`: as many characters of the class as possible. -/
  | star (cls : Char → Bool)
  /-- The item `x+`: one character of the class, then `x*`. -/
  | plus (cls : Char → Bool)
  /-- The assertion `\b`: at an ASCII word boundary. -/
  | wordBoundary

/-- A regular expression: its items in sequence. -/
abbrev Regexp := List Item

/-- The class `\w`, `[0-9A-Za-z_]`. -/
def isWordChar (c : Char) : Bool :=
  decide (('0' ≤ c ∧ c ≤ '9') ∨ ('A' ≤ c ∧ c ≤ 'Z') ∨ ('a' ≤ c ∧ c ≤ 'z') ∨ c = '_')

/-- The assertion `\b` between the character `prev` before the position (none at
the start of the text) and the rest `input` of the text: `\w` on one side and
`\W` or an end of the text on the other. -/
def atWordBoundary (prev : Option Char) (input : List Char) : Bool :=
  (match prev with
    | some c => isWordChar c
    | none => false) !=
  (match input with
    | c :: _ => isWordChar c
    | [] => false)

/-- The greedy loop of `x*` followed by the rest `k` of the expression: take one
more character of the class and go on; when that way fails, stop here. -/
def starLoop (cls : Char → Bool) (k : Option Char → List Char → Option (List Char)) :
    Option Char → List Char → Option (List Char)
  | prev, [] => k prev []
  | prev, c :: cs =>
    if cls c then
      match starLoop cls k (some c) cs with
      | some rest => some rest
      | none => k prev (c :: cs)
    else k prev (c :: cs)

/-- Matching one item at a position, the rest `k` of the expression after it.
The result is the text left after the whole match, `none` without a match. -/
def matchItem (item : Item) (k : Option Char → List Char → Option (List Char))
    (prev : Option Char) (input : List Char) : Option (List Char) :=
  match item, input with
  | .one _, [] => none
  | .one cls, c :: cs => if cls c then k (some c) cs else none
  | .opt _, [] => k prev []
  | .opt cls, c :: cs =>
    if cls c then
      match k (some c) cs with
      | some rest => some rest
      | none => k prev (c :: cs)
    else k prev (c :: cs)
  | .star cls, input => starLoop cls k prev input
  | .plus _, [] => none
  | .plus cls, c :: cs => if cls c then starLoop cls k (some c) cs else none
  | .wordBoundary, input => if atWordBoundary prev input then k prev input else none

/-- The leftmost-first match of the expression that starts at the position given
by `prev` and `input`: the text left after the match, `none` when the
expression does not match here. -/
def matchHere : Regexp → Option Char → List Char → Option (List Char)
  | [] => fun _ input => some input
  | item :: items => matchItem item (matchHere items)

/-- The loop of `Regexp.replaceAll` over the positions of the text.  `skip` is
the number of characters still inside the match found last, `justMatched` says
that the last match ended at this position (no replacement is inserted for an
empty match right after another match).  Where the expression matches, the
replacement is written and the match is skipped; where it does not, the
character is copied. -/
def replaceFrom (re : Regexp) (repl : List Char) :
    (skip : Nat) → (justMatched : Bool) → (prev : Option Char) → (input : List Char) → List Char
  | 0, justMatched, prev, [] =>
    match matchHere re prev [] with
    | some _ => if justMatched then [] else repl
    | none => []
  | _ + 1, _, _, [] => []
  | skip + 1, _, _, c :: cs => replaceFrom re repl skip true (some c) cs
  | 0, justMatched, prev, c :: cs =>
    match matchHere re prev (c :: cs) with
    | none => c :: replaceFrom re repl 0 false (some c) cs
    | some rest =>
      if (c :: cs).length - rest.length = 0 then
        (if justMatched then [] else repl) ++ c :: replaceFrom re repl 0 false (some c) cs
      else repl ++ replaceFrom re repl ((c :: cs).length - rest.length - 1) true (some c) cs

/-- The method `ReplaceAllString(src, repl)` for a replacement without `$`. -/
def ReplaceAllString (re : Regexp) (src : String) (repl : String) : String :=
  String.mk (replaceFrom re repl.data 0 false none src.data)

end regexp

namespace strings

/-- The function `unicode.IsSpace`: the Latin-1 spaces `\t`, `\n`, `\v`, `\f`,
`\r`, space, U+0085, U+00A0, and above Latin-1 the characters with the property
White_Space (U+1680, U+2000 to U+200A, U+2028, U+2029, U+202F, U+205F, U+3000). -/
def unicodeIsSpace (r : Char) : Bool :=
  let n := r.toNat
  decide ((9 ≤ n ∧ n ≤ 13) ∨ n = 32 ∨ n = 0x85 ∨ n = 0xA0 ∨ n = 0x1680 ∨
    (0x2000 ≤ n ∧ n ≤ 0x200A) ∨ n = 0x2028 ∨ n = 0x2029 ∨ n = 0x202F ∨ n = 0x205F ∨
    n = 0x3000)

/-- The function `strings.TrimSpace`: the leading and the trailing white space,
as `unicode.IsSpace` defines it, is removed. -/
def TrimSpace (s : List Char) : List Char :=
  ((s.dropWhile unicodeIsSpace).reverse.dropWhile unicodeIsSpace).reverse

end strings

namespace utils

/-- The expression `\([^)]*\)` of `reParens`. -/
def reParens : regexp.Regexp :=
  [.one (fun c => c == '('), .star (fun c => c != ')'), .one (fun c => c == ')')]

/-- The expression `[“”"–]+` of `reSpecial`. -/
def reSpecial : regexp.Regexp :=
  [.plus (fun c => c == '“' || c == '”' || c == '"' || c == '–')]

/-- The expression `(?i)\bfeat\.?\b` of `reFeat`; under `(?i)` a letter stands
for its two cases. -/
def reFeat : regexp.Regexp :=
  [.wordBoundary,
   .one (fun c => c == 'f' || c == 'F'), .one (fun c => c == 'e' || c == 'E'),
   .one (fun c => c == 'a' || c == 'A'), .one (fun c => c == 't' || c == 'T'),
   .opt (fun c => c == '.'), .wordBoundary]

/-- The class `\s`, `[\t\n\f\r ]`. -/
def isPerlSpace (c : Char) : Bool :=
  c == '\t' || c == '\n' || c == Char.ofNat 12 || c == '\r' || c == ' '

/-- The expression `\s+` of `reSpaces`. -/
def reSpaces : regexp.Regexp := [.plus isPerlSpace]

/-- The function `CleanTitleForSearch`. -/
def CleanTitleForSearch (raw : String) : String :=
  let cleaned := regexp.ReplaceAllString reParens raw ""
  let cleaned := regexp.ReplaceAllString reSpecial cleaned " "
  let cleaned := regexp.ReplaceAllString reFeat cleaned ""
  let cleaned := regexp.ReplaceAllString reSpaces cleaned " "
  String.mk (strings.TrimSpace cleaned.data)

end utils

/-! ## Types of the Spotify client library, with the fields the program reads -/

namespace spotify

/-- The type `spotify.SimpleArtist`. -/
structure SimpleArtist where
  Name : String
deriving DecidableEq, Repr

/-- The type `spotify.SimpleAlbum`. -/
structure SimpleAlbum where
  Name : String
  Artists : List SimpleArtist
  ReleaseDate : String
deriving DecidableEq, Repr

/-- The type `spotify.FullTrack`. -/
structure FullTrack where
  Name : String
  Artists : List SimpleArtist
  Album : SimpleAlbum
  Duration : Int
deriving DecidableEq, Repr

end spotify

namespace downloader

/-- The function `buildSearchQuery`. -/
def buildSearchQuery (track : spotify.FullTrack) : String :=
  match track.Artists with
  | [] => utils.CleanTitleForSearch track.Name
  | artist :: _ =>
    let mainArtist := artist.Name
    let title := utils.CleanTitleForSearch track.Name
    let query := mainArtist ++ " " ++ title
    query

end downloader

namespace tags

/-- The package variable `invalidRunes` (U+27C1, U+2026, U+2019, U+2018, U+201C,
U+201D, U+2013, U+2014, U+2022, U+266A, U+266B, U+2669, U+266C, U+266D, U+266E). -/
def invalidRunes : List Char :=
  ['⟁', '…', '’', '‘', '“', '”', '–', '—', '•', '♪', '♫', '♩', '♬', '♭', '♮']

/-- The loop `for _, x := range invalidRunes` of `isRuneInvalid` over the rest
of the table. -/
def isRuneInvalidLoop (r : Char) : List Char → Bool
  | [] => false
  | x :: rest => if r == x then true else isRuneInvalidLoop r rest

/-- The function `isRuneInvalid`. -/
def isRuneInvalid (r : Char) : Bool := isRuneInvalidLoop r invalidRunes

/-- The function `removeUnsupportedRunes`: the loop over the runes of `s` that
writes to the builder `out`, and `out.String()`. -/
def removeUnsupportedRunes (s : String) : String :=
  s.data.foldl (fun out r => if isRuneInvalid r then out.push '-' else out.push r) ""

/-- The function `joinArtists`. -/
def joinArtists (artists : List spotify.SimpleArtist) : String :=
  let names := artists.map (fun ar => ar.Name)
  ", ".intercalate names

/-- What `TagFileWithSpotifyMetadata` hands to the tag writer (`id3v2.Tag`): the
arguments of `SetTitle`, `SetArtist`, `SetAlbum`, `SetYear`, and the picture of
`AddAttachedPicture` if there is one. -/
structure TagFrames where
  title : String
  artist : String
  album : String
  year : String
  picture : Option (List Nat)
deriving DecidableEq, Repr

/-- The function `TagFileWithSpotifyMetadata`.  The tag library is outside the
program: `openErr` is the error of `id3v2.Open` and `saveErr` the error of
`mp3File.Save` (`none` for `nil`).  The result is the error returned and the
frames handed to the tag writer (`none` when the file could not be opened). -/
def TagFileWithSpotifyMetadata (openErr saveErr : Option String)
    (trackData : spotify.FullTrack) (coverArt : List Nat) :
    Option String × Option TagFrames :=
  let cleanTitle := removeUnsupportedRunes trackData.Name
  let cleanArtist := removeUnsupportedRunes (joinArtists trackData.Album.Artists)
  let cleanAlbum := removeUnsupportedRunes trackData.Album.Name
  match openErr with
  | some err => (some ("failed to open mp3 file: " ++ err), none)
  | none =>
    let year := extractYear trackData.Album.ReleaseDate
    let frames : TagFrames :=
      { title := cleanTitle, artist := cleanArtist, album := cleanAlbum,
        year := toString year,
        picture := if coverArt.length > 0 then some coverArt else none }
    match saveErr with
    | some err => (some ("failed to save mp3 tag: " ++ err), some frames)
    | none => (none, some frames)

end tags

end PlaylistDownload

/-! # Theorems -/

namespace PlaylistDownload

/-- A value inside the range of a Go `int` is not changed by the wrap-around. -/
theorem wrapInt64_of_inRange (x : Int) (hlo : -(2 : Int) ^ 63 ≤ x) (hhi : x < (2 : Int) ^ 63) :
    wrapInt64 x = x := by
  unfold wrapInt64
  norm_num at hlo hhi ⊢
  omega

namespace youtube

/-- Without overflow in the two bounds, the range loop returns the id of the first
candidate whose known duration is inside the window, if there is one. -/
theorem matchLoop_eq_find (m : String → Int) (t : Int)
    (hlo : -(2 : Int) ^ 63 ≤ t - 5) (hhi : t + 5 < (2 : Int) ^ 63) (cands : List SearchResult) :
    matchLoop m t cands =
      (cands.find? (fun c => decide (0 < m c.ID ∧ t - 5 ≤ m c.ID ∧ m c.ID ≤ t + 5))).map
        (fun c => c.ID) := by
  induction cands with
  | nil => rfl
  | cons c rest ih =>
    have h1 : wrapInt64 (t - 5) = t - 5 := wrapInt64_of_inRange _ hlo (by omega)
    have h2 : wrapInt64 (t + 5) = t + 5 := wrapInt64_of_inRange _ (by omega) hhi
    simp only [matchLoop, durationMatchThreshold, h1, h2, List.find?_cons]
    by_cases hw : 0 < m c.ID ∧ t - 5 ≤ m c.ID ∧ m c.ID ≤ t + 5
    · simp [hw]
    · have hd : decide (0 < m c.ID ∧ t - 5 ≤ m c.ID ∧ m c.ID ≤ t + 5) = false := by
        simpa using hw
      rw [hd]
      simp only [Option.map]
      by_cases hp : m c.ID > 0
      · have : ¬ (m c.ID ≥ t - 5 ∧ m c.ID ≤ t + 5) := fun h => hw ⟨hp, h.1, h.2⟩
        simp only [hp, this, if_true, if_false]
        exact ih
      · simp only [hp, if_false]
        exact ih

/-- Claim C1.  Let the search return the non-empty candidate list `cands` and let
the duration lookup succeed with the map `m`, for a target duration `t` whose
window bounds `t - 5` and `t + 5` are Go `int` values.  If a candidate has a
known duration (`m[c.ID] > 0`) with `t - 5 ≤ m[c.ID] ≤ t + 5`, then
`FindClosestMatchingVideo` returns the id of the earliest such candidate in list
order (the candidate `c` with no such candidate before it); if no candidate has,
it returns the id of the first candidate. -/
theorem FindClosestMatchingVideo_selects_earliest_in_tolerance
    (searchYouTubeAPI : String → Int → Except String (List SearchResult))
    (fetchDurationsForVideos : List SearchResult → Except String (String → Int))
    (searchQuery : String) (t : Int) (cands : List SearchResult) (m : String → Int)
    (hsearch : searchYouTubeAPI searchQuery 10 = .ok cands) (hne : cands ≠ [])
    (hfetch : fetchDurationsForVideos cands = .ok m)
    (hlo : -(2 : Int) ^ 63 ≤ t - 5) (hhi : t + 5 < (2 : Int) ^ 63) :
    (∀ (pre : List SearchResult) (c : SearchResult) (post : List SearchResult),
        cands = pre ++ c :: post →
        (0 < m c.ID ∧ t - 5 ≤ m c.ID ∧ m c.ID ≤ t + 5) →
        (∀ x ∈ pre, ¬ (0 < m x.ID ∧ t - 5 ≤ m x.ID ∧ m x.ID ≤ t + 5)) →
        FindClosestMatchingVideo searchYouTubeAPI fetchDurationsForVideos searchQuery t
          = .ok c.ID) ∧
    ((∀ x ∈ cands, ¬ (0 < m x.ID ∧ t - 5 ≤ m x.ID ∧ m x.ID ≤ t + 5)) →
        FindClosestMatchingVideo searchYouTubeAPI fetchDurationsForVideos searchQuery t
          = .ok (cands.head hne).ID) := by
  obtain ⟨first, rest, rfl⟩ : ∃ first rest, cands = first :: rest := by
    cases cands with
    | nil => exact absurd rfl hne
    | cons a l => exact ⟨a, l, rfl⟩
  have hfind := matchLoop_eq_find m t hlo hhi (first :: rest)
  constructor
  · intro pre c post hsplit hc hpre
    have hf : (first :: rest).find?
        (fun c => decide (0 < m c.ID ∧ t - 5 ≤ m c.ID ∧ m c.ID ≤ t + 5)) = some c := by
      rw [hsplit, List.find?_append]
      have hnone : pre.find?
          (fun c => decide (0 < m c.ID ∧ t - 5 ≤ m c.ID ∧ m c.ID ≤ t + 5)) = none := by
        rw [List.find?_eq_none]
        intro x hx
        simpa using hpre x hx
      rw [hnone, Option.none_or, List.find?_cons_of_pos]
      exact decide_eq_true hc
    rw [hf] at hfind
    simp only [FindClosestMatchingVideo, hsearch, hfetch, hfind, Option.map]
  · intro hall
    have hf : (first :: rest).find?
        (fun c => decide (0 < m c.ID ∧ t - 5 ≤ m c.ID ∧ m c.ID ≤ t + 5)) = none := by
      rw [List.find?_eq_none]
      intro x hx
      simpa using hall x hx
    rw [hf] at hfind
    simp only [FindClosestMatchingVideo, hsearch, hfetch, hfind, Option.map, List.head_cons]

/-- Claim C1 at the candidates a (100 s) and b (200 s) with target 200: the
result is "b"; and at the candidates a and b without known duration: the result
is "a". -/
theorem FindClosestMatchingVideo_selects_earliest_in_tolerance_witness :
    FindClosestMatchingVideo
        (fun _ _ => .ok [candidate "a", candidate "b"])
        (fun _ => .ok (mapOf [("a", 100), ("b", 200)])) "artist title" 200 = .ok "b" ∧
      FindClosestMatchingVideo
        (fun _ _ => .ok [candidate "a", candidate "b"])
        (fun _ => .ok (mapOf [("a", 0), ("b", 0)])) "artist title" 200 = .ok "a" :=
  ⟨(FindClosestMatchingVideo_selects_earliest_in_tolerance
      (fun _ _ => .ok [candidate "a", candidate "b"])
      (fun _ => .ok (mapOf [("a", 100), ("b", 200)])) "artist title" 200
      [candidate "a", candidate "b"] (mapOf [("a", 100), ("b", 200)])
      rfl (by simp) rfl (by norm_num) (by norm_num)).1
    [candidate "a"] (candidate "b") [] rfl (by decide) (by decide),
   (FindClosestMatchingVideo_selects_earliest_in_tolerance
      (fun _ _ => .ok [candidate "a", candidate "b"])
      (fun _ => .ok (mapOf [("a", 0), ("b", 0)])) "artist title" 200
      [candidate "a", candidate "b"] (mapOf [("a", 0), ("b", 0)])
      rfl (by simp) rfl (by norm_num) (by norm_num)).2 (by decide)⟩

end youtube
end PlaylistDownload

namespace PlaylistDownload
namespace youtube

/-- Claim C2.  `FindClosestMatchingVideo` returns an error exactly when the search
returns an error or returns no candidate; an error of the search is returned
unchanged; and when the search returns at least one candidate and the duration
lookup fails, the call succeeds with the id of the first candidate, which is
also the result obtained with an empty duration map. -/
theorem FindClosestMatchingVideo_error_iff_search_fails
    (searchYouTubeAPI : String → Int → Except String (List SearchResult))
    (fetchDurationsForVideos : List SearchResult → Except String (String → Int))
    (searchQuery : String) (t : Int) :
    ((∃ e, FindClosestMatchingVideo searchYouTubeAPI fetchDurationsForVideos searchQuery t
          = .error e) ↔
      ((∃ e, searchYouTubeAPI searchQuery 10 = .error e) ∨
        searchYouTubeAPI searchQuery 10 = .ok [])) ∧
    (∀ e, searchYouTubeAPI searchQuery 10 = .error e →
      FindClosestMatchingVideo searchYouTubeAPI fetchDurationsForVideos searchQuery t
        = .error e) ∧
    (∀ first rest e, searchYouTubeAPI searchQuery 10 = .ok (first :: rest) →
      fetchDurationsForVideos (first :: rest) = .error e →
      FindClosestMatchingVideo searchYouTubeAPI fetchDurationsForVideos searchQuery t
          = .ok first.ID ∧
      FindClosestMatchingVideo searchYouTubeAPI fetchDurationsForVideos searchQuery t
          = FindClosestMatchingVideo searchYouTubeAPI (fun _ => .ok (fun _ => 0))
              searchQuery t) := by
  refine ⟨?_, ?_, ?_⟩
  · cases hs : searchYouTubeAPI searchQuery 10 with
    | error e => simp [FindClosestMatchingVideo, hs]
    | ok results =>
      cases results with
      | nil => simp [FindClosestMatchingVideo, hs]
      | cons first rest =>
        cases hf : fetchDurationsForVideos (first :: rest) with
        | error e => simp [FindClosestMatchingVideo, hs, hf]
        | ok m =>
          cases hm : matchLoop m t (first :: rest) <;>
            simp [FindClosestMatchingVideo, hs, hf, hm]
  · intro e hs
    simp [FindClosestMatchingVideo, hs]
  · intro first rest e hs hf
    have hempty : matchLoop (fun _ => 0) t (first :: rest) = none := by
      generalize first :: rest = l
      induction l with
      | nil => rfl
      | cons c l ih => simp [matchLoop, ih]
    simp [FindClosestMatchingVideo, hs, hf, hempty]

/-- Claim C2 at two candidates with a failing duration lookup (result "a") and at
a failing search (the error is passed on). -/
theorem FindClosestMatchingVideo_error_iff_search_fails_witness :
    FindClosestMatchingVideo (fun _ _ => .ok [candidate "a", candidate "b"])
        (fun _ => .error "failed to fetch videos info") "artist title" 200 = .ok "a" ∧
    FindClosestMatchingVideo (fun _ _ => .error "youtube search error")
        (fun _ => .error "failed to fetch videos info") "artist title" 200
      = .error "youtube search error" :=
  ⟨((FindClosestMatchingVideo_error_iff_search_fails
      (fun _ _ => .ok [candidate "a", candidate "b"])
      (fun _ => .error "failed to fetch videos info") "artist title" 200).2.2
      (candidate "a") [candidate "b"] "failed to fetch videos info" rfl rfl).1,
   (FindClosestMatchingVideo_error_iff_search_fails
      (fun _ _ => .error "youtube search error")
      (fun _ => .error "failed to fetch videos info") "artist title" 200).2.1
      "youtube search error" rfl⟩

end youtube

namespace utils

/-- The world after one invocation and `j` more is the world after `j + 1`. -/
theorem worldAfter_succ_eq {σ ε : Type} (f : σ → Option ε × σ) (w : σ) (j : Nat) :
    worldAfter f (f w).2 j = worldAfter f w (j + 1) := by
  induction j with
  | zero => rfl
  | succ j ih =>
    show (f (worldAfter f (f w).2 j)).2 = (f (worldAfter f w (j + 1))).2
    rw [ih]

/-- Attempt `j` after a first invocation is attempt `j + 1`. -/
theorem attemptResult_succ_eq {σ ε : Type} (f : σ → Option ε × σ) (w : σ) (j : Nat) :
    attemptResult f (f w).2 j = attemptResult f w (j + 1) := by
  unfold attemptResult
  rw [worldAfter_succ_eq]

/-- The loop, started with at least `j + 1` iterations left on an operation
that fails `j` times and then succeeds. -/
theorem retryLoop_success {σ ε : Type} (n : Int) (f : σ → Option ε × σ) (j : Nat) :
    ∀ (remaining : Nat) (err : Option ε) (w : σ) (calls sleeps : Nat),
      j < remaining →
      (∀ i, i < j → attemptResult f w i ≠ none) →
      attemptResult f w j = none →
      retryLoop n f remaining err w calls sleeps =
        { result := none, world := worldAfter f w (j + 1),
          calls := calls + (j + 1), sleeps := sleeps + j } := by
  induction j with
  | zero =>
    intro remaining err w calls sleeps hrem _ hok
    obtain ⟨r, rfl⟩ : ∃ r, remaining = r + 1 := ⟨remaining - 1, by omega⟩
    have h1 : (f w).1 = none := hok
    cases hfw : f w with
    | mk a w' =>
      rw [hfw] at h1
      simp only at h1
      subst h1
      simp [retryLoop, hfw, worldAfter]
  | succ j ih =>
    intro remaining err w calls sleeps hrem hfail hok
    obtain ⟨r, rfl⟩ : ∃ r, remaining = r + 1 := ⟨remaining - 1, by omega⟩
    have h0 : (f w).1 ≠ none := hfail 0 (Nat.succ_pos j)
    cases hfw : f w with
    | mk a w' =>
      rw [hfw] at h0
      cases a with
      | none => exact absurd rfl h0
      | some e =>
        have hw' : w' = (f w).2 := by rw [hfw]
        have hstep := ih r (some e) w' (calls + 1) (sleeps + 1) (by omega)
          (fun i hi => by
            rw [hw', attemptResult_succ_eq]
            exact hfail (i + 1) (by omega))
          (by rw [hw', attemptResult_succ_eq]; exact hok)
        simp only [retryLoop, hfw]
        rw [hstep, hw', worldAfter_succ_eq]
        simp only [RetryRun.mk.injEq, true_and]
        omega

/-- The loop, started with `remaining` iterations left on an operation that
fails that many times. -/
theorem retryLoop_exhausted {σ ε : Type} (n : Int) (f : σ → Option ε × σ) :
    ∀ (remaining : Nat) (err : Option ε) (w : σ) (calls sleeps : Nat),
      (∀ i, i < remaining → attemptResult f w i ≠ none) →
      retryLoop n f remaining err w calls sleeps =
        { result := some { attempts := n,
                           lastErr := if remaining = 0 then err
                                      else attemptResult f w (remaining - 1) },
          world := worldAfter f w remaining,
          calls := calls + remaining, sleeps := sleeps + remaining } := by
  intro remaining
  induction remaining with
  | zero =>
    intro err w calls sleeps _
    simp [retryLoop, worldAfter]
  | succ r ih =>
    intro err w calls sleeps hfail
    have h0 : (f w).1 ≠ none := hfail 0 (Nat.succ_pos r)
    cases hfw : f w with
    | mk a w' =>
      rw [hfw] at h0
      cases a with
      | none => exact absurd rfl h0
      | some e =>
        have hw' : w' = (f w).2 := by rw [hfw]
        have hstep := ih (some e) w' (calls + 1) (sleeps + 1)
          (fun i hi => by
            rw [hw', attemptResult_succ_eq]
            exact hfail (i + 1) (by omega))
        simp only [retryLoop, hfw]
        rw [hstep, hw', worldAfter_succ_eq]
        have hlast : (if r = 0 then some e else attemptResult f (f w).2 (r - 1))
            = attemptResult f w r := by
          cases r with
          | zero => simp [attemptResult, worldAfter, hfw]
          | succ r' => simp [attemptResult_succ_eq]
        simp only [hlast, Nat.add_sub_cancel, Nat.succ_ne_zero, if_false,
          RetryRun.mk.injEq, true_and]
        omega

/-- Claim C3.  For `maxRetries = n ≥ 1` and an operation whose first successful
attempt is attempt number `k` with `1 ≤ k ≤ n` (attempts `1` to `k - 1` return an
error, attempt `k` returns `nil`), `Retry` returns `nil`, has invoked the
operation exactly `k` times, and leaves the world as those `k` invocations left
it. -/
theorem Retry_stops_at_first_success {σ ε : Type} (n : Int) (f : σ → Option ε × σ) (w : σ)
    (k : Nat) (hn : 1 ≤ n) (hk : 1 ≤ k) (hkn : (k : Int) ≤ n)
    (hfail : ∀ i, 1 ≤ i → i < k → attemptResult f w (i - 1) ≠ none)
    (hok : attemptResult f w (k - 1) = none) :
    (Retry n f w).result = none ∧ (Retry n f w).calls = k ∧
      (Retry n f w).world = worldAfter f w k := by
  obtain ⟨j, rfl⟩ : ∃ j, k = j + 1 := ⟨k - 1, by omega⟩
  have hrun := retryLoop_success n f j n.toNat none w 0 0 (by omega)
    (fun i hi => by simpa using hfail (i + 1) (by omega) (by omega))
    (by simpa using hok)
  unfold Retry
  rw [hrun]
  simp

/-- Claim C3 at an operation that fails twice and then succeeds, with
`maxRetries = 3`: success after exactly 3 invocations. -/
theorem Retry_stops_at_first_success_witness :
    (Retry 3 (fun c : Nat => (if c < 2 then some "cmd failed" else none, c + 1)) 0).result
        = none ∧
      (Retry 3 (fun c : Nat => (if c < 2 then some "cmd failed" else none, c + 1)) 0).calls
        = 3 ∧
      (Retry 3 (fun c : Nat => (if c < 2 then some "cmd failed" else none, c + 1)) 0).world
        = worldAfter (fun c : Nat => (if c < 2 then some "cmd failed" else none, c + 1)) 0 3 :=
  Retry_stops_at_first_success 3
    (fun c : Nat => (if c < 2 then some "cmd failed" else none, c + 1)) 0 3
    (by decide) (by decide) (by decide)
    (by
      intro i h1 h2
      have : i = 1 ∨ i = 2 := by omega
      rcases this with rfl | rfl <;> simp [attemptResult, worldAfter])
    (by simp [attemptResult, worldAfter])

/-- Claim C4.  For `maxRetries = n ≥ 1` and an operation that fails on each of its
first `n` attempts, `Retry` invokes the operation exactly `n` times and returns
an error that carries the attempt count `n` and wraps the error returned by the
`n`-th, last, invocation. -/
theorem Retry_exhausted_wraps_last_error {σ ε : Type} (n : Int) (f : σ → Option ε × σ) (w : σ)
    (hn : 1 ≤ n)
    (hfail : ∀ i : Nat, 1 ≤ i → (i : Int) ≤ n → attemptResult f w (i - 1) ≠ none) :
    (Retry n f w).calls = n.toNat ∧
      (Retry n f w).world = worldAfter f w n.toNat ∧
      (∃ e, attemptResult f w (n.toNat - 1) = some e ∧
        (Retry n f w).result = some { attempts := n, lastErr := some e }) := by
  have hrun := retryLoop_exhausted n f n.toNat none w 0 0
    (fun i hi => by simpa using hfail (i + 1) (by omega) (by omega))
  have hpos : n.toNat ≠ 0 := by omega
  have hlast : attemptResult f w (n.toNat - 1) ≠ none :=
    hfail n.toNat (by omega) (by omega)
  unfold Retry
  rw [hrun]
  simp only [hpos, if_false, Nat.zero_add, true_and]
  cases hl : attemptResult f w (n.toNat - 1) with
  | none => exact absurd hl hlast
  | some e => exact ⟨e, rfl, rfl⟩

/-- Claim C4 at an operation that always fails (with the invocation number as its
error) and `maxRetries = 3`: 3 invocations, and the error of the third one is
wrapped. -/
theorem Retry_exhausted_wraps_last_error_witness :
    (Retry 3 (fun c : Nat => (some c, c + 1)) 0).calls = (3 : Int).toNat ∧
      (Retry 3 (fun c : Nat => (some c, c + 1)) 0).world
        = worldAfter (fun c : Nat => (some c, c + 1)) 0 (3 : Int).toNat ∧
      (∃ e, attemptResult (fun c : Nat => (some c, c + 1)) 0 ((3 : Int).toNat - 1) = some e ∧
        (Retry 3 (fun c : Nat => (some c, c + 1)) 0).result
          = some { attempts := 3, lastErr := some e }) :=
  Retry_exhausted_wraps_last_error 3 (fun c : Nat => (some c, c + 1)) 0 (by decide)
    (by intro i _ _; simp [attemptResult])

end utils

namespace downloader

/-- The result loop started with `finalErr = init`: the last failure received,
`init` when there is none. -/
theorem foldl_collectStep {ε : Type} (arrivals : List (Option ε)) (init : Option ε) :
    arrivals.foldl collectStep init =
      match arrivals.reduceOption.getLast? with
      | some e => some e
      | none => init := by
  induction arrivals generalizing init with
  | nil => rfl
  | cons o rest ih =>
    rw [List.foldl_cons, ih]
    cases o with
    | none => simp [collectStep, List.reduceOption_cons_of_none]
    | some e =>
      rw [List.reduceOption_cons_of_some]
      cases hr : rest.reduceOption with
      | nil => simp [collectStep]
      | cons a l =>
        rw [List.getLast?_cons_cons]
        cases hg : (a :: l).getLast? with
        | none => simp at hg
        | some x => rfl

/-- A list of outcomes has no failure exactly when every outcome is a success. -/
theorem reduceOption_eq_nil_iff_all_none {ε : Type} (l : List (Option ε)) :
    l.reduceOption = [] ↔ ∀ o ∈ l, o = none := by
  induction l with
  | nil => simp
  | cons o rest ih =>
    cases o with
    | none => simp [List.reduceOption_cons_of_none, ih]
    | some e => simp [List.reduceOption_cons_of_some]

/-- Claim C5.  For every sequence of per-track outcomes in the order in which they
are received from the result queue, the batch error of `DownloadTrackList` is
`nil` exactly when every outcome is a success; it is always the last element of
the list of failures in arrival order; that is, when the outcomes are `earlier`,
then a failure `e`, then only successes, the batch error is `e`. -/
theorem collectResults_nil_iff_all_succeed_else_last_failure {ε : Type}
    (arrivals : List (Option ε)) :
    (collectResults arrivals = none ↔ ∀ o ∈ arrivals, o = none) ∧
    collectResults arrivals = arrivals.reduceOption.getLast? ∧
    (∀ (earlier : List (Option ε)) (e : ε) (later : List (Option ε)),
      arrivals = earlier ++ some e :: later → (∀ o ∈ later, o = none) →
      collectResults arrivals = some e) := by
  have hlast : collectResults arrivals = arrivals.reduceOption.getLast? := by
    unfold collectResults
    rw [foldl_collectStep]
    cases arrivals.reduceOption.getLast? <;> rfl
  refine ⟨?_, hlast, ?_⟩
  · rw [hlast, List.getLast?_eq_none_iff, reduceOption_eq_nil_iff_all_none]
  · intro earlier e later hsplit hlater
    have hnil : later.reduceOption = [] :=
      (reduceOption_eq_nil_iff_all_none later).mpr hlater
    rw [hlast, hsplit, List.reduceOption_append, List.reduceOption_cons_of_some, hnil]
    simp

/-- Claim C5 at five outcomes of which the second and the fourth fail: the batch
error is the fourth. -/
theorem collectResults_nil_iff_all_succeed_else_last_failure_witness :
    collectResults [none, some "tag error", none, some "no songs found", none]
      = some "no songs found" :=
  (collectResults_nil_iff_all_succeed_else_last_failure
      [none, some "tag error", none, some "no songs found", none]).2.2
    [none, some "tag error", none] "no songs found" [none] rfl (by simp)

end downloader
end PlaylistDownload

namespace PlaylistDownload
namespace downloader

section Pool
variable {Track ε : Type}

/-- The held tracks of two worker lists put together. -/
theorem heldTracks_append (a b : List (WorkerPC Track ε)) :
    heldTracks (a ++ b) = heldTracks a ++ heldTracks b := by
  induction a with
  | nil => rfl
  | cons w ws ih => cases w <;> simp [heldTracks, ih]

/-- The held results of two worker lists put together. -/
theorem heldResults_append (a b : List (WorkerPC Track ε)) :
    heldResults (a ++ b) = heldResults a ++ heldResults b := by
  induction a with
  | nil => rfl
  | cons w ws ih => cases w <;> simp [heldResults, ih]

/-- The live workers of two worker lists put together. -/
theorem liveWorkers_append (a b : List (WorkerPC Track ε)) :
    liveWorkers (a ++ b) = liveWorkers a + liveWorkers b := by
  induction a with
  | nil => simp [liveWorkers]
  | cons w ws ih => cases w <;> simp [liveWorkers, ih] <;> omega

/-- A worker list around its entry `j`. -/
theorem workers_split (ws : List (WorkerPC Track ε)) (j : Nat) (pc : WorkerPC Track ε)
    (h : ws[j]? = some pc) :
    ∃ before after, ws = before ++ pc :: after ∧
      ∀ pc', ws.set j pc' = before ++ pc' :: after := by
  induction ws generalizing j with
  | nil => simp at h
  | cons w ws ih =>
    cases j with
    | zero =>
      simp only [List.getElem?_cons_zero, Option.some.injEq] at h
      subst h
      exact ⟨[], ws, rfl, fun _ => rfl⟩
    | succ j =>
      simp only [List.getElem?_cons_succ] at h
      obtain ⟨before, after, hws, hset⟩ := ih j h
      refine ⟨w :: before, after, by rw [hws]; rfl, fun pc' => ?_⟩
      rw [List.set_cons_succ, hset pc']
      rfl

/-- Without held tracks no worker is about to process one. -/
theorem heldTracks_nil_of_no_processing (ws : List (WorkerPC Track ε))
    (h : heldTracks ws = []) (t : Track) : WorkerPC.processing t ∉ ws := by
  induction ws with
  | nil => simp
  | cons w ws ih =>
    cases w <;> simp_all [heldTracks]

/-- Without held results no worker is about to send one. -/
theorem heldResults_nil_of_no_sending (ws : List (WorkerPC Track ε))
    (h : heldResults ws = []) (e : Option ε) : WorkerPC.sending e ∉ ws := by
  induction ws with
  | nil => simp
  | cons w ws ih =>
    cases w <;> simp_all [heldResults]

/-- The invariant holds when `DownloadTrackList` is entered. -/
theorem poolInv_initial (tracks : List Track) (workerCount : Int) :
    PoolInv tracks workerCount (initialPool : PoolState Track ε) := by
  refine ⟨?_, ?_, ?_, ?_⟩
  · simp [initialPool, unsentTracks, heldTracks]
  · simp [initialPool, heldResults]
  · simp [initialPool, mainInv]
  · simp [initialPool]

/-- Steps of the main goroutine keep the invariant. -/
theorem poolInv_stepMain (tracks : List Track) (workerCount : Int)
    (s s' : PoolState Track ε) (hinv : PoolInv tracks workerCount s)
    (hstep : DownloadTrackList.step tracks workerCount s = some s') :
    PoolInv tracks workerCount s' := by
  obtain ⟨main, workers, jobs, closed, results, ran, received⟩ := s
  obtain ⟨hT, hR, hM, hE⟩ := hinv
  simp only at hT hR hM hE
  unfold DownloadTrackList.step at hstep
  cases main with
  | startWorkers w =>
    simp only [mainInv] at hM
    obtain ⟨hlen, hw, hclosed, hrecv⟩ := hM
    simp only at hstep
    by_cases hlt : (w : Int) < workerCount
    · rw [if_pos hlt] at hstep
      obtain rfl := Option.some.inj hstep
      refine ⟨?_, ?_, ?_, ?_⟩
      · simpa [unsentTracks, heldTracks_append, heldTracks] using hT
      · simpa [heldResults_append, heldResults] using hR
      · simp only [mainInv, List.length_append, List.length_singleton, hlen, true_and]
        exact ⟨Or.inr (by push_cast; omega), hclosed, hrecv⟩
      · intro hex
        simp only [List.mem_append, List.mem_singleton] at hex
        rcases hex with hex | hex
        · exact hE hex
        · cases hex
    · rw [if_neg hlt] at hstep
      obtain rfl := Option.some.inj hstep
      refine ⟨?_, hR, ?_, hE⟩
      · simpa [unsentTracks] using hT
      · simp only [mainInv]
        refine ⟨?_, hclosed, hrecv⟩
        rw [hlen]
        rcases hw with rfl | hw
        · simp only [Nat.cast_zero, not_lt] at hlt
          omega
        · omega
  | sendJobs rest =>
    simp only [mainInv] at hM
    obtain ⟨hlen, hclosed, hrecv⟩ := hM
    cases rest with
    | nil =>
      simp only at hstep
      obtain rfl := Option.some.inj hstep
      refine ⟨?_, hR, ?_, ?_⟩
      · simpa [unsentTracks] using hT
      · simp only [mainInv, hrecv, List.length_nil, collectResults, List.foldl_nil,
          Nat.zero_le, and_self, hlen]
      · intro hex
        have := (hE hex).2
        simp only at hclosed this
        rw [hclosed] at this
        cases this
    | cons track rest =>
      simp only at hstep
      by_cases hcap : jobs.length < tracks.length
      · rw [if_pos hcap] at hstep
        obtain rfl := Option.some.inj hstep
        refine ⟨?_, hR, ?_, ?_⟩
        · simp only [unsentTracks] at hT ⊢
          refine List.Perm.trans ?_ hT
          rw [← Multiset.coe_eq_coe]
          simp only [← Multiset.coe_add, ← Multiset.cons_coe, ← Multiset.singleton_add,
            Multiset.coe_nil, add_zero]
          abel
        · simp only [mainInv]
          exact ⟨hlen, hclosed, hrecv⟩
        · intro hex
          have := (hE hex).2
          simp only at hclosed this
          rw [hclosed] at this
          cases this
      · rw [if_neg hcap] at hstep
        cases hstep
  | collect i finalErr =>
    simp only [mainInv] at hM
    obtain ⟨hlen, hclosed, hrecv, hfe, hi⟩ := hM
    simp only at hstep
    by_cases hlt : i < tracks.length
    · rw [if_pos hlt] at hstep
      cases results with
      | nil => cases hstep
      | cons err more =>
        simp only at hstep
        obtain rfl := Option.some.inj hstep
        refine ⟨?_, ?_, ?_, hE⟩
        · simpa [unsentTracks] using hT
        · simp only at hR ⊢
          refine List.Perm.trans ?_ hR
          rw [← Multiset.coe_eq_coe]
          simp only [← Multiset.coe_add, ← Multiset.cons_coe, ← Multiset.singleton_add,
            Multiset.coe_nil, add_zero]
          abel
        · simp only [mainInv, List.length_append, List.length_singleton, hrecv, hlen, hclosed,
            true_and]
          refine ⟨?_, hlt⟩
          rw [hfe]
          simp [collectResults, List.foldl_append]
    · rw [if_neg hlt] at hstep
      obtain rfl := Option.some.inj hstep
      refine ⟨?_, hR, ?_, hE⟩
      · simpa [unsentTracks] using hT
      · simp only [mainInv]
        exact ⟨hlen, hclosed, by omega, hfe⟩
  | returned finalErr =>
    simp only at hstep
    cases hstep

/-- Steps of a worker goroutine keep the invariant. -/
theorem poolInv_stepWorker (tracks : List Track) (workerCount : Int)
    (process : Nat → Track → Option ε) (j : Nat)
    (s s' : PoolState Track ε) (hinv : PoolInv tracks workerCount s)
    (hstep : workerFunc.step tracks process j s = some s') : PoolInv tracks workerCount s' := by
  obtain ⟨main, workers, jobs, closed, results, ran, received⟩ := s
  obtain ⟨hT, hR, hM, hE⟩ := hinv
  simp only at hT hR hM hE
  unfold workerFunc.step at hstep
  simp only at hstep
  cases hpc : workers[j]? with
  | none =>
    rw [hpc] at hstep
    cases hstep
  | some pc =>
    rw [hpc] at hstep
    obtain ⟨before, after, hws, hset⟩ := workers_split workers j pc hpc
    have hmain : ∀ ws' : List (WorkerPC Track ε), ws'.length = workers.length →
        ∀ jobs' results' ran',
        mainInv tracks workerCount
          { main := main, workers := ws', jobs := jobs', jobsClosed := closed,
            results := results', ran := ran', received := received } main := by
      intro ws' hlen jobs' results' ran'
      cases main <;> simp only [mainInv] at hM ⊢ <;> rw [hlen] <;> exact hM
    have hlenset : ∀ pc', (workers.set j pc').length = workers.length := by
      intro pc'
      simp
    cases pc with
    | ranging =>
      cases jobs with
      | nil =>
        simp only at hstep
        by_cases hc : closed = true
        · rw [if_pos hc] at hstep
          obtain rfl := Option.some.inj hstep
          refine ⟨?_, ?_, hmain _ (hlenset _) _ _ _, fun _ => ⟨rfl, hc⟩⟩
          · rw [hws] at hT
            simp only [hset, heldTracks_append, heldTracks] at hT ⊢
            exact hT
          · rw [hws] at hR
            simp only [hset, heldResults_append, heldResults] at hR ⊢
            exact hR
        · rw [if_neg hc] at hstep
          cases hstep
      | cons track more =>
        simp only at hstep
        obtain rfl := Option.some.inj hstep
        refine ⟨?_, ?_, hmain _ (hlenset _) _ _ _, ?_⟩
        · rw [hws] at hT
          simp only [hset, heldTracks_append, heldTracks] at hT ⊢
          refine List.Perm.trans ?_ hT
          rw [← Multiset.coe_eq_coe]
          simp only [← Multiset.coe_add, ← Multiset.cons_coe, ← Multiset.singleton_add,
            Multiset.coe_nil, add_zero]
          abel
        · rw [hws] at hR
          simp only [hset, heldResults_append, heldResults] at hR ⊢
          exact hR
        · intro hex
          simp only [hset, List.mem_append, List.mem_cons] at hex
          have hold : WorkerPC.exited ∈ workers := by
            rw [hws]
            simp only [List.mem_append, List.mem_cons]
            rcases hex with h | h | h
            · exact Or.inl h
            · cases h
            · exact Or.inr (Or.inr h)
          have := (hE hold).1
          cases this
    | processing track =>
      simp only at hstep
      obtain rfl := Option.some.inj hstep
      refine ⟨?_, ?_, hmain _ (hlenset _) _ _ _, ?_⟩
      · rw [hws] at hT
        simp only [hset, heldTracks_append, heldTracks, List.map_append, List.map_cons,
          List.map_nil] at hT ⊢
        refine List.Perm.trans ?_ hT
        rw [← Multiset.coe_eq_coe]
        simp only [← Multiset.coe_add, ← Multiset.cons_coe, ← Multiset.singleton_add,
          Multiset.coe_nil, add_zero]
        abel
      · rw [hws] at hR
        simp only [hset, heldResults_append, heldResults, List.map_append, List.map_cons,
          List.map_nil] at hR ⊢
        have hR' := List.Perm.append_right [process ran.length track] hR
        refine List.Perm.trans ?_ hR'
        rw [← Multiset.coe_eq_coe]
        simp only [← Multiset.coe_add, ← Multiset.cons_coe, ← Multiset.singleton_add,
          Multiset.coe_nil, add_zero]
        abel
      · intro hex
        simp only [hset, List.mem_append, List.mem_cons] at hex
        have hold : WorkerPC.exited ∈ workers := by
          rw [hws]
          simp only [List.mem_append, List.mem_cons]
          rcases hex with h | h | h
          · exact Or.inl h
          · cases h
          · exact Or.inr (Or.inr h)
        exact hE hold
    | sending err =>
      simp only at hstep
      by_cases hcap : results.length < tracks.length
      · rw [if_pos hcap] at hstep
        obtain rfl := Option.some.inj hstep
        refine ⟨?_, ?_, hmain _ (hlenset _) _ _ _, ?_⟩
        · rw [hws] at hT
          simp only [hset, heldTracks_append, heldTracks] at hT ⊢
          exact hT
        · rw [hws] at hR
          simp only [hset, heldResults_append, heldResults] at hR ⊢
          refine List.Perm.trans ?_ hR
          rw [← Multiset.coe_eq_coe]
          simp only [← Multiset.coe_add, ← Multiset.cons_coe, ← Multiset.singleton_add,
            Multiset.coe_nil, add_zero]
          abel
        · intro hex
          simp only [hset, List.mem_append, List.mem_cons] at hex
          have hold : WorkerPC.exited ∈ workers := by
            rw [hws]
            simp only [List.mem_append, List.mem_cons]
            rcases hex with h | h | h
            · exact Or.inl h
            · cases h
            · exact Or.inr (Or.inr h)
          exact hE hold
      · rw [if_neg hcap] at hstep
        cases hstep
    | exited =>
      simp only at hstep
      cases hstep

/-- Every step keeps the invariant. -/
theorem poolInv_poolStep (tracks : List Track) (workerCount : Int)
    (process : Nat → Track → Option ε) (a : Actor)
    (s s' : PoolState Track ε) (hinv : PoolInv tracks workerCount s)
    (hstep : poolStep tracks workerCount process s a = some s') :
    PoolInv tracks workerCount s' := by
  cases a with
  | main => exact poolInv_stepMain tracks workerCount s s' hinv hstep
  | worker j => exact poolInv_stepWorker tracks workerCount process j s s' hinv hstep

/-- The invariant holds in every state a run reaches. -/
theorem poolInv_runSchedule (tracks : List Track) (workerCount : Int)
    (process : Nat → Track → Option ε) (schedule : List Actor) :
    ∀ (s s' : PoolState Track ε), PoolInv tracks workerCount s →
      runSchedule tracks workerCount process schedule s = some s' →
      PoolInv tracks workerCount s' := by
  induction schedule with
  | nil =>
    intro s s' hinv hrun
    obtain rfl := Option.some.inj hrun
    exact hinv
  | cons a rest ih =>
    intro s s' hinv hrun
    unfold runSchedule at hrun
    cases hstep : poolStep tracks workerCount process s a with
    | none => rw [hstep] at hrun; cases hrun
    | some s1 =>
      rw [hstep] at hrun
      exact ih s1 s' (poolInv_poolStep tracks workerCount process a s s1 hinv hstep) hrun

/-- Every step of the main goroutine lowers the measure. -/
theorem poolMeasure_stepMain (tracks : List Track) (workerCount : Int)
    (s s' : PoolState Track ε) (hinv : PoolInv tracks workerCount s)
    (hstep : DownloadTrackList.step tracks workerCount s = some s') :
    poolMeasure tracks workerCount s' < poolMeasure tracks workerCount s := by
  obtain ⟨main, workers, jobs, closed, results, ran, received⟩ := s
  obtain ⟨_, _, hM, _⟩ := hinv
  simp only at hM
  unfold DownloadTrackList.step at hstep
  cases main with
  | startWorkers w =>
    simp only at hstep
    by_cases hlt : (w : Int) < workerCount
    · rw [if_pos hlt] at hstep
      obtain rfl := Option.some.inj hstep
      simp only [poolMeasure, mainFuel, unsentTracks, heldTracks_append, heldResults_append,
        liveWorkers_append, heldTracks, heldResults, liveWorkers, List.append_nil,
        List.length_append]
      omega
    · rw [if_neg hlt] at hstep
      obtain rfl := Option.some.inj hstep
      simp only [poolMeasure, mainFuel, unsentTracks]
      omega
  | sendJobs rest =>
    cases rest with
    | nil =>
      simp only at hstep
      obtain rfl := Option.some.inj hstep
      simp only [poolMeasure, mainFuel, unsentTracks, List.length_nil]
      omega
    | cons track rest =>
      simp only at hstep
      by_cases hcap : jobs.length < tracks.length
      · rw [if_pos hcap] at hstep
        obtain rfl := Option.some.inj hstep
        simp only [poolMeasure, mainFuel, unsentTracks, List.length_cons, List.length_append,
          List.length_nil]
        omega
      · rw [if_neg hcap] at hstep
        cases hstep
  | collect i finalErr =>
    simp only at hstep
    by_cases hlt : i < tracks.length
    · rw [if_pos hlt] at hstep
      cases results with
      | nil => cases hstep
      | cons err more =>
        simp only at hstep
        obtain rfl := Option.some.inj hstep
        simp only [poolMeasure, mainFuel, unsentTracks, List.length_nil]
        omega
    · rw [if_neg hlt] at hstep
      obtain rfl := Option.some.inj hstep
      simp only [poolMeasure, mainFuel, unsentTracks, List.length_nil]
      omega
  | returned finalErr =>
    simp only at hstep
    cases hstep

/-- Every step of a worker lowers the measure. -/
theorem poolMeasure_stepWorker (tracks : List Track) (workerCount : Int)
    (process : Nat → Track → Option ε) (j : Nat) (s s' : PoolState Track ε)
    (hstep : workerFunc.step tracks process j s = some s') :
    poolMeasure tracks workerCount s' < poolMeasure tracks workerCount s := by
  obtain ⟨main, workers, jobs, closed, results, ran, received⟩ := s
  unfold workerFunc.step at hstep
  simp only at hstep
  cases hpc : workers[j]? with
  | none =>
    rw [hpc] at hstep
    cases hstep
  | some pc =>
    rw [hpc] at hstep
    obtain ⟨before, after, hws, hset⟩ := workers_split workers j pc hpc
    cases pc with
    | ranging =>
      cases jobs with
      | nil =>
        simp only at hstep
        by_cases hc : closed = true
        · rw [if_pos hc] at hstep
          obtain rfl := Option.some.inj hstep
          simp only [poolMeasure, hset]
          rw [hws]
          simp only [heldTracks_append, heldResults_append, liveWorkers_append, heldTracks,
            heldResults, liveWorkers, List.length_append, List.length_nil]
          omega
        · rw [if_neg hc] at hstep
          cases hstep
      | cons track more =>
        simp only at hstep
        obtain rfl := Option.some.inj hstep
        simp only [poolMeasure, hset]
        rw [hws]
        simp only [heldTracks_append, heldResults_append, liveWorkers_append, heldTracks,
          heldResults, liveWorkers, List.length_append, List.length_cons]
        omega
    | processing track =>
      simp only at hstep
      obtain rfl := Option.some.inj hstep
      simp only [poolMeasure, hset]
      rw [hws]
      simp only [heldTracks_append, heldResults_append, liveWorkers_append, heldTracks,
        heldResults, liveWorkers, List.length_append, List.length_cons]
      omega
    | sending err =>
      simp only at hstep
      by_cases hcap : results.length < tracks.length
      · rw [if_pos hcap] at hstep
        obtain rfl := Option.some.inj hstep
        simp only [poolMeasure, hset]
        rw [hws]
        simp only [heldTracks_append, heldResults_append, liveWorkers_append, heldTracks,
          heldResults, liveWorkers, List.length_append, List.length_cons]
        omega
      · rw [if_neg hcap] at hstep
        cases hstep
    | exited =>
      simp only at hstep
      cases hstep

/-- A run is no longer than the measure of the state it starts from. -/
theorem runSchedule_length_le (tracks : List Track) (workerCount : Int)
    (process : Nat → Track → Option ε) (schedule : List Actor) :
    ∀ (s s' : PoolState Track ε), PoolInv tracks workerCount s →
      runSchedule tracks workerCount process schedule s = some s' →
      poolMeasure tracks workerCount s' + schedule.length
        ≤ poolMeasure tracks workerCount s := by
  induction schedule with
  | nil =>
    intro s s' _ hrun
    obtain rfl := Option.some.inj hrun
    simp
  | cons a rest ih =>
    intro s s' hinv hrun
    unfold runSchedule at hrun
    cases hstep : poolStep tracks workerCount process s a with
    | none => rw [hstep] at hrun; cases hrun
    | some s1 =>
      rw [hstep] at hrun
      have hinv1 := poolInv_poolStep tracks workerCount process a s s1 hinv hstep
      have h1 := ih s1 s' hinv1 hrun
      have h2 : poolMeasure tracks workerCount s1 < poolMeasure tracks workerCount s := by
        cases a with
        | main => exact poolMeasure_stepMain tracks workerCount s s1 hinv hstep
        | worker j => exact poolMeasure_stepWorker tracks workerCount process j s s1 hstep
      simp only [List.length_cons]
      omega

/-- A held track is held by some worker. -/
theorem exists_processing_of_heldTracks (ws : List (WorkerPC Track ε))
    (h : heldTracks ws ≠ []) :
    ∃ (j : Nat) (track : Track), ws[j]? = some (WorkerPC.processing track) := by
  induction ws with
  | nil => exact absurd rfl h
  | cons w ws ih =>
    cases w with
    | processing track => exact ⟨0, track, by simp⟩
    | ranging =>
      obtain ⟨j, track, hj⟩ := ih (by simpa [heldTracks] using h)
      exact ⟨j + 1, track, by simpa using hj⟩
    | sending err =>
      obtain ⟨j, track, hj⟩ := ih (by simpa [heldTracks] using h)
      exact ⟨j + 1, track, by simpa using hj⟩
    | exited =>
      obtain ⟨j, track, hj⟩ := ih (by simpa [heldTracks] using h)
      exact ⟨j + 1, track, by simpa using hj⟩

/-- A held result is held by some worker. -/
theorem exists_sending_of_heldResults (ws : List (WorkerPC Track ε))
    (h : heldResults ws ≠ []) :
    ∃ (j : Nat) (err : Option ε), ws[j]? = some (WorkerPC.sending err) := by
  induction ws with
  | nil => exact absurd rfl h
  | cons w ws ih =>
    cases w with
    | sending err => exact ⟨0, err, by simp⟩
    | ranging =>
      obtain ⟨j, err, hj⟩ := ih (by simpa [heldResults] using h)
      exact ⟨j + 1, err, by simpa using hj⟩
    | processing track =>
      obtain ⟨j, err, hj⟩ := ih (by simpa [heldResults] using h)
      exact ⟨j + 1, err, by simpa using hj⟩
    | exited =>
      obtain ⟨j, err, hj⟩ := ih (by simpa [heldResults] using h)
      exact ⟨j + 1, err, by simpa using hj⟩

/-- With at least one worker (or nothing to do), some goroutine has a step as
long as `DownloadTrackList` has not returned: the pool does not deadlock. -/
theorem pool_progress (tracks : List Track) (workerCount : Int)
    (process : Nat → Track → Option ε) (s : PoolState Track ε)
    (hinv : PoolInv tracks workerCount s) (hW : 1 ≤ workerCount ∨ tracks = [])
    (hrun : ∀ finalErr, s.main ≠ .returned finalErr) :
    ∃ a, (poolStep tracks workerCount process s a).isSome = true := by
  obtain ⟨main, workers, jobs, closed, results, ran, received⟩ := s
  obtain ⟨hT, hR, hM, hE⟩ := hinv
  simp only at hT hR hM hE hrun
  have hTlen := hT.length_eq
  have hRlen := hR.length_eq
  simp only [List.length_append, List.length_map] at hTlen hRlen
  cases main with
  | startWorkers w =>
    refine ⟨.main, ?_⟩
    simp only [poolStep, DownloadTrackList.step]
    split_ifs <;> rfl
  | sendJobs rest =>
    refine ⟨.main, ?_⟩
    cases rest with
    | nil => rfl
    | cons track rest =>
      simp only [unsentTracks, List.length_cons] at hTlen
      have hcap : jobs.length < tracks.length := by omega
      simp only [poolStep, DownloadTrackList.step, if_pos hcap]
      rfl
  | returned finalErr => exact absurd rfl (hrun finalErr)
  | collect i finalErr =>
    simp only [mainInv] at hM
    obtain ⟨hlen, hclosed, hrecv, _, _⟩ := hM
    simp only [unsentTracks, List.length_nil] at hTlen
    by_cases hlt : i < tracks.length
    · cases results with
      | cons err more =>
        refine ⟨.main, ?_⟩
        simp only [poolStep, DownloadTrackList.step, if_pos hlt]
        rfl
      | nil =>
        by_cases hproc : heldTracks workers = []
        · by_cases hsend : heldResults workers = []
          · -- every job processed so far has been received: a job is waiting
            have h1 : (heldTracks workers).length = 0 := by rw [hproc]; rfl
            have h2 : (heldResults workers).length = 0 := by rw [hsend]; rfl
            simp only [List.length_nil] at hTlen hRlen
            have hpos : 0 < jobs.length := by omega
            have hWpos : 1 ≤ workerCount := by
              rcases hW with h | h
              · exact h
              · rw [h] at hlt
                simp at hlt
            cases jobs with
            | nil => simp at hpos
            | cons track more =>
              cases workers with
              | nil =>
                simp only [List.length_nil] at hlen
                omega
              | cons w ws =>
                refine ⟨.worker 0, ?_⟩
                cases w with
                | ranging => simp [poolStep, workerFunc.step]
                | processing t => simp [heldTracks] at hproc
                | sending e => simp [heldResults] at hsend
                | exited =>
                  have := (hE (by simp)).1
                  cases this
          · obtain ⟨j, err, hj⟩ := exists_sending_of_heldResults workers hsend
            refine ⟨.worker j, ?_⟩
            have hcap : ([] : List (Option ε)).length < tracks.length := by
              simp only [List.length_nil]
              omega
            simp only [poolStep, workerFunc.step, hj, if_pos hcap]
            rfl
        · obtain ⟨j, track, hj⟩ := exists_processing_of_heldTracks workers hproc
          refine ⟨.worker j, ?_⟩
          simp only [poolStep, workerFunc.step, hj]
          rfl
    · refine ⟨.main, ?_⟩
      simp only [poolStep, DownloadTrackList.step, if_neg hlt]
      rfl

/-- When `DownloadTrackList` has returned, every track has been processed once
and every result has been received once. -/
theorem pool_returned (tracks : List Track) (workerCount : Int)
    (s : PoolState Track ε) (hinv : PoolInv tracks workerCount s)
    (finalErr : Option ε) (hret : s.main = .returned finalErr) :
    (s.ran.map Prod.fst).Perm tracks ∧ s.received.length = tracks.length ∧
      s.received.Perm (s.ran.map Prod.snd) ∧ finalErr = collectResults s.received := by
  obtain ⟨main, workers, jobs, closed, results, ran, received⟩ := s
  obtain ⟨hT, hR, hM, hE⟩ := hinv
  simp only at hT hR hM hE hret
  subst hret
  have hTlen := hT.length_eq
  have hRlen := hR.length_eq
  simp only [List.length_append, List.length_map, unsentTracks, List.length_nil] at hTlen hRlen
  simp only [mainInv] at hM
  obtain ⟨_, _, hrecv, hfe⟩ := hM
  have hjobs : jobs = [] := List.length_eq_zero.mp (by omega)
  have hheldT : heldTracks workers = [] := List.length_eq_zero.mp (by omega)
  have hheldR : heldResults workers = [] := List.length_eq_zero.mp (by omega)
  have hres : results = [] := List.length_eq_zero.mp (by omega)
  rw [hjobs, hheldT] at hT
  rw [hheldR, hres] at hR
  simp only [unsentTracks, List.append_nil, List.nil_append] at hT hR
  exact ⟨hT, hrecv, hR, hfe⟩

/-- Running two schedules one after the other. -/
theorem runSchedule_append (tracks : List Track) (workerCount : Int)
    (process : Nat → Track → Option ε) (first second : List Actor) :
    ∀ (s s1 : PoolState Track ε),
      runSchedule tracks workerCount process first s = some s1 →
      runSchedule tracks workerCount process (first ++ second) s
        = runSchedule tracks workerCount process second s1 := by
  induction first with
  | nil =>
    intro s s1 hrun
    obtain rfl := Option.some.inj hrun
    rfl
  | cons a rest ih =>
    intro s s1 hrun
    simp only [List.cons_append]
    unfold runSchedule at hrun
    cases hstep : poolStep tracks workerCount process s a with
    | none => rw [hstep] at hrun; cases hrun
    | some s2 =>
      rw [hstep] at hrun
      simp only [runSchedule, hstep]
      exact ih s2 s1 hrun

/-- With at least one worker (or nothing to do), every reachable state has a
continuation in which `DownloadTrackList` returns. -/
theorem pool_can_finish (tracks : List Track) (workerCount : Int)
    (process : Nat → Track → Option ε) (hW : 1 ≤ workerCount ∨ tracks = []) :
    ∀ (n : Nat) (s : PoolState Track ε), PoolInv tracks workerCount s →
      poolMeasure tracks workerCount s ≤ n →
      ∃ more s', runSchedule tracks workerCount process more s = some s' ∧
        ∃ finalErr, s'.main = .returned finalErr := by
  intro n
  induction n with
  | zero =>
    intro s hinv hle
    by_cases hret : ∃ finalErr, s.main = .returned finalErr
    · exact ⟨[], s, rfl, hret⟩
    · obtain ⟨a, ha⟩ := pool_progress tracks workerCount process s hinv hW
        (fun fe h => hret ⟨fe, h⟩)
      cases hstep : poolStep tracks workerCount process s a with
      | none => rw [hstep] at ha; cases ha
      | some s1 =>
        have hlt : poolMeasure tracks workerCount s1 < poolMeasure tracks workerCount s := by
          cases a with
          | main => exact poolMeasure_stepMain tracks workerCount s s1 hinv hstep
          | worker j => exact poolMeasure_stepWorker tracks workerCount process j s s1 hstep
        omega
  | succ n ih =>
    intro s hinv hle
    by_cases hret : ∃ finalErr, s.main = .returned finalErr
    · exact ⟨[], s, rfl, hret⟩
    · obtain ⟨a, ha⟩ := pool_progress tracks workerCount process s hinv hW
        (fun fe h => hret ⟨fe, h⟩)
      cases hstep : poolStep tracks workerCount process s a with
      | none => rw [hstep] at ha; cases ha
      | some s1 =>
        have hlt : poolMeasure tracks workerCount s1 < poolMeasure tracks workerCount s := by
          cases a with
          | main => exact poolMeasure_stepMain tracks workerCount s s1 hinv hstep
          | worker j => exact poolMeasure_stepWorker tracks workerCount process j s s1 hstep
        have hinv1 := poolInv_poolStep tracks workerCount process a s s1 hinv hstep
        obtain ⟨more, s', hrun, hfin⟩ := ih s1 hinv1 (by omega)
        refine ⟨a :: more, s', ?_, hfin⟩
        unfold runSchedule
        rw [hstep]
        exact hrun

end Pool

/-- Claim C6 fails for a worker count of 0: with one track and no worker, after
the main goroutine has left the start loop, sent the track and closed `jobs`, it
waits for a result in the collecting loop (it has not returned), no step is
possible for any goroutine, and the pipeline has run for no track. -/
theorem DownloadTrackList_without_workers_never_returns :
    DownloadTrackList ["a"] 0 (fun _ _ => (none : Option String))
        [Actor.main, Actor.main, Actor.main]
      = some { main := .collect 0 none, workers := [], jobs := ["a"], jobsClosed := true,
               results := [], ran := [], received := [] } ∧
    ∀ a : Actor,
      poolStep ["a"] 0 (fun _ _ => (none : Option String))
        { main := .collect 0 none, workers := [], jobs := ["a"], jobsClosed := true,
          results := [], ran := [], received := [] } a = none := by
  refine ⟨by decide, ?_⟩
  intro a
  cases a with
  | main => rfl
  | worker j => rfl

/-- Claim C6, amended to a worker count of at least 1 (or an empty track list).
In every state `s` that a run of `DownloadTrackList` reaches under any
scheduling of the goroutines: if the function has returned, then the pipeline
has run exactly once for every submitted track (the processed tracks are a
permutation of `tracks`), exactly `len(tracks)` outcomes have been collected,
they are the outcomes of those pipeline runs (none dropped or duplicated), and
the returned error is the one the result loop computes from them; if it has not
returned, some goroutine can take a step (no deadlock); and the run has at most
`2 * workerCount + 5 * len(tracks) + 3` steps, so that every run comes to an end,
which by the absence of deadlock is after the return; in particular the run
can be continued up to the return.  (`processSingleTrack` is taken to return,
with an error or without, whenever it is called.) -/
theorem DownloadTrackList_collects_one_outcome_per_track {Track ε : Type}
    (tracks : List Track) (workerCount : Int) (process : Nat → Track → Option ε)
    (schedule : List Actor) (s : PoolState Track ε)
    (hW : 1 ≤ workerCount ∨ tracks = [])
    (hrun : DownloadTrackList tracks workerCount process schedule = some s) :
    (∀ finalErr, s.main = .returned finalErr →
      (s.ran.map Prod.fst).Perm tracks ∧ s.received.length = tracks.length ∧
        s.received.Perm (s.ran.map Prod.snd) ∧ finalErr = collectResults s.received) ∧
    ((∀ finalErr, s.main ≠ .returned finalErr) →
      ∃ a, (poolStep tracks workerCount process s a).isSome = true) ∧
    schedule.length ≤ 2 * workerCount.toNat + 5 * tracks.length + 3 ∧
    (∃ more s', DownloadTrackList tracks workerCount process (schedule ++ more) = some s' ∧
      ∃ finalErr, s'.main = .returned finalErr) := by
  have hinv : PoolInv tracks workerCount s :=
    poolInv_runSchedule tracks workerCount process schedule initialPool s
      (poolInv_initial tracks workerCount) hrun
  refine ⟨?_, ?_, ?_, ?_⟩
  · intro finalErr hret
    exact pool_returned tracks workerCount s hinv finalErr hret
  · intro hnot
    exact pool_progress tracks workerCount process s hinv hW hnot
  swap
  · obtain ⟨more, s', hmore, hfin⟩ :=
      pool_can_finish tracks workerCount process hW _ s hinv (Nat.le_refl _)
    refine ⟨more, s', ?_, hfin⟩
    unfold DownloadTrackList at hrun ⊢
    rw [runSchedule_append tracks workerCount process schedule more initialPool s hrun]
    exact hmore
  · have hlen := runSchedule_length_le tracks workerCount process schedule initialPool s
      (poolInv_initial tracks workerCount) hrun
    have hinit : poolMeasure tracks workerCount (initialPool : PoolState Track ε)
        = 2 * workerCount.toNat + 5 * tracks.length + 3 := by
      simp only [poolMeasure, initialPool, mainFuel, unsentTracks, heldTracks, heldResults,
        liveWorkers, List.length_nil]
      omega
    omega

/-- Claim C6 (amended) at two tracks and two workers, the track "b" failing, in a
run of fifteen steps that ends with the return. -/
theorem DownloadTrackList_collects_one_outcome_per_track_witness :
    (["b", "a"] : List String).Perm ["a", "b"] ∧
      ([some "no songs found for b", none] : List (Option String)).length
        = (["a", "b"] : List String).length ∧
      ([some "no songs found for b", none] : List (Option String)).Perm
        [some "no songs found for b", none] ∧
      some "no songs found for b" = collectResults [some "no songs found for b", none] :=
  (DownloadTrackList_collects_one_outcome_per_track ["a", "b"] 2
      (fun _ track => if track = "b" then some "no songs found for b" else none)
      [Actor.main, Actor.main, Actor.main, Actor.main, Actor.worker 0, Actor.main,
        Actor.worker 1, Actor.main, Actor.worker 1, Actor.worker 1, Actor.main,
        Actor.worker 0, Actor.worker 0, Actor.main, Actor.main]
      { main := .returned (some "no songs found for b"),
        workers := [.ranging, .ranging], jobs := [], jobsClosed := true, results := [],
        ran := [("b", some "no songs found for b"), ("a", none)],
        received := [some "no songs found for b", none] }
      (Or.inl (by decide)) (by decide)).1 (some "no songs found for b") rfl

end downloader
end PlaylistDownload

namespace PlaylistDownload
namespace strings

/-- Splitting a piece without separator that is followed by a separator. -/
theorem Split_append_sep (piece rest : List Char) (sep : Char) (h : sep ∉ piece) :
    Split (piece ++ sep :: rest) sep = piece :: Split rest sep := by
  induction piece with
  | nil => simp [Split]
  | cons c cs ih =>
    have hc : c ≠ sep := fun e => h (by simp [e])
    have hcs : sep ∉ cs := fun e => h (by simp [e])
    show Split (c :: (cs ++ sep :: rest)) sep = _
    rw [Split, if_neg hc, ih hcs]

/-- A string without separator is one piece. -/
theorem Split_of_not_mem (piece : List Char) (sep : Char) (h : sep ∉ piece) :
    Split piece sep = [piece] := by
  induction piece with
  | nil => rfl
  | cons c cs ih =>
    have hc : c ≠ sep := fun e => h (by simp [e])
    have hcs : sep ∉ cs := fun e => h (by simp [e])
    rw [Split, if_neg hc, ih hcs]

/-- Splitting the pieces joined by the separator gives the pieces back. -/
theorem Split_intercalate (pieces : List (List Char)) (sep : Char) (hne : pieces ≠ [])
    (h : ∀ piece ∈ pieces, sep ∉ piece) :
    Split ([sep].intercalate pieces) sep = pieces := by
  induction pieces with
  | nil => exact absurd rfl hne
  | cons p ps ih =>
    cases ps with
    | nil =>
      have : [sep].intercalate [p] = p := by
        simp [List.intercalate, List.intersperse]
      rw [this]
      exact Split_of_not_mem p sep (h p (by simp))
    | cons q qs =>
      have hp := h p (by simp)
      have ih' := ih (by simp) (fun piece hpiece => h piece (by simp [hpiece]))
      have : [sep].intercalate (p :: q :: qs) = p ++ sep :: [sep].intercalate (q :: qs) := by
        simp [List.intercalate, List.intersperse]
      rw [this, Split_append_sep _ _ _ hp, ih']

/-- Trimming leaves a string alone that neither starts nor ends with the cut
character, whatever number of them is put in front. -/
theorem Trim_leading (s : List Char) (cut : Char) (n : Nat)
    (hhead : s.head? ≠ some cut) (hlast : s.getLast? ≠ some cut) :
    Trim (List.replicate n cut ++ s) cut = s := by
  have hdrop : (List.replicate n cut ++ s).dropWhile (fun c => c == cut) = s := by
    induction n with
    | zero =>
      cases s with
      | nil => rfl
      | cons a l =>
        have : a ≠ cut := fun e => hhead (by simp [e])
        rw [List.replicate_zero, List.nil_append, List.dropWhile_cons_of_neg]
        simpa using this
    | succ n ih =>
      simp only [List.replicate_succ, List.cons_append, List.dropWhile, beq_self_eq_true]
      exact ih
  have hrev : s.reverse.dropWhile (fun c => c == cut) = s.reverse := by
    cases hr : s.reverse with
    | nil => rfl
    | cons a l =>
      have : a ≠ cut := by
        intro e
        apply hlast
        rw [← List.head?_reverse, hr, e]
        rfl
      rw [List.dropWhile_cons_of_neg]
      simpa using this
  unfold Trim
  rw [hdrop, hrev, List.reverse_reverse]

/-- The pieces joined by the separator end with the last character of the last
piece. -/
theorem getLast?_intercalate_ne (pieces : List (List Char)) (sep : Char)
    (h : ∀ piece ∈ pieces, piece ≠ [] ∧ sep ∉ piece) :
    ([sep].intercalate pieces).getLast? ≠ some sep := by
  induction pieces with
  | nil => simp [List.intercalate, List.intersperse]
  | cons p ps ih =>
    cases ps with
    | nil =>
      have hj : [sep].intercalate [p] = p := by
        simp [List.intercalate, List.intersperse]
      rw [hj]
      intro hlast
      exact (h p (by simp)).2 (List.mem_of_getLast?_eq_some hlast)
    | cons q qs =>
      have hj : [sep].intercalate (p :: q :: qs) = p ++ sep :: [sep].intercalate (q :: qs) := by
        simp [List.intercalate, List.intersperse]
      have ih' := ih (fun piece hpiece => h piece (by simp [hpiece]))
      have hq : [sep].intercalate (q :: qs) ≠ [] := by
        have hq1 := (h q (by simp)).1
        cases q with
        | nil => exact absurd rfl hq1
        | cons a l =>
          cases qs <;> simp [List.intercalate, List.intersperse]
      rw [hj]
      intro hlast
      apply ih'
      rw [← hlast, show p ++ sep :: [sep].intercalate (q :: qs)
        = (p ++ [sep]) ++ [sep].intercalate (q :: qs) by simp]
      exact (List.getLast?_append_of_ne_nil _ hq).symm

end strings

namespace parser

/-- The segments of a path written as `/seg0/seg1/...`, with any number of
leading slashes and with segments that are not empty and contain no slash, are
`seg0`, `seg1`, ... -/
theorem pathSegments_of_joined (segs : List (List Char)) (n : Nat) (hne : segs ≠ [])
    (hseg : ∀ seg ∈ segs, seg ≠ [] ∧ '/' ∉ seg) :
    pathSegments (String.mk (List.replicate n '/' ++ ['/'].intercalate segs)) = segs := by
  have hsplit := strings.Split_intercalate segs '/' hne (fun seg h => (hseg seg h).2)
  have hlast := strings.getLast?_intercalate_ne segs '/' hseg
  have hhead : (['/'].intercalate segs).head? ≠ some '/' := by
    cases segs with
    | nil => exact absurd rfl hne
    | cons p ps =>
      have hp := hseg p (by simp)
      cases p with
      | nil => exact absurd rfl hp.1
      | cons a l =>
        have ha : a ≠ '/' := fun e => hp.2 (by simp [e])
        cases ps <;> simpa [List.intercalate, List.intersperse] using ha
  unfold pathSegments
  show strings.Split (strings.Trim (List.replicate n '/' ++ ['/'].intercalate segs) '/') '/' = _
  rw [strings.Trim_leading _ _ _ hhead hlast, hsplit]

end parser
end PlaylistDownload

namespace PlaylistDownload

namespace strings

/-- The helper `Index` returns `-1` or a position. -/
theorem Index_ge (s : List Char) (c : Char) : -1 ≤ Index s c := by
  induction s with
  | nil => simp [Index]
  | cons x xs ih =>
    unfold Index
    split_ifs <;> omega

/-- Cutting a string at `Index`, when that is not `-1`, keeps the characters
before the first occurrence of `c`. -/
theorem take_Index_eq_takeWhile (s : List Char) (c : Char) :
    (if Index s c ≠ -1 then s.take (Index s c).toNat else s) = s.takeWhile (fun x => x ≠ c) := by
  induction s with
  | nil => simp [Index]
  | cons x xs ih =>
    have hge := Index_ge xs c
    unfold Index
    by_cases hx : x = c
    · simp [hx]
    · by_cases hi : Index xs c = -1
      · rw [if_neg hx, if_pos hi]
        rw [hi] at ih
        simp only [ne_eq, not_true_eq_false, if_false] at ih
        simp only [ne_eq, not_true_eq_false, if_false]
        rw [List.takeWhile_cons_of_pos (by simpa using hx), ← ih]
      · rw [if_neg hx, if_neg hi]
        rw [if_pos hi] at ih
        have h1 : Index xs c + 1 ≠ -1 := by omega
        have h2 : (Index xs c + 1).toNat = (Index xs c).toNat + 1 := by omega
        rw [if_pos h1, h2, List.take_succ_cons,
          List.takeWhile_cons_of_pos (by simpa using hx), ih]

end strings

namespace parser
open SpotifyURLType

/-- The result of `ParseSpotifyURL` on a reference that parses, has a host and
has the path segments `seg0`, `seg1`, ... -/
theorem ParseSpotifyURL_of_segments (urlParse : String → Except String URL)
    (spotifyURL : String) (u : URL) (seg0 seg1 : List Char) (rest : List (List Char))
    (hparse : urlParse spotifyURL = .ok u) (hhost : u.Host ≠ "")
    (hsegs : pathSegments u.Path = seg0 :: seg1 :: rest) :
    ParseSpotifyURL urlParse spotifyURL =
      if seg0 = "track".data then
        (TrackURL, String.mk (seg1.takeWhile (fun x => x ≠ '?')), none)
      else if seg0 = "album".data then
        (AlbumURL, String.mk (seg1.takeWhile (fun x => x ≠ '?')), none)
      else if seg0 = "playlist".data then
        (PlaylistURL, String.mk (seg1.takeWhile (fun x => x ≠ '?')), none)
      else (UnknownURL, "", some ("unsupported Spotify resource type: " ++ String.mk seg0)) := by
  have hlen : ¬ ((seg0 :: seg1 :: rest).length < 2) := by simp
  have hcut := strings.take_Index_eq_takeWhile seg1 '?'
  simp only [ParseSpotifyURL, hparse, hhost, hsegs, hlen, if_false, List.getD_cons_zero,
    List.getD_cons_succ, hcut]

/-- Claim C7.  For every reference that `url.Parse` accepts, with a non-empty
host and a path of two or more segments `seg0`, `seg1`, ...: when `seg0` is
"track", "album" or "playlist", `ParseSpotifyURL` succeeds (error `nil`) with the
kind `TrackURL`, `AlbumURL` or `PlaylistURL` respectively, and with `seg1` cut
before its first "?" (unchanged when it has none) as the id. -/
theorem ParseSpotifyURL_recognized_kind_and_id (urlParse : String → Except String URL)
    (spotifyURL : String) (u : URL) (seg0 seg1 : List Char) (rest : List (List Char))
    (hparse : urlParse spotifyURL = .ok u) (hhost : u.Host ≠ "")
    (hsegs : pathSegments u.Path = seg0 :: seg1 :: rest) :
    (seg0 = "track".data → ParseSpotifyURL urlParse spotifyURL =
        (TrackURL, String.mk (seg1.takeWhile (fun x => x ≠ '?')), none)) ∧
    (seg0 = "album".data → ParseSpotifyURL urlParse spotifyURL =
        (AlbumURL, String.mk (seg1.takeWhile (fun x => x ≠ '?')), none)) ∧
    (seg0 = "playlist".data → ParseSpotifyURL urlParse spotifyURL =
        (PlaylistURL, String.mk (seg1.takeWhile (fun x => x ≠ '?')), none)) := by
  have h := ParseSpotifyURL_of_segments urlParse spotifyURL u seg0 seg1 rest hparse hhost hsegs
  refine ⟨?_, ?_, ?_⟩
  · intro h0
    rw [h, if_pos h0]
  · intro h0
    rw [h, if_neg (by rw [h0]; decide), if_pos h0]
  · intro h0
    rw [h, if_neg (by rw [h0]; decide), if_neg (by rw [h0]; decide), if_pos h0]

/-- Claim C7 at `https://x/playlist/ABC123?si=zzz`: the result is
(PlaylistURL, "ABC123"). -/
theorem ParseSpotifyURL_recognized_kind_and_id_witness :
    ParseSpotifyURL urlParseSample "https://x/playlist/ABC123?si=zzz"
      = (PlaylistURL, "ABC123", none) :=
  (ParseSpotifyURL_recognized_kind_and_id urlParseSample "https://x/playlist/ABC123?si=zzz"
      { Scheme := "https", Host := "x", Path := "/playlist/ABC123", RawQuery := "si=zzz",
        Fragment := "" }
      "playlist".data "ABC123".data [] rfl (by decide) (by decide)).2.2 rfl

/-- Claim C8 fails at `https://x/foo`: its first path segment "foo" is none of
"track", "album", "playlist", and `ParseSpotifyURL` fails with "URL path is too
short", not with the unsupported-kind error. -/
theorem ParseSpotifyURL_unrecognized_single_segment_is_too_short :
    urlParseSample "https://x/foo"
        = .ok { Scheme := "https", Host := "x", Path := "/foo", RawQuery := "", Fragment := "" } ∧
      (pathSegments "/foo").head? = some "foo".data ∧
      "foo".data ≠ "track".data ∧ "foo".data ≠ "album".data ∧ "foo".data ≠ "playlist".data ∧
      ParseSpotifyURL urlParseSample "https://x/foo"
        = (UnknownURL, "", some "URL path is too short") ∧
      (ParseSpotifyURL urlParseSample "https://x/foo").2.2
        ≠ some "unsupported Spotify resource type: foo" :=
  ⟨rfl, by decide, by decide, by decide, by decide, rfl, by decide⟩

/-- Claim C8, amended.  For a reference that `url.Parse` accepts, with a non-empty
host and at least two path segments, whose first segment is none of "track",
"album", "playlist", `ParseSpotifyURL` fails with "unsupported Spotify resource
type: " followed by that segment.  For a reference that `url.Parse` rejects or
that has no host it fails with "invalid URL: " followed by the reference, and
for one with a host and fewer than two path segments with "URL path is too
short".  In every failure the kind is `UnknownURL` and the id is empty. -/
theorem ParseSpotifyURL_failure_cases (urlParse : String → Except String URL)
    (spotifyURL : String) :
    (∀ u seg0 seg1 rest, urlParse spotifyURL = .ok u → u.Host ≠ "" →
      pathSegments u.Path = seg0 :: seg1 :: rest →
      seg0 ≠ "track".data → seg0 ≠ "album".data → seg0 ≠ "playlist".data →
      ParseSpotifyURL urlParse spotifyURL =
        (UnknownURL, "", some ("unsupported Spotify resource type: " ++ String.mk seg0))) ∧
    (∀ e, urlParse spotifyURL = .error e →
      ParseSpotifyURL urlParse spotifyURL =
        (UnknownURL, "", some ("invalid URL: " ++ spotifyURL))) ∧
    (∀ u, urlParse spotifyURL = .ok u → u.Host = "" →
      ParseSpotifyURL urlParse spotifyURL =
        (UnknownURL, "", some ("invalid URL: " ++ spotifyURL))) ∧
    (∀ u, urlParse spotifyURL = .ok u → u.Host ≠ "" → (pathSegments u.Path).length < 2 →
      ParseSpotifyURL urlParse spotifyURL = (UnknownURL, "", some "URL path is too short")) ∧
    ((ParseSpotifyURL urlParse spotifyURL).2.2 ≠ none →
      (ParseSpotifyURL urlParse spotifyURL).1 = UnknownURL ∧
      (ParseSpotifyURL urlParse spotifyURL).2.1 = "") := by
  refine ⟨?_, ?_, ?_, ?_, ?_⟩
  · intro u seg0 seg1 rest hparse hhost hsegs h1 h2 h3
    rw [ParseSpotifyURL_of_segments urlParse spotifyURL u seg0 seg1 rest hparse hhost hsegs,
      if_neg h1, if_neg h2, if_neg h3]
  · intro e hparse
    simp only [ParseSpotifyURL, hparse]
  · intro u hparse hhost
    simp only [ParseSpotifyURL, hparse, hhost, if_true]
  · intro u hparse hhost hlen
    simp only [ParseSpotifyURL, hparse, hhost, hlen, if_true, if_false]
  · cases hparse : urlParse spotifyURL with
    | error e => simp [ParseSpotifyURL, hparse]
    | ok u =>
      by_cases hhost : u.Host = ""
      · simp [ParseSpotifyURL, hparse, hhost]
      · by_cases hlen : (pathSegments u.Path).length < 2
        · simp [ParseSpotifyURL, hparse, hhost, hlen]
        · by_cases h1 : (pathSegments u.Path).getD 0 [] = "track".data
          · simp only [ParseSpotifyURL, hparse, hhost, hlen, h1, if_true, if_false]
            intro h
            exact absurd rfl h
          · by_cases h2 : (pathSegments u.Path).getD 0 [] = "album".data
            · simp only [ParseSpotifyURL, hparse, hhost, hlen, h1, h2, if_true, if_false]
              intro h
              exact absurd rfl h
            · by_cases h3 : (pathSegments u.Path).getD 0 [] = "playlist".data
              · simp only [ParseSpotifyURL, hparse, hhost, hlen, h1, h2, h3, if_true, if_false]
                intro h
                exact absurd rfl h
              · simp only [ParseSpotifyURL, hparse, hhost, hlen, h1, h2, h3, if_false]
                intro _
                exact ⟨trivial, trivial⟩

/-- Claim C8 (amended) at `https://x/foo/bar`: the unsupported-kind error for
"foo". -/
theorem ParseSpotifyURL_failure_cases_witness :
    ParseSpotifyURL urlParseSample "https://x/foo/bar"
      = (UnknownURL, "", some "unsupported Spotify resource type: foo") :=
  (ParseSpotifyURL_failure_cases urlParseSample "https://x/foo/bar").1
    { Scheme := "https", Host := "x", Path := "/foo/bar", RawQuery := "", Fragment := "" }
    "foo".data "bar".data [] rfl (by decide) (by decide)
    (by decide) (by decide) (by decide)

end parser
end PlaylistDownload

namespace PlaylistDownload
namespace utils

/-- The nine characters of the bracket expression. -/
theorem mem_invalidChars_iff (c : Char) :
    c ∈ invalidChars ↔
      (c = '\\' ∨ c = '/' ∨ c = ':' ∨ c = '*' ∨ c = '?' ∨ c = '"' ∨ c = '<' ∨ c = '>'
        ∨ c = '|') := by
  simp [invalidChars]

/-- Replacing by one character is a map over the characters. -/
theorem replaceAllClass_underscore_eq_map (cls : List Char) (s : List Char) :
    replaceAllClass cls ['_'] s = s.map (fun c => if c ∈ cls then '_' else c) := by
  induction s with
  | nil => rfl
  | cons c cs ih =>
    by_cases h : c ∈ cls <;> simp [replaceAllClass, h, ih]

end utils

namespace downloader
open utils

/-- Claim C9.  For every title, `RemoveIllegalPathChars` returns a string with
the same number of characters, in which at every position a backslash, slash,
colon, asterisk, question mark, double quote, `<`, `>` or `|` is replaced by `_`
and any other character is unchanged; the result contains none of these nine
characters; and `sanitizeFileName` returns the same string. -/
theorem RemoveIllegalPathChars_replaces_each_illegal_char (name : String) :
    (RemoveIllegalPathChars name).length = name.length ∧
    (∀ i : Nat, (RemoveIllegalPathChars name).data[i]? =
      (name.data[i]?).map (fun c =>
        if c = '\\' ∨ c = '/' ∨ c = ':' ∨ c = '*' ∨ c = '?' ∨ c = '"' ∨ c = '<' ∨ c = '>'
          ∨ c = '|' then '_' else c)) ∧
    (∀ c ∈ (RemoveIllegalPathChars name).data,
      ¬ (c = '\\' ∨ c = '/' ∨ c = ':' ∨ c = '*' ∨ c = '?' ∨ c = '"' ∨ c = '<' ∨ c = '>'
          ∨ c = '|')) ∧
    sanitizeFileName name = RemoveIllegalPathChars name := by
  have hmap : (RemoveIllegalPathChars name).data =
      name.data.map (fun c => if c ∈ invalidChars then '_' else c) := by
    show replaceAllClass invalidChars "_".data name.data = _
    exact replaceAllClass_underscore_eq_map invalidChars name.data
  refine ⟨?_, ?_, ?_, rfl⟩
  · show (RemoveIllegalPathChars name).data.length = name.data.length
    rw [hmap, List.length_map]
  · intro i
    rw [hmap, List.getElem?_map]
    cases name.data[i]? with
    | none => rfl
    | some c => simp only [Option.map, mem_invalidChars_iff]
  · intro c hc
    rw [hmap, List.mem_map] at hc
    obtain ⟨a, _, rfl⟩ := hc
    rw [← mem_invalidChars_iff]
    by_cases ha : a ∈ invalidChars
    · simp only [ha, if_true]
      decide
    · simpa only [ha, if_false] using ha

/-- Claim C9 at the title `AC/DC: Live?`: the slash, the colon and the question
mark are replaced. -/
theorem RemoveIllegalPathChars_replaces_each_illegal_char_witness :
    (RemoveIllegalPathChars "AC/DC: Live?").length = "AC/DC: Live?".length ∧
      RemoveIllegalPathChars "AC/DC: Live?" = "AC_DC_ Live_" ∧
      sanitizeFileName "AC/DC: Live?" = "AC_DC_ Live_" :=
  ⟨(RemoveIllegalPathChars_replaces_each_illegal_char "AC/DC: Live?").1, by decide,
    by decide⟩

end downloader
end PlaylistDownload

namespace PlaylistDownload
namespace utils
open regexp

/-- The scan `replaceAllClass`, used for `invalidCharsRegex`, is the loop of
`replaceAll` for the expression that is the one bracket expression. -/
theorem replaceAllClass_eq_replaceFrom (cls : List Char) (repl : List Char)
    (input : List Char) :
    ∀ (justMatched : Bool) (prev : Option Char),
      replaceFrom [Item.one (fun c => decide (c ∈ cls))] repl 0 justMatched prev input
        = replaceAllClass cls repl input := by
  induction input with
  | nil =>
    intro jm prev
    rfl
  | cons c cs ih =>
    intro jm prev
    by_cases hc : c ∈ cls
    · have hmatch : matchHere [Item.one (fun c => decide (c ∈ cls))] prev (c :: cs)
          = some cs := by
        show (if decide (c ∈ cls) = true then some cs else none) = some cs
        rw [if_pos (by simpa using hc)]
      have hn : (c :: cs).length - cs.length = 1 := by
        simp only [List.length_cons]
        omega
      rw [replaceFrom, hmatch]
      simp only [hn, replaceAllClass, if_pos hc]
      rw [← ih true (some c)]
      rfl
    · have hmatch : matchHere [Item.one (fun c => decide (c ∈ cls))] prev (c :: cs)
          = none := by
        show (if decide (c ∈ cls) = true then some cs else none) = none
        rw [if_neg (by simpa using hc)]
      rw [replaceFrom, hmatch]
      simp only [replaceAllClass, if_neg hc]
      rw [ih false (some c)]

end utils
end PlaylistDownload

namespace PlaylistDownload
namespace time

/-- The code points of the digits. -/
theorem digit_toNat (c : Char) (h : '0' ≤ c ∧ c ≤ '9') : 48 ≤ c.toNat ∧ c.toNat ≤ 57 := by
  obtain ⟨h1, h2⟩ := h
  rw [Char.le_def, UInt32.le_def, BitVec.le_def] at h1 h2
  exact ⟨h1, h2⟩

/-- The value of a digit is between 0 and 9. -/
theorem digitVal_range (c : Char) (h : '0' ≤ c ∧ c ≤ '9') :
    0 ≤ digitVal c ∧ digitVal c ≤ 9 := by
  have := digit_toNat c h
  unfold digitVal
  omega

/-- A digit is one byte in UTF-8. -/
theorem digit_utf8Size (c : Char) (h : '0' ≤ c ∧ c ≤ '9') : c.utf8Size = 1 := by
  have h2 := h.2
  rw [Char.le_def] at h2
  have h3 : c.val ≤ 127 := by
    rw [UInt32.le_def, BitVec.le_def] at h2 ⊢
    exact Nat.le_trans h2 (by decide)
  unfold Char.utf8Size
  exact if_pos h3

/-- A digit is not a sign. -/
theorem digit_ne_sign (c : Char) (h : '0' ≤ c ∧ c ≤ '9') : c ≠ '-' ∧ c ≠ '+' := by
  constructor
  · rintro rfl
    exact absurd h (by decide)
  · rintro rfl
    exact absurd h (by decide)

/-- The helper `atoi` on four characters of which the first is a digit. -/
theorem atoi_four (a b c d : Char) (ha : '0' ≤ a ∧ a ≤ '9') :
    atoi [a, b, c, d] =
      if ('0' ≤ b ∧ b ≤ '9') ∧ ('0' ≤ c ∧ c ≤ '9') ∧ ('0' ≤ d ∧ d ≤ '9') then
        some (digitVal a * 1000 + digitVal b * 100 + digitVal c * 10 + digitVal d)
      else none := by
  obtain ⟨hm, hp⟩ := digit_ne_sign a ha
  have hsign : ¬ ((a :: [b, c, d]).head? = some '-' ∨ (a :: [b, c, d]).head? = some '+') := by
    simp [hm, hp]
  have hneg : decide ((a :: [b, c, d]).head? = some '-') = false := by
    simp [hm]
  unfold atoi
  simp only [hsign, hneg, if_false]
  by_cases hb : '0' ≤ b ∧ b ≤ '9'
  · by_cases hc : '0' ≤ c ∧ c ≤ '9'
    · by_cases hd : '0' ≤ d ∧ d ≤ '9'
      · simp [List.takeWhile, List.dropWhile, ha, hb, hc, hd]
        ring
      · simp [List.takeWhile, List.dropWhile, ha, hb, hc, hd]
    · simp [List.takeWhile, List.dropWhile, ha, hb, hc]
  · simp [List.takeWhile, List.dropWhile, ha, hb]

/-- The helper `skip` for the prefix `-` succeeds exactly on a leading hyphen. -/
theorem skip_hyphen_eq_some (v r : List Char) :
    skip v ['-'] = some r ↔ v = '-' :: r := by
  cases v with
  | nil => simp [skip]
  | cons c cs =>
    by_cases hc : c = '-'
    · simp [skip, hc]
    · simp [skip, hc]

/-- The helper `getnum` with `fixed` on an input of at least two characters. -/
theorem getnum_fixed_cons_cons (a b : Char) (r : List Char) :
    getnum (a :: b :: r) true =
      if ('0' ≤ a ∧ a ≤ '9') ∧ ('0' ≤ b ∧ b ≤ '9') then
        some (digitVal a * 10 + digitVal b, r)
      else none := by
  by_cases ha : '0' ≤ a ∧ a ≤ '9'
  · by_cases hb : '0' ≤ b ∧ b ≤ '9'
    · simp [getnum, isDigit, ha, hb]
    · simp [getnum, isDigit, ha, hb]
  · simp [getnum, isDigit, ha]

/-- The helper `getnum` with `fixed` succeeds exactly on two leading digits. -/
theorem getnum_fixed_eq_some (v r : List Char) (n : Int) :
    getnum v true = some (n, r) ↔
      ∃ a b, ('0' ≤ a ∧ a ≤ '9') ∧ ('0' ≤ b ∧ b ≤ '9') ∧ v = a :: b :: r ∧
        n = digitVal a * 10 + digitVal b := by
  cases v with
  | nil => simp [getnum, isDigit]
  | cons a v' =>
    cases v' with
    | nil =>
      by_cases ha : '0' ≤ a ∧ a ≤ '9' <;> simp [getnum, isDigit, ha]
    | cons b r' =>
      rw [getnum_fixed_cons_cons]
      constructor
      · intro h
        by_cases hab : ('0' ≤ a ∧ a ≤ '9') ∧ ('0' ≤ b ∧ b ≤ '9')
        · rw [if_pos hab] at h
          obtain ⟨h1, h2⟩ := Prod.mk.inj (Option.some.inj h)
          subst h1 h2
          exact ⟨a, b, hab.1, hab.2, rfl, rfl⟩
        · rw [if_neg hab] at h
          exact absurd h (by simp)
      · rintro ⟨a', b', ha', hb', heq, rfl⟩
        obtain ⟨h1, h2, h3⟩ : a = a' ∧ b = b' ∧ r' = r := by simpa using heq
        subst h1 h2 h3
        rw [if_pos ⟨ha', hb'⟩]

/-- The strings `time.Parse` accepts for the layout `"2006-01-02"`. -/
theorem parseDate_eq_some_iff (v : List Char) (t : Date) :
    parseDate v = some t ↔
      ∃ y1 y2 y3 y4 m1 m2 e1 e2 : Char,
        (∀ c ∈ [y1, y2, y3, y4, m1, m2, e1, e2], '0' ≤ c ∧ c ≤ '9') ∧
        v = [y1, y2, y3, y4, '-', m1, m2, '-', e1, e2] ∧
        1 ≤ digitVal m1 * 10 + digitVal m2 ∧ digitVal m1 * 10 + digitVal m2 ≤ 12 ∧
        1 ≤ digitVal e1 * 10 + digitVal e2 ∧
        digitVal e1 * 10 + digitVal e2 ≤
          daysIn (digitVal m1 * 10 + digitVal m2)
            (digitVal y1 * 1000 + digitVal y2 * 100 + digitVal y3 * 10 + digitVal y4) ∧
        t = { year := digitVal y1 * 1000 + digitVal y2 * 100 + digitVal y3 * 10 + digitVal y4,
              month := digitVal m1 * 10 + digitVal m2,
              day := digitVal e1 * 10 + digitVal e2 } := by
  constructor
  · intro h
    unfold parseDate at h
    by_cases h0 : (decide (v.length < 4) || !isDigit v 0) = true
    · rw [if_pos h0] at h
      exact absurd h (by simp)
    · rw [if_neg h0] at h
      simp only [Bool.or_eq_true, decide_eq_true_eq, Bool.not_eq_true', not_or, not_lt,
        Bool.not_eq_false] at h0
      obtain ⟨hlen, hd0⟩ := h0
      obtain ⟨y1, y2, y3, y4, r1, rfl⟩ :
          ∃ y1 y2 y3 y4 r1, v = y1 :: y2 :: y3 :: y4 :: r1 := by
        rcases v with _ | ⟨a, _ | ⟨b, _ | ⟨c, _ | ⟨d, r⟩⟩⟩⟩
        · simp at hlen
        · simp at hlen
        · simp at hlen
        · simp at hlen
        · exact ⟨a, b, c, d, r, rfl⟩
      have hy1 : '0' ≤ y1 ∧ y1 ≤ '9' := by simpa [isDigit] using hd0
      simp only [List.take, List.drop] at h
      rw [atoi_four y1 y2 y3 y4 hy1] at h
      by_cases hy : ('0' ≤ y2 ∧ y2 ≤ '9') ∧ ('0' ≤ y3 ∧ y3 ≤ '9') ∧ ('0' ≤ y4 ∧ y4 ≤ '9')
      · rw [if_pos hy] at h
        simp only at h
        cases hs : skip r1 ['-'] with
        | none => rw [hs] at h; exact absurd h (by simp)
        | some r2 =>
          rw [hs] at h
          simp only at h
          cases hg : getnum r2 true with
          | none => rw [hg] at h; exact absurd h (by simp)
          | some p =>
            obtain ⟨month, r3⟩ := p
            rw [hg] at h
            simp only at h
            by_cases hm : month ≤ 0 ∨ 12 < month
            · rw [if_pos hm] at h; exact absurd h (by simp)
            · rw [if_neg hm] at h
              cases hs2 : skip r3 ['-'] with
              | none => rw [hs2] at h; exact absurd h (by simp)
              | some r4 =>
                rw [hs2] at h
                simp only at h
                cases hg2 : getnum r4 true with
                | none => rw [hg2] at h; exact absurd h (by simp)
                | some q =>
                  obtain ⟨day, r5⟩ := q
                  rw [hg2] at h
                  simp only at h
                  by_cases hr5 : r5.length ≠ 0
                  · rw [if_pos hr5] at h; exact absurd h (by simp)
                  · rw [if_neg hr5] at h
                    by_cases hday : day < 1 ∨ day > daysIn month
                        (digitVal y1 * 1000 + digitVal y2 * 100 + digitVal y3 * 10 + digitVal y4)
                    · rw [if_pos hday] at h; exact absurd h (by simp)
                    · rw [if_neg hday] at h
                      have hr1 := (skip_hyphen_eq_some r1 r2).mp hs
                      have hr3 := (skip_hyphen_eq_some r3 r4).mp hs2
                      obtain ⟨m1, m2, hm1, hm2, hr2, hmonth⟩ :=
                        (getnum_fixed_eq_some r2 r3 month).mp hg
                      obtain ⟨e1, e2, he1, he2, hr4, hdayv⟩ :=
                        (getnum_fixed_eq_some r4 r5 day).mp hg2
                      have hr5' : r5 = [] := by
                        cases r5 with
                        | nil => rfl
                        | cons a l => simp at hr5
                      subst hr5' hr4 hr3 hr2 hr1 hmonth hdayv
                      refine ⟨y1, y2, y3, y4, m1, m2, e1, e2, ?_, rfl, ?_, ?_, ?_, ?_, ?_⟩
                      · intro c hc
                        simp only [List.mem_cons, List.mem_singleton, List.not_mem_nil,
                          or_false] at hc
                        rcases hc with rfl | rfl | rfl | rfl | rfl | rfl | rfl | rfl
                        · exact hy1
                        · exact hy.1
                        · exact hy.2.1
                        · exact hy.2.2
                        · exact hm1
                        · exact hm2
                        · exact he1
                        · exact he2
                      · omega
                      · omega
                      · omega
                      · omega
                      · exact (Option.some.inj h).symm
      · rw [if_neg hy] at h
        exact absurd h (by simp)
  · rintro ⟨y1, y2, y3, y4, m1, m2, e1, e2, hdig, rfl, hm1, hm12, hd1, hdmax, rfl⟩
    have hy1 := hdig y1 (by simp)
    have hy2 := hdig y2 (by simp)
    have hy3 := hdig y3 (by simp)
    have hy4 := hdig y4 (by simp)
    have hm1' := hdig m1 (by simp)
    have hm2' := hdig m2 (by simp)
    have he1' := hdig e1 (by simp)
    have he2' := hdig e2 (by simp)
    have hskip1 : skip ['-', m1, m2, '-', e1, e2] ['-'] = some [m1, m2, '-', e1, e2] :=
      (skip_hyphen_eq_some _ _).mpr rfl
    have hskip2 : skip ['-', e1, e2] ['-'] = some [e1, e2] :=
      (skip_hyphen_eq_some _ _).mpr rfl
    have hget1 : getnum [m1, m2, '-', e1, e2] true
        = some (digitVal m1 * 10 + digitVal m2, ['-', e1, e2]) :=
      (getnum_fixed_eq_some _ _ _).mpr ⟨m1, m2, hm1', hm2', rfl, rfl⟩
    have hget2 : getnum [e1, e2] true = some (digitVal e1 * 10 + digitVal e2, []) :=
      (getnum_fixed_eq_some _ _ _).mpr ⟨e1, e2, he1', he2', rfl, rfl⟩
    have h0 : ¬ ((decide ([y1, y2, y3, y4, '-', m1, m2, '-', e1, e2].length < 4)
        || !isDigit [y1, y2, y3, y4, '-', m1, m2, '-', e1, e2] 0) = true) := by
      simp [isDigit, hy1]
    have hm : ¬ (digitVal m1 * 10 + digitVal m2 ≤ 0 ∨ 12 < digitVal m1 * 10 + digitVal m2) := by
      omega
    have hday : ¬ (digitVal e1 * 10 + digitVal e2 < 1 ∨ digitVal e1 * 10 + digitVal e2 >
        daysIn (digitVal m1 * 10 + digitVal m2)
          (digitVal y1 * 1000 + digitVal y2 * 100 + digitVal y3 * 10 + digitVal y4)) := by
      omega
    unfold parseDate
    rw [if_neg h0]
    simp only [List.take, List.drop]
    rw [atoi_four y1 y2 y3 y4 hy1, if_pos ⟨hy2, hy3, hy4⟩]
    simp only [hskip1, hget1, if_neg hm, hskip2, hget2, List.length_nil, ne_eq,
      not_true_eq_false, if_false, if_neg hday]

/-- The function `daysIn` gives the length of each month of the Gregorian calendar. -/
theorem daysIn_eq_calendar (m y : Int) (h1 : 1 ≤ m) (h12 : m ≤ 12) :
    daysIn m y =
      if m = 2 then
        (if y % 4 = 0 ∧ (y % 100 ≠ 0 ∨ y % 400 = 0) then 29 else 28)
      else if m = 4 ∨ m = 6 ∨ m = 9 ∨ m = 11 then 30
      else 31 := by
  have hleap : (isLeap y = true) ↔ (y % 4 = 0 ∧ (y % 100 ≠ 0 ∨ y % 400 = 0)) := by
    simp [isLeap]
  by_cases hm : m = 2
  · subst hm
    unfold daysIn
    by_cases hl : y % 4 = 0 ∧ (y % 100 ≠ 0 ∨ y % 400 = 0)
    · rw [if_pos ⟨rfl, hleap.mpr hl⟩, if_pos rfl, if_pos hl]
    · rw [if_neg (fun h => hl (hleap.mp h.2)), if_pos rfl, if_neg hl]
      decide
  · unfold daysIn
    rw [if_neg (fun h => hm h.1), if_neg hm]
    interval_cases m <;> first | exact absurd rfl hm | decide

/-- Four digits are four bytes. -/
theorem utf8ByteSize_four_digits (y1 y2 y3 y4 : Char)
    (hdig : ∀ c ∈ [y1, y2, y3, y4], '0' ≤ c ∧ c ≤ '9') :
    (String.mk [y1, y2, y3, y4]).utf8ByteSize = 4 := by
  have h1 := digit_utf8Size y1 (hdig y1 (by simp))
  have h2 := digit_utf8Size y2 (hdig y2 (by simp))
  have h3 := digit_utf8Size y3 (hdig y3 (by simp))
  have h4 := digit_utf8Size y4 (hdig y4 (by simp))
  simp [String.utf8ByteSize, String.utf8ByteSize.go, h1, h2, h3, h4]

/-- A date `YYYY-MM-DD` is ten bytes. -/
theorem utf8ByteSize_full_date (y1 y2 y3 y4 m1 m2 e1 e2 : Char)
    (hdig : ∀ c ∈ [y1, y2, y3, y4, m1, m2, e1, e2], '0' ≤ c ∧ c ≤ '9') :
    (String.mk [y1, y2, y3, y4, '-', m1, m2, '-', e1, e2]).utf8ByteSize = 10 := by
  have h1 := digit_utf8Size y1 (hdig y1 (by simp))
  have h2 := digit_utf8Size y2 (hdig y2 (by simp))
  have h3 := digit_utf8Size y3 (hdig y3 (by simp))
  have h4 := digit_utf8Size y4 (hdig y4 (by simp))
  have h5 := digit_utf8Size m1 (hdig m1 (by simp))
  have h6 := digit_utf8Size m2 (hdig m2 (by simp))
  have h7 := digit_utf8Size e1 (hdig e1 (by simp))
  have h8 := digit_utf8Size e2 (hdig e2 (by simp))
  have h9 : ('-' : Char).utf8Size = 1 := by decide
  simp [String.utf8ByteSize, String.utf8ByteSize.go, h1, h2, h3, h4, h5, h6, h7, h8, h9]

end time

namespace tags
open time

/-- Claim C10.  For every release-date string: when it is four digits `YYYY`,
`extractYear` returns the number they denote; when it is `YYYY-MM-DD` (digits)
with a month from 1 to 12 and a day from 1 to the length of that month in that
year of the Gregorian calendar, `extractYear` returns the number `YYYY` denotes;
and for every string of neither form it returns 0. -/
theorem extractYear_bare_year_or_full_date (dateStr : String) :
    (∀ y1 y2 y3 y4 : Char, (∀ c ∈ [y1, y2, y3, y4], '0' ≤ c ∧ c ≤ '9') →
      dateStr = String.mk [y1, y2, y3, y4] →
      extractYear dateStr
        = digitVal y1 * 1000 + digitVal y2 * 100 + digitVal y3 * 10 + digitVal y4) ∧
    (∀ y1 y2 y3 y4 m1 m2 e1 e2 : Char,
      (∀ c ∈ [y1, y2, y3, y4, m1, m2, e1, e2], '0' ≤ c ∧ c ≤ '9') →
      dateStr = String.mk [y1, y2, y3, y4, '-', m1, m2, '-', e1, e2] →
      1 ≤ digitVal m1 * 10 + digitVal m2 → digitVal m1 * 10 + digitVal m2 ≤ 12 →
      1 ≤ digitVal e1 * 10 + digitVal e2 →
      digitVal e1 * 10 + digitVal e2 ≤
        (if digitVal m1 * 10 + digitVal m2 = 2 then
          (if (digitVal y1 * 1000 + digitVal y2 * 100 + digitVal y3 * 10 + digitVal y4) % 4 = 0 ∧
              ((digitVal y1 * 1000 + digitVal y2 * 100 + digitVal y3 * 10 + digitVal y4) % 100 ≠ 0
                ∨ (digitVal y1 * 1000 + digitVal y2 * 100 + digitVal y3 * 10 + digitVal y4) % 400
                    = 0)
            then 29 else 28)
        else if digitVal m1 * 10 + digitVal m2 = 4 ∨ digitVal m1 * 10 + digitVal m2 = 6 ∨
            digitVal m1 * 10 + digitVal m2 = 9 ∨ digitVal m1 * 10 + digitVal m2 = 11 then 30
        else 31) →
      extractYear dateStr
        = digitVal y1 * 1000 + digitVal y2 * 100 + digitVal y3 * 10 + digitVal y4) ∧
    ((¬ ∃ y1 y2 y3 y4 : Char, (∀ c ∈ [y1, y2, y3, y4], '0' ≤ c ∧ c ≤ '9') ∧
        dateStr = String.mk [y1, y2, y3, y4]) →
      (¬ ∃ y1 y2 y3 y4 m1 m2 e1 e2 : Char,
        (∀ c ∈ [y1, y2, y3, y4, m1, m2, e1, e2], '0' ≤ c ∧ c ≤ '9') ∧
        dateStr = String.mk [y1, y2, y3, y4, '-', m1, m2, '-', e1, e2] ∧
        1 ≤ digitVal m1 * 10 + digitVal m2 ∧ digitVal m1 * 10 + digitVal m2 ≤ 12 ∧
        1 ≤ digitVal e1 * 10 + digitVal e2 ∧
        digitVal e1 * 10 + digitVal e2 ≤
          (if digitVal m1 * 10 + digitVal m2 = 2 then
            (if (digitVal y1 * 1000 + digitVal y2 * 100 + digitVal y3 * 10 + digitVal y4) % 4 = 0
                ∧ ((digitVal y1 * 1000 + digitVal y2 * 100 + digitVal y3 * 10 + digitVal y4) % 100
                      ≠ 0
                  ∨ (digitVal y1 * 1000 + digitVal y2 * 100 + digitVal y3 * 10 + digitVal y4) % 400
                      = 0)
              then 29 else 28)
          else if digitVal m1 * 10 + digitVal m2 = 4 ∨ digitVal m1 * 10 + digitVal m2 = 6 ∨
              digitVal m1 * 10 + digitVal m2 = 9 ∨ digitVal m1 * 10 + digitVal m2 = 11 then 30
          else 31)) →
      extractYear dateStr = 0) := by
  refine ⟨?_, ?_, ?_⟩
  · intro y1 y2 y3 y4 hdig hs
    subst hs
    have hsize := utf8ByteSize_four_digits y1 y2 y3 y4 hdig
    have hparse : parseDate [y1, y2, y3, y4, '-', '0', '1', '-', '0', '1'] =
        some { year := digitVal y1 * 1000 + digitVal y2 * 100 + digitVal y3 * 10 + digitVal y4,
               month := digitVal '0' * 10 + digitVal '1',
               day := digitVal '0' * 10 + digitVal '1' } := by
      rw [parseDate_eq_some_iff]
      refine ⟨y1, y2, y3, y4, '0', '1', '0', '1', ?_, rfl, by decide, by decide, by decide,
        ?_, rfl⟩
      · intro c hc
        simp only [List.mem_cons, List.mem_singleton, List.not_mem_nil, or_false] at hc
        rcases hc with rfl | rfl | rfl | rfl | rfl | rfl | rfl | rfl
        · exact hdig _ (by simp)
        · exact hdig _ (by simp)
        · exact hdig _ (by simp)
        · exact hdig _ (by simp)
        · decide
        · decide
        · decide
        · decide
      · have : digitVal '0' * 10 + digitVal '1' = 1 := by decide
        rw [this, daysIn_eq_calendar 1 _ (by decide) (by decide), if_neg (by decide),
          if_neg (by decide)]
        decide
    have hdata : (String.mk [y1, y2, y3, y4] ++ "-01-01").data
        = [y1, y2, y3, y4, '-', '0', '1', '-', '0', '1'] := by
      simp
    unfold extractYear
    simp only [hsize, if_true, hdata, hparse]
  · intro y1 y2 y3 y4 m1 m2 e1 e2 hdig hs hm1 hm12 hd1 hdmax
    subst hs
    have hsize := utf8ByteSize_full_date y1 y2 y3 y4 m1 m2 e1 e2 hdig
    have hparse : parseDate [y1, y2, y3, y4, '-', m1, m2, '-', e1, e2] =
        some { year := digitVal y1 * 1000 + digitVal y2 * 100 + digitVal y3 * 10 + digitVal y4,
               month := digitVal m1 * 10 + digitVal m2,
               day := digitVal e1 * 10 + digitVal e2 } := by
      rw [parseDate_eq_some_iff]
      refine ⟨y1, y2, y3, y4, m1, m2, e1, e2, hdig, rfl, hm1, hm12, hd1, ?_, rfl⟩
      rw [daysIn_eq_calendar _ _ hm1 hm12]
      exact hdmax
    unfold extractYear
    simp only [hsize]
    rw [if_neg (by decide)]
    simp only [hparse]
  · intro hbare hfull
    unfold extractYear
    dsimp only
    cases hp : parseDate (if dateStr.utf8ByteSize = 4 then dateStr ++ "-01-01" else dateStr).data
      with
    | none => rfl
    | some t =>
      exfalso
      rw [parseDate_eq_some_iff] at hp
      obtain ⟨y1, y2, y3, y4, m1, m2, e1, e2, hdig, hv, hm1, hm12, hd1, hdmax, _⟩ := hp
      by_cases hsize : dateStr.utf8ByteSize = 4
      · rw [if_pos hsize] at hv
        have hv' : dateStr.data ++ ['-', '0', '1', '-', '0', '1']
            = [y1, y2, y3, y4, '-', m1, m2, '-', e1, e2] := by
          rw [← hv]
          simp
        have hlen : dateStr.data.length = 4 := by
          have := congrArg List.length hv'
          simp only [List.length_append, List.length_cons, List.length_nil] at this
          omega
        obtain ⟨a, b, c, d, hd⟩ : ∃ a b c d, dateStr.data = [a, b, c, d] := by
          rcases hdd : dateStr.data with _ | ⟨a, _ | ⟨b, _ | ⟨c, _ | ⟨d, _ | ⟨e, r⟩⟩⟩⟩⟩
          all_goals (rw [hdd] at hlen; simp at hlen)
          exact ⟨a, b, c, d, rfl⟩
        rw [hd] at hv'
        simp only [List.cons_append, List.nil_append, List.cons.injEq, and_true] at hv'
        obtain ⟨rfl, rfl, rfl, rfl, _⟩ := hv'
        apply hbare
        refine ⟨a, b, c, d, ?_, ?_⟩
        · intro x hx
          apply hdig
          simp only [List.mem_cons, List.mem_singleton, List.not_mem_nil, or_false] at hx ⊢
          rcases hx with rfl | rfl | rfl | rfl <;> simp
        · rw [← hd]
      · rw [if_neg hsize] at hv
        apply hfull
        refine ⟨y1, y2, y3, y4, m1, m2, e1, e2, hdig, ?_, hm1, hm12, hd1, ?_⟩
        · rw [← hv]
        · rw [← daysIn_eq_calendar _ _ hm1 hm12]
          exact hdmax

/-- Claim C10 at "1998-07-01" (1998), "1998" (1998) and "not-a-date" (0). -/
theorem extractYear_bare_year_or_full_date_witness :
    extractYear "1998-07-01" = 1998 ∧ extractYear "1998" = 1998 ∧
      extractYear "not-a-date" = 0 :=
  ⟨(extractYear_bare_year_or_full_date "1998-07-01").2.1
      '1' '9' '9' '8' '0' '7' '0' '1' (by decide) rfl (by decide) (by decide) (by decide)
      (by decide),
   (extractYear_bare_year_or_full_date "1998").1 '1' '9' '9' '8' (by decide) rfl,
   (extractYear_bare_year_or_full_date "not-a-date").2.2
      (by
        rintro ⟨y1, y2, y3, y4, _, h⟩
        have := congrArg String.length h
        simp [String.length] at this)
      (by
        rintro ⟨y1, y2, y3, y4, m1, m2, e1, e2, hdig, h, _⟩
        have h' := congrArg String.data h
        simp only [List.cons.injEq] at h'
        have := hdig y1 (by simp)
        rw [← h'.1] at this
        exact absurd this (by decide))⟩

end tags
end PlaylistDownload

namespace PlaylistDownload
namespace regexp

/-- With nothing after it, the loop of `x*` takes the longest run of the class. -/
theorem starLoop_last (cls : Char → Bool) (prev : Option Char) (input : List Char) :
    starLoop cls (fun _ rest => some rest) prev input = some (input.dropWhile cls) := by
  induction input generalizing prev with
  | nil => rfl
  | cons c cs ih =>
    by_cases hc : cls c = true
    · simp only [starLoop, hc, if_true, ih, List.dropWhile_cons_of_pos]
    · simp only [starLoop, hc, Bool.false_eq_true, if_false]
      rw [List.dropWhile_cons_of_neg hc]

/-- The expression `x+` matches where a character of the class stands, and takes
the longest run of the class. -/
theorem matchHere_plus (cls : Char → Bool) (prev : Option Char) (input : List Char) :
    matchHere [Item.plus cls] prev input =
      match input with
      | [] => none
      | c :: cs => if cls c then some (cs.dropWhile cls) else none := by
  cases input with
  | nil => rfl
  | cons c cs =>
    show matchItem (Item.plus cls) (matchHere []) prev (c :: cs) = _
    simp only [matchItem]
    split_ifs
    · exact starLoop_last cls (some c) cs
    · rfl

/-- Inside a match the loop of `replaceAll` only moves on. -/
theorem replaceFrom_skip (re : Regexp) (repl : List Char) (skip : Nat) :
    ∀ (justMatched : Bool) (prev : Option Char) (input : List Char),
      skip < input.length →
      ∃ prev', replaceFrom re repl (skip + 1) justMatched prev input =
        replaceFrom re repl 0 true prev' (input.drop (skip + 1)) := by
  induction skip with
  | zero =>
    intro jm prev input hlen
    cases input with
    | nil => simp at hlen
    | cons c cs => exact ⟨some c, by simp [replaceFrom]⟩
  | succ n ih =>
    intro jm prev input hlen
    cases input with
    | nil => simp at hlen
    | cons c cs =>
      obtain ⟨prev', h⟩ := ih true (some c) cs (by simpa using hlen)
      exact ⟨prev', by rw [replaceFrom, h]; rfl⟩

/-- Inside a match of `skip` more characters the loop of `replaceAll` moves on to
the end of the match. -/
theorem replaceFrom_skip_all (re : Regexp) (repl : List Char) (skip : Nat)
    (prev : Option Char) (input : List Char) (hlen : skip ≤ input.length) :
    ∃ prev', replaceFrom re repl skip true prev input =
      replaceFrom re repl 0 true prev' (input.drop skip) := by
  cases skip with
  | zero => exact ⟨prev, rfl⟩
  | succ n => exact replaceFrom_skip re repl n true prev input hlen

end regexp

namespace utils
open regexp

/-- The loop of `replaceAll` for `\s+` at a white space character: one space is
written and the loop goes on after the run of white space. -/
theorem replaceFrom_reSpaces_space (justMatched : Bool) (prev : Option Char) (c : Char)
    (cs : List Char) (hc : isPerlSpace c = true) :
    ∃ prev', replaceFrom reSpaces [' '] 0 justMatched prev (c :: cs) =
      ' ' :: replaceFrom reSpaces [' '] 0 true prev' (cs.dropWhile isPerlSpace) := by
  have hmatch : matchHere reSpaces prev (c :: cs) = some (cs.dropWhile isPerlSpace) := by
    rw [reSpaces, matchHere_plus]
    simp only [hc, if_true]
  have hsplit := List.takeWhile_append_dropWhile isPerlSpace cs
  have hlen : (cs.takeWhile isPerlSpace).length + (cs.dropWhile isPerlSpace).length
      = cs.length := by
    rw [← List.length_append, hsplit]
  have hn : (c :: cs).length - (cs.dropWhile isPerlSpace).length - 1
      = (cs.takeWhile isPerlSpace).length := by
    simp only [List.length_cons]
    omega
  have hne : ¬ ((c :: cs).length - (cs.dropWhile isPerlSpace).length = 0) := by
    simp only [List.length_cons]
    omega
  obtain ⟨prev', hskip⟩ := replaceFrom_skip_all reSpaces [' ']
    (cs.takeWhile isPerlSpace).length (some c) cs (by omega)
  have hdrop : cs.drop (cs.takeWhile isPerlSpace).length = cs.dropWhile isPerlSpace := by
    have hd := List.drop_left (cs.takeWhile isPerlSpace) (cs.dropWhile isPerlSpace)
    rw [hsplit] at hd
    exact hd
  refine ⟨prev', ?_⟩
  rw [replaceFrom, hmatch]
  simp only [hne, if_false, hn]
  rw [hskip, hdrop]
  rfl

/-- The loop of `replaceAll` for `\s+` at another character: it is copied. -/
theorem replaceFrom_reSpaces_other (justMatched : Bool) (prev : Option Char) (c : Char)
    (cs : List Char) (hc : isPerlSpace c = false) :
    replaceFrom reSpaces [' '] 0 justMatched prev (c :: cs) =
      c :: replaceFrom reSpaces [' '] 0 false (some c) cs := by
  have hmatch : matchHere reSpaces prev (c :: cs) = none := by
    rw [reSpaces, matchHere_plus]
    simp only [hc, Bool.false_eq_true, if_false]
  rw [replaceFrom, hmatch]

/-- The loop of `replaceAll` for `\s+` at the end of the text. -/
theorem replaceFrom_reSpaces_nil (justMatched : Bool) (prev : Option Char) :
    replaceFrom reSpaces [' '] 0 justMatched prev [] = [] := by
  have hmatch : matchHere reSpaces prev [] = none := by
    rw [reSpaces, matchHere_plus]
  rw [replaceFrom, hmatch]

/-- The head of the rest after a run of a class is not in the class. -/
theorem head_dropWhile_not (cls : Char → Bool) (l : List Char) (c : Char)
    (h : (l.dropWhile cls).head? = some c) : cls c = false := by
  induction l with
  | nil => simp at h
  | cons a l ih =>
    by_cases ha : cls a = true
    · rw [List.dropWhile_cons_of_pos ha] at h
      exact ih h
    · rw [List.dropWhile_cons_of_neg ha] at h
      simp only [List.head?_cons, Option.some.injEq] at h
      subst h
      simpa using ha

/-- What replacing `\s+` by one space leaves: of the class `\s` only spaces, no
two spaces in a row, and a first character that is the first character of the
text unless the text starts with white space. -/
theorem replaceFrom_reSpaces_props (n : Nat) :
    ∀ (input : List Char), input.length ≤ n → ∀ (justMatched : Bool) (prev : Option Char),
      (∀ x ∈ replaceFrom reSpaces [' '] 0 justMatched prev input,
        isPerlSpace x = true → x = ' ') ∧
      ¬ ([' ', ' '] <:+: replaceFrom reSpaces [' '] 0 justMatched prev input) ∧
      (∀ x, (replaceFrom reSpaces [' '] 0 justMatched prev input).head? = some x →
        x = ' ' → ∃ c, input.head? = some c ∧ isPerlSpace c = true) := by
  induction n with
  | zero =>
    intro input hlen jm prev
    have : input = [] := List.length_eq_zero.mp (by omega)
    subst this
    rw [replaceFrom_reSpaces_nil]
    simp
  | succ n ih =>
    intro input hlen jm prev
    cases input with
    | nil =>
      rw [replaceFrom_reSpaces_nil]
      simp
    | cons c cs =>
      by_cases hc : isPerlSpace c = true
      · obtain ⟨prev', hrepl⟩ := replaceFrom_reSpaces_space jm prev c cs hc
        rw [hrepl]
        have hrestlen : (cs.dropWhile isPerlSpace).length ≤ n := by
          have := (List.dropWhile_suffix isPerlSpace (l := cs)).length_le
          simp only [List.length_cons] at hlen
          omega
        obtain ⟨h1, h2, h3⟩ := ih (cs.dropWhile isPerlSpace) hrestlen true prev'
        refine ⟨?_, ?_, ?_⟩
        · intro x hx hsp
          rcases List.mem_cons.mp hx with rfl | hx
          · rfl
          · exact h1 x hx hsp
        · intro hinf
          rcases List.infix_cons_iff.mp hinf with hpre | hinf'
          · obtain ⟨t, ht⟩ := hpre
            simp only [List.cons_append, List.nil_append, List.cons.injEq, true_and] at ht
            obtain ⟨d, hd, hdsp⟩ := h3 ' ' (by rw [← ht]; rfl) rfl
            have := head_dropWhile_not isPerlSpace cs d hd
            rw [this] at hdsp
            cases hdsp
          · exact h2 hinf'
        · intro x _ _
          exact ⟨c, rfl, hc⟩
      · have hc' : isPerlSpace c = false := by simpa using hc
        rw [replaceFrom_reSpaces_other jm prev c cs hc']
        obtain ⟨h1, h2, h3⟩ := ih cs (by simpa using hlen) false (some c)
        refine ⟨?_, ?_, ?_⟩
        · intro x hx hsp
          rcases List.mem_cons.mp hx with rfl | hx
          · rw [hc'] at hsp
            cases hsp
          · exact h1 x hx hsp
        · intro hinf
          rcases List.infix_cons_iff.mp hinf with hpre | hinf'
          · obtain ⟨t, ht⟩ := hpre
            simp only [List.cons_append, List.nil_append, List.cons.injEq] at ht
            have hcsp : c = ' ' := ht.1.symm
            rw [hcsp] at hc'
            exact absurd hc' (by decide)
          · exact h2 hinf'
        · intro x hx hxsp
          simp only [List.head?_cons, Option.some.injEq] at hx
          rw [← hx] at hxsp
          rw [hxsp] at hc'
          exact absurd hc' (by decide)

end utils

namespace strings

/-- The result of `TrimSpace` is a piece of its argument. -/
theorem TrimSpace_infix (s : List Char) : TrimSpace s <:+: s := by
  unfold TrimSpace
  have h1 : (s.dropWhile unicodeIsSpace).reverse.dropWhile unicodeIsSpace
      <:+ (s.dropWhile unicodeIsSpace).reverse := List.dropWhile_suffix _
  have h2 : ((s.dropWhile unicodeIsSpace).reverse.dropWhile unicodeIsSpace).reverse
      <+: s.dropWhile unicodeIsSpace := by
    have := List.reverse_prefix.mpr h1
    rwa [List.reverse_reverse] at this
  exact h2.isInfix.trans (List.dropWhile_suffix _).isInfix

/-- The result of `TrimSpace` does not end with white space. -/
theorem TrimSpace_getLast (s : List Char) (c : Char) (h : (TrimSpace s).getLast? = some c) :
    unicodeIsSpace c = false := by
  unfold TrimSpace at h
  rw [List.getLast?_reverse] at h
  exact utils.head_dropWhile_not unicodeIsSpace _ c h

/-- The result of `TrimSpace` does not start with white space. -/
theorem TrimSpace_head (s : List Char) (c : Char) (h : (TrimSpace s).head? = some c) :
    unicodeIsSpace c = false := by
  have h1 : (s.dropWhile unicodeIsSpace).reverse.dropWhile unicodeIsSpace
      <:+ (s.dropWhile unicodeIsSpace).reverse := List.dropWhile_suffix _
  have h2 : TrimSpace s <+: s.dropWhile unicodeIsSpace := by
    have := List.reverse_prefix.mpr h1
    rwa [List.reverse_reverse] at this
  obtain ⟨t, ht⟩ := h2
  apply utils.head_dropWhile_not unicodeIsSpace s c
  rw [← ht]
  cases hts : TrimSpace s with
  | nil => rw [hts] at h; simp at h
  | cons a l =>
    rw [hts] at h
    simpa using h

end strings

namespace downloader
open utils regexp

/-- Claim C11.  For every title, the string `CleanTitleForSearch` returns has no
leading and no trailing white space (in the sense of `unicode.IsSpace`, which
`strings.TrimSpace` uses), contains no tab, newline, carriage return or form
feed, and contains no two consecutive spaces. -/
theorem CleanTitleForSearch_whitespace_normal_form (raw : String) :
    (∀ c, (CleanTitleForSearch raw).data.head? = some c → strings.unicodeIsSpace c = false) ∧
    (∀ c, (CleanTitleForSearch raw).data.getLast? = some c →
      strings.unicodeIsSpace c = false) ∧
    (∀ c ∈ (CleanTitleForSearch raw).data,
      c ≠ '\t' ∧ c ≠ '\n' ∧ c ≠ '\r' ∧ c ≠ Char.ofNat 12) ∧
    ¬ ([' ', ' '] <:+: (CleanTitleForSearch raw).data) := by
  obtain ⟨h1, h2, _⟩ := replaceFrom_reSpaces_props _
    (ReplaceAllString reFeat
      (ReplaceAllString reSpecial (ReplaceAllString reParens raw "") " ") "").data
    (Nat.le_refl _) false none
  have hinf := strings.TrimSpace_infix
    (ReplaceAllString reSpaces
      (ReplaceAllString reFeat
        (ReplaceAllString reSpecial (ReplaceAllString reParens raw "") " ") "") " ").data
  refine ⟨?_, ?_, ?_, ?_⟩
  · intro c hc
    exact strings.TrimSpace_head _ c hc
  · intro c hc
    exact strings.TrimSpace_getLast _ c hc
  · intro c hc
    have hmem := hinf.subset hc
    have hsp := h1 c hmem
    refine ⟨?_, ?_, ?_, ?_⟩ <;>
    · rintro rfl
      exact absurd (hsp (by decide)) (by decide)
  · intro hinf2
    exact h2 (hinf2.trans hinf)

/-- Claim C11 at the title "Song Title (feat. Someone) - Remix": it cleans to
"Song Title - Remix", and the query for the primary artist "A" is
"A Song Title - Remix". -/
theorem CleanTitleForSearch_whitespace_normal_form_witness :
    ¬ ([' ', ' '] <:+: (CleanTitleForSearch "Song Title (feat. Someone) - Remix").data) ∧
      CleanTitleForSearch "Song Title (feat. Someone) - Remix" = "Song Title - Remix" ∧
      buildSearchQuery
        { Name := "Song Title (feat. Someone) - Remix", Artists := [{ Name := "A" }],
          Album := { Name := "", Artists := [], ReleaseDate := "" }, Duration := 0 }
        = "A Song Title - Remix" :=
  ⟨(CleanTitleForSearch_whitespace_normal_form "Song Title (feat. Someone) - Remix").2.2.2,
    by decide, by decide⟩

end downloader
end PlaylistDownload

namespace PlaylistDownload
namespace regexp

/-- Matching an expression is matching its first item, then the rest. -/
theorem matchHere_cons (item : Item) (items : Regexp) (prev : Option Char)
    (input : List Char) :
    matchHere (item :: items) prev input = matchItem item (matchHere items) prev input := rfl

/-- A class at the end of the text does not match. -/
theorem matchItem_one_nil (cls : Char → Bool)
    (k : Option Char → List Char → Option (List Char)) (prev : Option Char) :
    matchItem (.one cls) k prev [] = none := rfl

/-- A class matches a character of the class. -/
theorem matchItem_one_cons (cls : Char → Bool)
    (k : Option Char → List Char → Option (List Char)) (prev : Option Char) (c : Char)
    (cs : List Char) :
    matchItem (.one cls) k prev (c :: cs) = if cls c = true then k (some c) cs else none := rfl

/-- The item `x?` at the end of the text matches nothing. -/
theorem matchItem_opt_nil (cls : Char → Bool)
    (k : Option Char → List Char → Option (List Char)) (prev : Option Char) :
    matchItem (.opt cls) k prev [] = k prev [] := rfl

/-- The item `x?` takes a character of the class first and nothing second. -/
theorem matchItem_opt_cons (cls : Char → Bool)
    (k : Option Char → List Char → Option (List Char)) (prev : Option Char) (c : Char)
    (cs : List Char) :
    matchItem (.opt cls) k prev (c :: cs) =
      if cls c = true then
        match k (some c) cs with
        | some rest => some rest
        | none => k prev (c :: cs)
      else k prev (c :: cs) := rfl

/-- The assertion `\b` lets the match go on at a word boundary only. -/
theorem matchItem_wordBoundary (k : Option Char → List Char → Option (List Char))
    (prev : Option Char) (input : List Char) :
    matchItem .wordBoundary k prev input =
      if atWordBoundary prev input = true then k prev input else none := by
  cases input <;> rfl

end regexp

namespace utils
open regexp

/-- The end `\b` of the expression `(?i)\bfeat\.?\b`. -/
theorem matchHere_boundary_end (prev : Option Char) (input : List Char) :
    matchHere [Item.wordBoundary] prev input =
      if atWordBoundary prev input = true then some input else none := by
  rw [matchHere_cons, matchItem_wordBoundary]
  rfl

/-- The expression `(?i)\bfeat\.?\b` needs four characters. -/
theorem matchHere_reFeat_short (prev : Option Char) (input : List Char)
    (h : input.length < 4) : matchHere reFeat prev input = none := by
  unfold reFeat
  rw [matchHere_cons, matchItem_wordBoundary]
  split_ifs
  swap
  · rfl
  rcases input with _ | ⟨c1, _ | ⟨c2, _ | ⟨c3, _ | ⟨c4, tail⟩⟩⟩⟩
  · rfl
  · rw [matchHere_cons, matchItem_one_cons]
    split_ifs <;> rfl
  · rw [matchHere_cons, matchItem_one_cons]
    split_ifs
    · rw [matchHere_cons, matchItem_one_cons]
      split_ifs <;> rfl
    · rfl
  · rw [matchHere_cons, matchItem_one_cons]
    split_ifs
    · rw [matchHere_cons, matchItem_one_cons]
      split_ifs
      · rw [matchHere_cons, matchItem_one_cons]
        split_ifs <;> rfl
      · rfl
    · rfl
  · simp only [List.length_cons] at h
    omega

/-- The expression `(?i)\bfeat\.?\b` after its first five items, at the letter
`c4` and the rest `tail` of the text: either a period followed by a word
boundary, or a word boundary at once. -/
theorem matchHere_reFeat_end (c4 : Char) (tail : List Char) :
    matchItem (Item.opt (fun c => c == '.')) (matchHere [Item.wordBoundary]) (some c4) tail =
      match tail with
      | [] => if atWordBoundary (some c4) [] = true then some [] else none
      | d :: tail' =>
        if d = '.' ∧ atWordBoundary (some d) tail' = true then some tail'
        else if atWordBoundary (some c4) (d :: tail') = true then some (d :: tail')
        else none := by
  cases tail with
  | nil =>
    rw [matchItem_opt_nil, matchHere_boundary_end]
  | cons d tail' =>
    rw [matchItem_opt_cons, matchHere_boundary_end, matchHere_boundary_end]
    show _ = if d = '.' ∧ atWordBoundary (some d) tail' = true then some tail'
        else if atWordBoundary (some c4) (d :: tail') = true then some (d :: tail')
        else none
    by_cases hd : d = '.'
    · subst hd
      by_cases hb2 : atWordBoundary (some '.') tail' = true
      · simp [hb2]
      · simp [hb2]
    · have ed : (d == '.') = false := by simpa using hd
      simp only [ed, hd, Bool.false_eq_true, if_false, false_and]

/-- The expression `(?i)\bfeat\.?\b` at a text of at least four characters: a
word boundary, the four letters in either case, and then the end of the
expression. -/
theorem matchHere_reFeat_cons4 (prev : Option Char) (c1 c2 c3 c4 : Char) (tail : List Char) :
    matchHere reFeat prev (c1 :: c2 :: c3 :: c4 :: tail) =
      if atWordBoundary prev (c1 :: c2 :: c3 :: c4 :: tail) = true ∧
          (c1 = 'f' ∨ c1 = 'F') ∧ (c2 = 'e' ∨ c2 = 'E') ∧ (c3 = 'a' ∨ c3 = 'A') ∧
          (c4 = 't' ∨ c4 = 'T') then
        matchItem (Item.opt (fun c => c == '.')) (matchHere [Item.wordBoundary]) (some c4) tail
      else none := by
  have e1 : ((c1 == 'f' || c1 == 'F') = true) ↔ (c1 = 'f' ∨ c1 = 'F') := by simp
  have e2 : ((c2 == 'e' || c2 == 'E') = true) ↔ (c2 = 'e' ∨ c2 = 'E') := by simp
  have e3 : ((c3 == 'a' || c3 == 'A') = true) ↔ (c3 = 'a' ∨ c3 = 'A') := by simp
  have e4 : ((c4 == 't' || c4 == 'T') = true) ↔ (c4 = 't' ∨ c4 = 'T') := by simp
  unfold reFeat
  rw [matchHere_cons, matchItem_wordBoundary]
  by_cases hb : atWordBoundary prev (c1 :: c2 :: c3 :: c4 :: tail) = true
  swap
  · rw [if_neg hb, if_neg (fun h => hb h.1)]
  rw [if_pos hb, matchHere_cons, matchItem_one_cons]
  by_cases h1 : c1 = 'f' ∨ c1 = 'F'
  swap
  · rw [if_neg (fun h => h1 (e1.mp h)), if_neg (fun h => h1 h.2.1)]
  rw [if_pos (e1.mpr h1), matchHere_cons, matchItem_one_cons]
  by_cases h2 : c2 = 'e' ∨ c2 = 'E'
  swap
  · rw [if_neg (fun h => h2 (e2.mp h)), if_neg (fun h => h2 h.2.2.1)]
  rw [if_pos (e2.mpr h2), matchHere_cons, matchItem_one_cons]
  by_cases h3 : c3 = 'a' ∨ c3 = 'A'
  swap
  · rw [if_neg (fun h => h3 (e3.mp h)), if_neg (fun h => h3 h.2.2.2.1)]
  rw [if_pos (e3.mpr h3), matchHere_cons, matchItem_one_cons]
  by_cases h4 : c4 = 't' ∨ c4 = 'T'
  swap
  · rw [if_neg (fun h => h4 (e4.mp h)), if_neg (fun h => h4 h.2.2.2.2)]
  rw [if_pos (e4.mpr h4), if_pos ⟨hb, h1, h2, h3, h4⟩, matchHere_cons]

/-- A match of the expression `(?i)\bfeat\.?\b` starts at a word boundary with
the four letters. -/
theorem matchHere_reFeat_some (prev : Option Char) (input out : List Char)
    (h : matchHere reFeat prev input = some out) :
    ∃ c1 c2 c3 c4 tail, input = c1 :: c2 :: c3 :: c4 :: tail ∧
      atWordBoundary prev input = true ∧
      (c1 = 'f' ∨ c1 = 'F') ∧ (c2 = 'e' ∨ c2 = 'E') ∧ (c3 = 'a' ∨ c3 = 'A') ∧
      (c4 = 't' ∨ c4 = 'T') ∧
      matchItem (Item.opt (fun c => c == '.')) (matchHere [Item.wordBoundary]) (some c4) tail
        = some out := by
  rcases input with _ | ⟨c1, _ | ⟨c2, _ | ⟨c3, _ | ⟨c4, tail⟩⟩⟩⟩
  · rw [matchHere_reFeat_short _ _ (by simp)] at h; cases h
  · rw [matchHere_reFeat_short _ _ (by simp)] at h; cases h
  · rw [matchHere_reFeat_short _ _ (by simp)] at h; cases h
  · rw [matchHere_reFeat_short _ _ (by simp)] at h; cases h
  · rw [matchHere_reFeat_cons4] at h
    split_ifs at h with hc
    exact ⟨c1, c2, c3, c4, tail, rfl, hc.1, hc.2.1, hc.2.2.1, hc.2.2.2.1, hc.2.2.2.2, h⟩

/-- The code points of the ASCII letters. -/
theorem letter_toNat (c : Char) (h : ('a' ≤ c ∧ c ≤ 'z') ∨ ('A' ≤ c ∧ c ≤ 'Z')) :
    (97 ≤ c.toNat ∧ c.toNat ≤ 122) ∨ (65 ≤ c.toNat ∧ c.toNat ≤ 90) := by
  rcases h with ⟨h1, h2⟩ | ⟨h1, h2⟩
  · rw [Char.le_def, UInt32.le_def, BitVec.le_def] at h1 h2
    exact Or.inl ⟨h1, h2⟩
  · rw [Char.le_def, UInt32.le_def, BitVec.le_def] at h1 h2
    exact Or.inr ⟨h1, h2⟩

/-- An ASCII letter is a word character. -/
theorem letter_isWordChar (c : Char) (h : ('a' ≤ c ∧ c ≤ 'z') ∨ ('A' ≤ c ∧ c ≤ 'Z')) :
    isWordChar c = true := by
  unfold isWordChar
  rcases h with h | h
  · simp [h]
  · simp [h]

/-- An ASCII letter is no white space and none of the characters the
expressions of `CleanTitleForSearch` start with, except the letter of "feat". -/
theorem letter_plain (c : Char) (h : ('a' ≤ c ∧ c ≤ 'z') ∨ ('A' ≤ c ∧ c ≤ 'Z')) :
    isPerlSpace c = false ∧ strings.unicodeIsSpace c = false ∧ (c == '(') = false ∧
      (c == '“' || c == '”' || c == '"' || c == '–') = false ∧ c ≠ '.' ∧ c ≠ ' ' := by
  have hn := letter_toNat c h
  have hne : ∀ x : Char, ¬ ((97 ≤ x.toNat ∧ x.toNat ≤ 122) ∨ (65 ≤ x.toNat ∧ x.toNat ≤ 90)) →
      c ≠ x := by
    intro x hx hcx
    rw [hcx] at hn
    exact hx hn
  have h1 := hne '\t' (by decide)
  have h2 := hne '\n' (by decide)
  have h3 := hne (Char.ofNat 12) (by decide)
  have h4 := hne '\r' (by decide)
  have h5 := hne ' ' (by decide)
  have h6 := hne '(' (by decide)
  have h7 := hne '“' (by decide)
  have h8 := hne '”' (by decide)
  have h9 := hne '"' (by decide)
  have h10 := hne '–' (by decide)
  have h11 := hne '.' (by decide)
  refine ⟨?_, ?_, ?_, ?_, h11, h5⟩
  · simp [isPerlSpace, h1, h2, h3, h4, h5]
  · unfold strings.unicodeIsSpace
    simp only [decide_eq_false_iff_not]
    omega
  · simpa using h6
  · simp [h7, h8, h9, h10]

/-- Where the expression does not match, the loop of `replaceAll` copies the
character. -/
theorem replaceFrom_copy (re : Regexp) (repl : List Char) (justMatched : Bool)
    (prev : Option Char) (c : Char) (cs : List Char)
    (h : matchHere re prev (c :: cs) = none) :
    replaceFrom re repl 0 justMatched prev (c :: cs) =
      c :: replaceFrom re repl 0 false (some c) cs := by
  rw [replaceFrom, h]

/-- The expression `(?i)\bfeat\.?\b` does not match inside a word. -/
theorem matchHere_reFeat_inside_word (w c : Char) (cs : List Char)
    (hw : isWordChar w = true) (hc : isWordChar c = true) :
    matchHere reFeat (some w) (c :: cs) = none := by
  cases h : matchHere reFeat (some w) (c :: cs) with
  | none => rfl
  | some out =>
    obtain ⟨_, _, _, _, _, _, hb, _⟩ := matchHere_reFeat_some _ _ _ h
    simp [atWordBoundary, hw, hc] at hb

/-- The expression `(?i)\bfeat\.?\b` does not match at a character other than
`f` and `F`. -/
theorem matchHere_reFeat_other (prev : Option Char) (c : Char) (cs : List Char)
    (hc : c ≠ 'f' ∧ c ≠ 'F') : matchHere reFeat prev (c :: cs) = none := by
  cases h : matchHere reFeat prev (c :: cs) with
  | none => rfl
  | some out =>
    obtain ⟨c1, _, _, _, _, heq, _, h1, _⟩ := matchHere_reFeat_some _ _ _ h
    obtain rfl : c = c1 := (List.cons.inj heq).1
    rcases h1 with h1 | h1
    · exact absurd h1 hc.1
    · exact absurd h1 hc.2

/-- The loop of `replaceAll` for `(?i)\bfeat\.?\b` copies the rest of a word. -/
theorem replaceFrom_reFeat_word_rest (word : List Char) :
    ∀ (rest : List Char) (justMatched : Bool) (w : Char), isWordChar w = true →
      (∀ c ∈ word, isWordChar c = true) →
      ∃ jm' prev', replaceFrom reFeat [] 0 justMatched (some w) (word ++ rest) =
        word ++ replaceFrom reFeat [] 0 jm' prev' rest := by
  induction word with
  | nil =>
    intro rest jm w _ _
    exact ⟨jm, some w, rfl⟩
  | cons c cs ih =>
    intro rest jm w hw hword
    have hc := hword c (by simp)
    obtain ⟨jm', prev', h⟩ := ih rest false c hc (fun x hx => hword x (by simp [hx]))
    refine ⟨jm', prev', ?_⟩
    rw [List.cons_append,
      replaceFrom_copy _ _ _ _ _ _ (matchHere_reFeat_inside_word w c _ hw hc), h]
    rfl

/-- The expression `(?i)\bfeat\.?\b` does not match at the start of a word of
ASCII letters other than "feat" that is followed by the end of the text or by a
character that is not a letter. -/
theorem matchHere_reFeat_word_start (prev : Option Char) (word rest : List Char)
    (hword : ∀ c ∈ word, ('a' ≤ c ∧ c ≤ 'z') ∨ ('A' ≤ c ∧ c ≤ 'Z'))
    (hfeat : ∀ f e a t : Char, (f = 'f' ∨ f = 'F') → (e = 'e' ∨ e = 'E') →
      (a = 'a' ∨ a = 'A') → (t = 't' ∨ t = 'T') → word ≠ [f, e, a, t])
    (hrest : ∀ d, rest.head? = some d → ¬ (('a' ≤ d ∧ d ≤ 'z') ∨ ('A' ≤ d ∧ d ≤ 'Z'))) :
    matchHere reFeat prev (word ++ rest) = none := by
  cases h : matchHere reFeat prev (word ++ rest) with
  | none => rfl
  | some out =>
    exfalso
    obtain ⟨c1, c2, c3, c4, tail, heq, _, h1, h2, h3, h4, hend⟩ :=
      matchHere_reFeat_some _ _ _ h
    have l2 : ('a' ≤ c2 ∧ c2 ≤ 'z') ∨ ('A' ≤ c2 ∧ c2 ≤ 'Z') := by
      rcases h2 with rfl | rfl <;> decide
    have l3 : ('a' ≤ c3 ∧ c3 ≤ 'z') ∨ ('A' ≤ c3 ∧ c3 ≤ 'Z') := by
      rcases h3 with rfl | rfl <;> decide
    have l4 : ('a' ≤ c4 ∧ c4 ≤ 'z') ∨ ('A' ≤ c4 ∧ c4 ≤ 'Z') := by
      rcases h4 with rfl | rfl <;> decide
    have l1 : ('a' ≤ c1 ∧ c1 ≤ 'z') ∨ ('A' ≤ c1 ∧ c1 ≤ 'Z') := by
      rcases h1 with rfl | rfl <;> decide
    rcases word with _ | ⟨a1, _ | ⟨a2, _ | ⟨a3, _ | ⟨a4, _ | ⟨a5, more⟩⟩⟩⟩⟩
    · simp only [List.nil_append] at heq
      exact hrest c1 (by rw [heq]; rfl) l1
    · simp only [List.cons_append, List.nil_append, List.cons.injEq] at heq
      exact hrest c2 (by rw [heq.2]; rfl) l2
    · simp only [List.cons_append, List.nil_append, List.cons.injEq] at heq
      exact hrest c3 (by rw [heq.2.2]; rfl) l3
    · simp only [List.cons_append, List.nil_append, List.cons.injEq] at heq
      exact hrest c4 (by rw [heq.2.2.2]; rfl) l4
    · simp only [List.cons_append, List.nil_append, List.cons.injEq] at heq
      obtain ⟨rfl, rfl, rfl, rfl, _⟩ := heq
      exact hfeat a1 a2 a3 a4 h1 h2 h3 h4 rfl
    · simp only [List.cons_append, List.cons.injEq] at heq
      obtain ⟨rfl, rfl, rfl, rfl, rfl⟩ := heq
      have l5 := hword a5 (by simp)
      have w5 := letter_isWordChar a5 l5
      have w4 := letter_isWordChar a4 l4
      have hdot := (letter_plain a5 l5).2.2.2.2.1
      rw [matchHere_reFeat_end] at hend
      simp [hdot, atWordBoundary, w4, w5] at hend

/-- The loop of `replaceAll` for `(?i)\bfeat\.?\b` copies a word of ASCII
letters other than "feat". -/
theorem replaceFrom_reFeat_word (word rest : List Char) (justMatched : Bool)
    (prev : Option Char)
    (hword : ∀ c ∈ word, ('a' ≤ c ∧ c ≤ 'z') ∨ ('A' ≤ c ∧ c ≤ 'Z'))
    (hfeat : ∀ f e a t : Char, (f = 'f' ∨ f = 'F') → (e = 'e' ∨ e = 'E') →
      (a = 'a' ∨ a = 'A') → (t = 't' ∨ t = 'T') → word ≠ [f, e, a, t])
    (hrest : ∀ d, rest.head? = some d → ¬ (('a' ≤ d ∧ d ≤ 'z') ∨ ('A' ≤ d ∧ d ≤ 'Z'))) :
    ∃ jm' prev', replaceFrom reFeat [] 0 justMatched prev (word ++ rest) =
      word ++ replaceFrom reFeat [] 0 jm' prev' rest := by
  cases word with
  | nil => exact ⟨justMatched, prev, rfl⟩
  | cons c cs =>
    have hstart := matchHere_reFeat_word_start prev (c :: cs) rest hword hfeat hrest
    obtain ⟨jm', prev', h⟩ := replaceFrom_reFeat_word_rest cs rest false c
      (letter_isWordChar c (hword c (by simp)))
      (fun x hx => letter_isWordChar x (hword x (by simp [hx])))
    refine ⟨jm', prev', ?_⟩
    rw [List.cons_append] at hstart ⊢
    rw [replaceFrom_copy _ _ _ _ _ _ hstart, h]
    rfl

/-- The loop of `replaceAll` for `(?i)\bfeat\.?\b` at the end of the text. -/
theorem replaceFrom_reFeat_nil (justMatched : Bool) (prev : Option Char) :
    replaceFrom reFeat [] 0 justMatched prev [] = [] := by
  rw [replaceFrom, matchHere_reFeat_short _ _ (by simp)]

/-- The loop of `replaceAll` for `(?i)\bfeat\.?\b` at the word "feat", in any
letter case, between two spaces: the four letters are removed. -/
theorem replaceFrom_reFeat_at_feat (justMatched : Bool) (f e a t : Char) (rest : List Char)
    (hf : f = 'f' ∨ f = 'F') (he : e = 'e' ∨ e = 'E') (ha : a = 'a' ∨ a = 'A')
    (ht : t = 't' ∨ t = 'T') :
    replaceFrom reFeat [] 0 justMatched (some ' ') (f :: e :: a :: t :: ' ' :: rest) =
      replaceFrom reFeat [] 0 true (some t) (' ' :: rest) := by
  have wf : isWordChar f = true := by rcases hf with rfl | rfl <;> decide
  have wt : isWordChar t = true := by rcases ht with rfl | rfl <;> decide
  have hb : atWordBoundary (some ' ') (f :: e :: a :: t :: ' ' :: rest) = true := by
    simp [atWordBoundary, wf]
    decide
  have hb2 : atWordBoundary (some t) (' ' :: rest) = true := by
    simp [atWordBoundary, wt]
    decide
  have hmatch : matchHere reFeat (some ' ') (f :: e :: a :: t :: ' ' :: rest)
      = some (' ' :: rest) := by
    rw [matchHere_reFeat_cons4, if_pos ⟨hb, hf, he, ha, ht⟩, matchHere_reFeat_end]
    show (if ' ' = '.' ∧ atWordBoundary (some ' ') rest = true then some rest
      else if atWordBoundary (some t) (' ' :: rest) = true then some (' ' :: rest)
      else none) = _
    rw [if_neg (fun h => absurd h.1 (by decide)), if_pos hb2]
  have hn : (f :: e :: a :: t :: ' ' :: rest).length - (' ' :: rest).length = 4 := by
    simp only [List.length_cons]
    omega
  rw [replaceFrom, hmatch]
  simp only [hn]
  rfl

/-- The loop of `replaceAll` for `(?i)\bfeat\.?\b` at "feat.", in any letter
case, between two spaces: only the four letters are removed, the match cannot
take the period because no word boundary follows it. -/
theorem replaceFrom_reFeat_at_feat_period (justMatched : Bool) (f e a t : Char)
    (rest : List Char)
    (hf : f = 'f' ∨ f = 'F') (he : e = 'e' ∨ e = 'E') (ha : a = 'a' ∨ a = 'A')
    (ht : t = 't' ∨ t = 'T') :
    replaceFrom reFeat [] 0 justMatched (some ' ')
        (f :: e :: a :: t :: '.' :: ' ' :: rest) =
      replaceFrom reFeat [] 0 true (some t) ('.' :: ' ' :: rest) := by
  have wf : isWordChar f = true := by rcases hf with rfl | rfl <;> decide
  have wt : isWordChar t = true := by rcases ht with rfl | rfl <;> decide
  have hb : atWordBoundary (some ' ') (f :: e :: a :: t :: '.' :: ' ' :: rest) = true := by
    simp [atWordBoundary, wf]
    decide
  have hb2 : atWordBoundary (some t) ('.' :: ' ' :: rest) = true := by
    simp [atWordBoundary, wt]
    decide
  have hb3 : ¬ (atWordBoundary (some '.') (' ' :: rest) = true) := by
    simp [atWordBoundary]
    decide
  have hmatch : matchHere reFeat (some ' ') (f :: e :: a :: t :: '.' :: ' ' :: rest)
      = some ('.' :: ' ' :: rest) := by
    rw [matchHere_reFeat_cons4, if_pos ⟨hb, hf, he, ha, ht⟩, matchHere_reFeat_end]
    show (if '.' = '.' ∧ atWordBoundary (some '.') (' ' :: rest) = true then some (' ' :: rest)
      else if atWordBoundary (some t) ('.' :: ' ' :: rest) = true
        then some ('.' :: ' ' :: rest)
      else none) = _
    rw [if_neg (fun h => hb3 h.2), if_pos hb2]
  have hn : (f :: e :: a :: t :: '.' :: ' ' :: rest).length - ('.' :: ' ' :: rest).length
      = 4 := by
    simp only [List.length_cons]
    omega
  rw [replaceFrom, hmatch]
  simp only [hn]
  rfl

/-- The third step of `CleanTitleForSearch` on two words with "feat" between
them: the four letters go, the two spaces stay. -/
theorem replaceFrom_reFeat_plain (A B : List Char) (f e a t : Char)
    (hA : ∀ c ∈ A, ('a' ≤ c ∧ c ≤ 'z') ∨ ('A' ≤ c ∧ c ≤ 'Z'))
    (hB : ∀ c ∈ B, ('a' ≤ c ∧ c ≤ 'z') ∨ ('A' ≤ c ∧ c ≤ 'Z'))
    (hAfeat : ∀ f e a t : Char, (f = 'f' ∨ f = 'F') → (e = 'e' ∨ e = 'E') →
      (a = 'a' ∨ a = 'A') → (t = 't' ∨ t = 'T') → A ≠ [f, e, a, t])
    (hBfeat : ∀ f e a t : Char, (f = 'f' ∨ f = 'F') → (e = 'e' ∨ e = 'E') →
      (a = 'a' ∨ a = 'A') → (t = 't' ∨ t = 'T') → B ≠ [f, e, a, t])
    (hf : f = 'f' ∨ f = 'F') (he : e = 'e' ∨ e = 'E') (ha : a = 'a' ∨ a = 'A')
    (ht : t = 't' ∨ t = 'T') :
    replaceFrom reFeat [] 0 false none (A ++ ' ' :: f :: e :: a :: t :: ' ' :: B) =
      A ++ ' ' :: ' ' :: B := by
  obtain ⟨jm1, p1, h1⟩ := replaceFrom_reFeat_word A (' ' :: f :: e :: a :: t :: ' ' :: B)
    false none hA hAfeat (by
      intro d hd
      simp only [List.head?_cons, Option.some.injEq] at hd
      subst hd
      decide)
  obtain ⟨jm2, p2, h2⟩ := replaceFrom_reFeat_word B [] false (some ' ') hB hBfeat (by
      intro d hd
      simp at hd)
  rw [List.append_nil] at h2
  rw [h1, replaceFrom_copy _ _ _ _ _ _ (matchHere_reFeat_other p1 ' ' _ (by decide)),
    replaceFrom_reFeat_at_feat false f e a t B hf he ha ht,
    replaceFrom_copy _ _ _ _ _ _ (matchHere_reFeat_other (some t) ' ' _ (by decide)),
    h2, replaceFrom_reFeat_nil, List.append_nil]

/-- The third step of `CleanTitleForSearch` on two words with "feat." between
them: the four letters go, the period and the two spaces stay. -/
theorem replaceFrom_reFeat_period (A B : List Char) (f e a t : Char)
    (hA : ∀ c ∈ A, ('a' ≤ c ∧ c ≤ 'z') ∨ ('A' ≤ c ∧ c ≤ 'Z'))
    (hB : ∀ c ∈ B, ('a' ≤ c ∧ c ≤ 'z') ∨ ('A' ≤ c ∧ c ≤ 'Z'))
    (hAfeat : ∀ f e a t : Char, (f = 'f' ∨ f = 'F') → (e = 'e' ∨ e = 'E') →
      (a = 'a' ∨ a = 'A') → (t = 't' ∨ t = 'T') → A ≠ [f, e, a, t])
    (hBfeat : ∀ f e a t : Char, (f = 'f' ∨ f = 'F') → (e = 'e' ∨ e = 'E') →
      (a = 'a' ∨ a = 'A') → (t = 't' ∨ t = 'T') → B ≠ [f, e, a, t])
    (hf : f = 'f' ∨ f = 'F') (he : e = 'e' ∨ e = 'E') (ha : a = 'a' ∨ a = 'A')
    (ht : t = 't' ∨ t = 'T') :
    replaceFrom reFeat [] 0 false none (A ++ ' ' :: f :: e :: a :: t :: '.' :: ' ' :: B) =
      A ++ ' ' :: '.' :: ' ' :: B := by
  obtain ⟨jm1, p1, h1⟩ := replaceFrom_reFeat_word A
    (' ' :: f :: e :: a :: t :: '.' :: ' ' :: B) false none hA hAfeat (by
      intro d hd
      simp only [List.head?_cons, Option.some.injEq] at hd
      subst hd
      decide)
  obtain ⟨jm2, p2, h2⟩ := replaceFrom_reFeat_word B [] false (some ' ') hB hBfeat (by
      intro d hd
      simp at hd)
  rw [List.append_nil] at h2
  rw [h1, replaceFrom_copy _ _ _ _ _ _ (matchHere_reFeat_other p1 ' ' _ (by decide)),
    replaceFrom_reFeat_at_feat_period false f e a t B hf he ha ht,
    replaceFrom_copy _ _ _ _ _ _ (matchHere_reFeat_other (some t) '.' _ (by decide)),
    replaceFrom_copy _ _ _ _ _ _ (matchHere_reFeat_other (some '.') ' ' _ (by decide)),
    h2, replaceFrom_reFeat_nil, List.append_nil]

/-- An expression that matches nowhere in a text leaves it as it is. -/
theorem replaceFrom_of_no_match (re : Regexp) (repl : List Char)
    (hnil : ∀ prev, matchHere re prev [] = none) (input : List Char) :
    ∀ (justMatched : Bool) (prev : Option Char),
      (∀ prev' c cs, c ∈ input → matchHere re prev' (c :: cs) = none) →
      replaceFrom re repl 0 justMatched prev input = input := by
  induction input with
  | nil =>
    intro jm prev _
    rw [replaceFrom, hnil]
  | cons c cs ih =>
    intro jm prev h
    rw [replaceFrom_copy _ _ _ _ _ _ (h prev c cs (by simp)),
      ih false (some c) (fun prev' x xs hx => h prev' x xs (by simp [hx]))]

/-- The first two steps of `CleanTitleForSearch` leave a text without `(` and
without quotation marks and en dashes as it is. -/
theorem replace_parens_special_id (text : List Char)
    (h : ∀ c ∈ text, (c == '(') = false ∧
      (c == '“' || c == '”' || c == '"' || c == '–') = false) :
    ReplaceAllString reSpecial (ReplaceAllString reParens (String.mk text) "") " "
      = String.mk text := by
  have h1 : replaceFrom reParens [] 0 false none text = text := by
    apply replaceFrom_of_no_match
    · intro prev
      rfl
    · intro prev' c cs hc
      rw [reParens, matchHere_cons, matchItem_one_cons, if_neg]
      rw [(h c hc).1]
      simp
  have h2 : replaceFrom reSpecial [' '] 0 false none text = text := by
    apply replaceFrom_of_no_match
    · intro prev
      rfl
    · intro prev' c cs hc
      rw [reSpecial, matchHere_plus]
      show (if _ then _ else none) = none
      rw [if_neg]
      rw [(h c hc).2]
      simp
  show String.mk (replaceFrom reSpecial " ".data 0 false none
    (String.mk (replaceFrom reParens "".data 0 false none text)).data) = _
  show String.mk (replaceFrom reSpecial [' '] 0 false none
    (replaceFrom reParens [] 0 false none text)) = _
  rw [h1, h2]

/-- The loop of `replaceAll` for `\s+` copies a word without white space. -/
theorem replaceFrom_reSpaces_word (word : List Char) :
    ∀ (rest : List Char) (justMatched : Bool) (prev : Option Char),
      (∀ c ∈ word, isPerlSpace c = false) →
      ∃ jm' prev', replaceFrom reSpaces [' '] 0 justMatched prev (word ++ rest) =
        word ++ replaceFrom reSpaces [' '] 0 jm' prev' rest := by
  induction word with
  | nil =>
    intro rest jm prev _
    exact ⟨jm, prev, rfl⟩
  | cons c cs ih =>
    intro rest jm prev hword
    obtain ⟨jm', prev', h⟩ := ih rest false (some c) (fun x hx => hword x (by simp [hx]))
    refine ⟨jm', prev', ?_⟩
    rw [List.cons_append, replaceFrom_reSpaces_other _ _ _ _ (hword c (by simp)), h]
    rfl

/-- The function `TrimSpace` leaves a text alone that neither starts nor ends
with white space. -/
theorem TrimSpace_id (s : List Char)
    (hhead : ∀ c, s.head? = some c → strings.unicodeIsSpace c = false)
    (hlast : ∀ c, s.getLast? = some c → strings.unicodeIsSpace c = false) :
    strings.TrimSpace s = s := by
  have hdrop : ∀ l : List Char, (∀ c, l.head? = some c → strings.unicodeIsSpace c = false) →
      l.dropWhile strings.unicodeIsSpace = l := by
    intro l hl
    cases l with
    | nil => rfl
    | cons a l' =>
      rw [List.dropWhile_cons_of_neg]
      rw [hl a rfl]
      simp
  unfold strings.TrimSpace
  rw [hdrop s hhead, hdrop s.reverse (by rw [List.head?_reverse]; exact hlast),
    List.reverse_reverse]

/-- A word without white space has no run of white space at its start. -/
theorem dropWhile_isPerlSpace_word (word : List Char)
    (h : ∀ c ∈ word, isPerlSpace c = false) : word.dropWhile isPerlSpace = word := by
  cases word with
  | nil => rfl
  | cons c cs =>
    rw [List.dropWhile_cons_of_neg]
    rw [h c (by simp)]
    simp

/-- The fourth step of `CleanTitleForSearch` on two words with two spaces
between them: one space is left. -/
theorem replaceFrom_reSpaces_two_spaces (A B : List Char)
    (hA : ∀ c ∈ A, isPerlSpace c = false) (hB : ∀ c ∈ B, isPerlSpace c = false) :
    replaceFrom reSpaces [' '] 0 false none (A ++ ' ' :: ' ' :: B) = A ++ ' ' :: B := by
  obtain ⟨jm1, p1, h1⟩ := replaceFrom_reSpaces_word A (' ' :: ' ' :: B) false none hA
  obtain ⟨p2, h2⟩ := replaceFrom_reSpaces_space jm1 p1 ' ' (' ' :: B) (by decide)
  obtain ⟨jm3, p3, h3⟩ := replaceFrom_reSpaces_word B [] true p2 hB
  have hdrop : (' ' :: B).dropWhile isPerlSpace = B := by
    rw [List.dropWhile_cons_of_pos (by decide)]
    exact dropWhile_isPerlSpace_word B hB
  rw [List.append_nil] at h3
  rw [h1, h2, hdrop, h3, replaceFrom_reSpaces_nil, List.append_nil]

/-- The fourth step of `CleanTitleForSearch` on two words with a period between
single spaces: nothing changes. -/
theorem replaceFrom_reSpaces_period (A B : List Char)
    (hA : ∀ c ∈ A, isPerlSpace c = false) (hB : ∀ c ∈ B, isPerlSpace c = false) :
    replaceFrom reSpaces [' '] 0 false none (A ++ ' ' :: '.' :: ' ' :: B)
      = A ++ ' ' :: '.' :: ' ' :: B := by
  obtain ⟨jm1, p1, h1⟩ := replaceFrom_reSpaces_word A (' ' :: '.' :: ' ' :: B) false none hA
  obtain ⟨p2, h2⟩ := replaceFrom_reSpaces_space jm1 p1 ' ' ('.' :: ' ' :: B) (by decide)
  obtain ⟨p4, h4⟩ := replaceFrom_reSpaces_space false (some '.') ' ' B (by decide)
  obtain ⟨jm5, p5, h5⟩ := replaceFrom_reSpaces_word B [] true p4 hB
  have hdrop : ('.' :: ' ' :: B).dropWhile isPerlSpace = '.' :: ' ' :: B := by
    rw [List.dropWhile_cons_of_neg (by decide)]
  rw [List.append_nil] at h5
  rw [h1, h2, hdrop, replaceFrom_reSpaces_other _ _ _ _ (by decide), h4,
    dropWhile_isPerlSpace_word B hB, h5, replaceFrom_reSpaces_nil, List.append_nil]

/-- What `CleanTitleForSearch` returns on "A feat B" and on "A feat. B", for all
non-empty words `A` and `B` of ASCII letters other than "feat" and for every
letter case of "feat": the first is cleaned to "A B", the second to "A . B",
with the period of "feat." left in place. -/
theorem CleanTitleForSearch_feat_between_words (A B : List Char) (f e a t : Char)
    (hA : ∀ c ∈ A, ('a' ≤ c ∧ c ≤ 'z') ∨ ('A' ≤ c ∧ c ≤ 'Z'))
    (hB : ∀ c ∈ B, ('a' ≤ c ∧ c ≤ 'z') ∨ ('A' ≤ c ∧ c ≤ 'Z'))
    (hAne : A ≠ []) (hBne : B ≠ [])
    (hAfeat : ∀ f e a t : Char, (f = 'f' ∨ f = 'F') → (e = 'e' ∨ e = 'E') →
      (a = 'a' ∨ a = 'A') → (t = 't' ∨ t = 'T') → A ≠ [f, e, a, t])
    (hBfeat : ∀ f e a t : Char, (f = 'f' ∨ f = 'F') → (e = 'e' ∨ e = 'E') →
      (a = 'a' ∨ a = 'A') → (t = 't' ∨ t = 'T') → B ≠ [f, e, a, t])
    (hf : f = 'f' ∨ f = 'F') (he : e = 'e' ∨ e = 'E') (ha : a = 'a' ∨ a = 'A')
    (ht : t = 't' ∨ t = 'T') :
    CleanTitleForSearch (String.mk (A ++ ' ' :: f :: e :: a :: t :: ' ' :: B))
      = String.mk (A ++ ' ' :: B) ∧
    CleanTitleForSearch (String.mk (A ++ ' ' :: f :: e :: a :: t :: '.' :: ' ' :: B))
      = String.mk (A ++ ' ' :: '.' :: ' ' :: B) := by
  have lf : ('a' ≤ f ∧ f ≤ 'z') ∨ ('A' ≤ f ∧ f ≤ 'Z') := by rcases hf with rfl | rfl <;> decide
  have le : ('a' ≤ e ∧ e ≤ 'z') ∨ ('A' ≤ e ∧ e ≤ 'Z') := by rcases he with rfl | rfl <;> decide
  have la : ('a' ≤ a ∧ a ≤ 'z') ∨ ('A' ≤ a ∧ a ≤ 'Z') := by rcases ha with rfl | rfl <;> decide
  have lt : ('a' ≤ t ∧ t ≤ 'z') ∨ ('A' ≤ t ∧ t ≤ 'Z') := by rcases ht with rfl | rfl <;> decide
  have hAs : ∀ c ∈ A, isPerlSpace c = false := fun c hc => (letter_plain c (hA c hc)).1
  have hBs : ∀ c ∈ B, isPerlSpace c = false := fun c hc => (letter_plain c (hB c hc)).1
  have hclean : ∀ c, (('a' ≤ c ∧ c ≤ 'z') ∨ ('A' ≤ c ∧ c ≤ 'Z')) ∨ c = ' ' ∨ c = '.' →
      (c == '(') = false ∧ (c == '“' || c == '”' || c == '"' || c == '–') = false := by
    intro c hc
    rcases hc with hc | rfl | rfl
    · exact ⟨(letter_plain c hc).2.2.1, (letter_plain c hc).2.2.2.1⟩
    · decide
    · decide
  have hhead : ∀ (mid : List Char) (c : Char), (A ++ mid).head? = some c →
      strings.unicodeIsSpace c = false := by
    intro mid c hc
    cases A with
    | nil => exact absurd rfl hAne
    | cons x xs =>
      simp only [List.cons_append, List.head?_cons, Option.some.injEq] at hc
      subst hc
      exact (letter_plain x (hA x (by simp))).2.1
  have hlast : ∀ (pre : List Char) (c : Char), (pre ++ B).getLast? = some c →
      strings.unicodeIsSpace c = false := by
    intro pre c hc
    rw [List.getLast?_append_of_ne_nil _ hBne] at hc
    exact (letter_plain c (hB c (List.mem_of_getLast?_eq_some hc))).2.1
  constructor
  · have h12 := replace_parens_special_id (A ++ ' ' :: f :: e :: a :: t :: ' ' :: B) (by
      intro c hc
      apply hclean
      simp only [List.mem_append, List.mem_cons] at hc
      rcases hc with hc | rfl | rfl | rfl | rfl | rfl | rfl | hc
      · exact Or.inl (hA c hc)
      · exact Or.inr (Or.inl rfl)
      · exact Or.inl lf
      · exact Or.inl le
      · exact Or.inl la
      · exact Or.inl lt
      · exact Or.inr (Or.inl rfl)
      · exact Or.inl (hB c hc))
    unfold CleanTitleForSearch
    simp only [h12]
    show String.mk (strings.TrimSpace (replaceFrom reSpaces [' '] 0 false none
      (replaceFrom reFeat [] 0 false none (A ++ ' ' :: f :: e :: a :: t :: ' ' :: B)))) = _
    rw [replaceFrom_reFeat_plain A B f e a t hA hB hAfeat hBfeat hf he ha ht,
      replaceFrom_reSpaces_two_spaces A B hAs hBs,
      TrimSpace_id _ (hhead _) (by
        intro c hc
        exact hlast (A ++ [' ']) c (by simpa using hc))]
  · have h12 := replace_parens_special_id
      (A ++ ' ' :: f :: e :: a :: t :: '.' :: ' ' :: B) (by
      intro c hc
      apply hclean
      simp only [List.mem_append, List.mem_cons] at hc
      rcases hc with hc | rfl | rfl | rfl | rfl | rfl | rfl | rfl | hc
      · exact Or.inl (hA c hc)
      · exact Or.inr (Or.inl rfl)
      · exact Or.inl lf
      · exact Or.inl le
      · exact Or.inl la
      · exact Or.inl lt
      · exact Or.inr (Or.inr rfl)
      · exact Or.inr (Or.inl rfl)
      · exact Or.inl (hB c hc))
    unfold CleanTitleForSearch
    simp only [h12]
    show String.mk (strings.TrimSpace (replaceFrom reSpaces [' '] 0 false none
      (replaceFrom reFeat [] 0 false none
        (A ++ ' ' :: f :: e :: a :: t :: '.' :: ' ' :: B)))) = _
    rw [replaceFrom_reFeat_period A B f e a t hA hB hAfeat hBfeat hf he ha ht,
      replaceFrom_reSpaces_period A B hAs hBs,
      TrimSpace_id _ (hhead _) (by
        intro c hc
        exact hlast (A ++ [' ', '.', ' ']) c (by simpa using hc))]

/-- The words "Song" and "Guest" with "feat" between them, from the statement
for all words: the cleaned titles are "Song Guest" and "Song . Guest". -/
theorem CleanTitleForSearch_feat_between_Song_and_Guest :
    CleanTitleForSearch "Song feat Guest" = "Song Guest" ∧
      CleanTitleForSearch "Song feat. Guest" = "Song . Guest" :=
  CleanTitleForSearch_feat_between_words "Song".data "Guest".data 'f' 'e' 'a' 't'
    (by decide) (by decide) (by decide) (by decide)
    (by
      intro f e a t hf he ha ht h
      have h1 := (List.cons.inj h).1
      rcases hf with rfl | rfl <;> exact absurd h1 (by decide))
    (by
      intro f e a t hf he ha ht h
      have h1 : "Guest".data.length = 4 := congrArg List.length h
      exact absurd h1 (by decide))
    (Or.inl rfl) (Or.inl rfl) (Or.inl rfl) (Or.inl rfl)

/-- Claim C12 fails on the code at "Song feat. Guest": `CleanTitleForSearch`
returns "Song . Guest", the period of "feat." is left in place, where the claim
has "Song Guest"; the expression `\bfeat\.?\b` can take the period only when a
word character follows it.  Without the period, "Song feat Guest" and
"Song FEAT Guest" are cleaned to "Song Guest". -/
theorem CleanTitleForSearch_leaves_period_of_feat :
    CleanTitleForSearch "Song feat. Guest" = "Song . Guest" ∧
      CleanTitleForSearch "Song feat. Guest" ≠ "Song Guest" ∧
      CleanTitleForSearch "Song Feat. Guest" = "Song . Guest" ∧
      CleanTitleForSearch "Song feat Guest" = "Song Guest" ∧
      CleanTitleForSearch "Song FEAT Guest" = "Song Guest" := by
  decide

end utils
end PlaylistDownload

namespace PlaylistDownload
namespace tags

/-- The loop of `isRuneInvalid` finds a rune exactly when it is in the table. -/
theorem isRuneInvalidLoop_eq_true_iff (r : Char) (table : List Char) :
    isRuneInvalidLoop r table = true ↔ r ∈ table := by
  induction table with
  | nil => simp [isRuneInvalidLoop]
  | cons x rest ih =>
    by_cases h : r = x
    · simp [isRuneInvalidLoop, h]
    · simp [isRuneInvalidLoop, h, ih]

/-- The runes `isRuneInvalid` reports. -/
theorem isRuneInvalid_eq_true_iff (r : Char) :
    isRuneInvalid r = true ↔
      r ∈ ['⟁', '…', '’', '‘', '“', '”', '–', '—', '•', '♪', '♫', '♩', '♬', '♭', '♮'] :=
  isRuneInvalidLoop_eq_true_iff r invalidRunes

/-- The builder loop of `removeUnsupportedRunes` started with `out`. -/
theorem removeUnsupportedRunes_loop (runes : List Char) (out : String) :
    (runes.foldl (fun out r => if isRuneInvalid r then out.push '-' else out.push r) out).data
      = out.data ++ runes.map (fun r => if isRuneInvalid r = true then '-' else r) := by
  induction runes generalizing out with
  | nil => simp
  | cons r rest ih =>
    rw [List.foldl_cons, ih]
    by_cases h : isRuneInvalid r = true
    · simp [h, String.push]
    · simp [h, String.push]

/-- The string `removeUnsupportedRunes` returns, rune by rune. -/
theorem removeUnsupportedRunes_data (s : String) :
    (removeUnsupportedRunes s).data
      = s.data.map (fun r => if isRuneInvalid r = true then '-' else r) := by
  unfold removeUnsupportedRunes
  rw [removeUnsupportedRunes_loop]
  rfl

/-- The string `removeUnsupportedRunes` returns has no rune of the table. -/
theorem removeUnsupportedRunes_clean (s : String) (c : Char)
    (hc : c ∈ (removeUnsupportedRunes s).data) :
    c ∉ ['⟁', '…', '’', '‘', '“', '”', '–', '—', '•', '♪', '♫', '♩', '♬', '♭', '♮'] := by
  rw [removeUnsupportedRunes_data, List.mem_map] at hc
  obtain ⟨r, _, rfl⟩ := hc
  rw [← isRuneInvalid_eq_true_iff]
  by_cases h : isRuneInvalid r = true
  · rw [if_pos h]
    decide
  · rw [if_neg h]
    exact h

/-- Claim C13.  For every string `s`, `removeUnsupportedRunes(s)` has the same
number of characters as `s`; at every position a character of the disallowed
set (U+27C1, the ellipsis, the curly single and double quotes, the en dash, the
em dash, the bullet, the notes U+2669 to U+266C, the flat and the natural sign)
is replaced by a hyphen and any other character is unchanged; the result
contains no disallowed character.  Hence the title, artist and album strings
`TagFileWithSpotifyMetadata` hands to the tag writer, which are the results of
`removeUnsupportedRunes` on the track name, the joined album artists and the
album name, contain no disallowed character. -/
theorem removeUnsupportedRunes_replaces_each_disallowed_rune (s : String) :
    (removeUnsupportedRunes s).length = s.length ∧
    (∀ i : Nat, (removeUnsupportedRunes s).data[i]? =
      (s.data[i]?).map (fun c =>
        if c ∈ ['⟁', '…', '’', '‘', '“', '”', '–', '—', '•', '♪', '♫', '♩', '♬', '♭', '♮']
        then '-' else c)) ∧
    (∀ c ∈ (removeUnsupportedRunes s).data,
      c ∉ ['⟁', '…', '’', '‘', '“', '”', '–', '—', '•', '♪', '♫', '♩', '♬', '♭', '♮']) ∧
    (∀ (openErr saveErr : Option String) (trackData : spotify.FullTrack)
        (coverArt : List Nat) (frames : TagFrames),
      (TagFileWithSpotifyMetadata openErr saveErr trackData coverArt).2 = some frames →
      (frames.title = removeUnsupportedRunes trackData.Name ∧
        frames.artist = removeUnsupportedRunes (joinArtists trackData.Album.Artists) ∧
        frames.album = removeUnsupportedRunes trackData.Album.Name) ∧
      ∀ c, c ∈ frames.title.data ∨ c ∈ frames.artist.data ∨ c ∈ frames.album.data →
        c ∉ ['⟁', '…', '’', '‘', '“', '”', '–', '—', '•', '♪', '♫', '♩', '♬', '♭', '♮']) := by
  refine ⟨?_, ?_, ?_, ?_⟩
  · show (removeUnsupportedRunes s).data.length = s.data.length
    rw [removeUnsupportedRunes_data, List.length_map]
  · intro i
    rw [removeUnsupportedRunes_data, List.getElem?_map]
    cases s.data[i]? with
    | none => rfl
    | some c => simp only [Option.map, isRuneInvalid_eq_true_iff]
  · exact removeUnsupportedRunes_clean s
  · intro openErr saveErr trackData coverArt frames hframes
    have hfr : frames.title = removeUnsupportedRunes trackData.Name ∧
        frames.artist = removeUnsupportedRunes (joinArtists trackData.Album.Artists) ∧
        frames.album = removeUnsupportedRunes trackData.Album.Name := by
      unfold TagFileWithSpotifyMetadata at hframes
      cases openErr with
      | some err => simp at hframes
      | none =>
        cases saveErr with
        | some err =>
          simp only [Option.some.injEq] at hframes
          subst hframes
          exact ⟨rfl, rfl, rfl⟩
        | none =>
          simp only [Option.some.injEq] at hframes
          subst hframes
          exact ⟨rfl, rfl, rfl⟩
    refine ⟨hfr, ?_⟩
    intro c hc
    rcases hc with hc | hc | hc
    · rw [hfr.1] at hc
      exact removeUnsupportedRunes_clean _ c hc
    · rw [hfr.2.1] at hc
      exact removeUnsupportedRunes_clean _ c hc
    · rw [hfr.2.2] at hc
      exact removeUnsupportedRunes_clean _ c hc

/-- Claim C13 at the title "Don’t Stop… ♪": the curly quote, the ellipsis and
the note become hyphens, and the title handed to the tag writer is that string. -/
theorem removeUnsupportedRunes_replaces_each_disallowed_rune_witness :
    (removeUnsupportedRunes "Don’t Stop… ♪").length = "Don’t Stop… ♪".length ∧
      removeUnsupportedRunes "Don’t Stop… ♪" = "Don-t Stop- -" ∧
      (TagFileWithSpotifyMetadata none none
          { Name := "Don’t Stop… ♪", Artists := [{ Name := "A" }],
            Album := { Name := "B–C", Artists := [{ Name := "A" }, { Name := "D" }],
                       ReleaseDate := "1998" },
            Duration := 0 } []).2
        = some { title := "Don-t Stop- -", artist := "A, D", album := "B-C", year := "1998",
                 picture := none } :=
  ⟨(removeUnsupportedRunes_replaces_each_disallowed_rune "Don’t Stop… ♪").1, by decide,
    by decide⟩

end tags
end PlaylistDownload
